import Mathlib

/-!
# Verification of the HAllocator best-fit arena allocator

Shallow embedding of the HAllocator repository:
* `src/rb-tree/rb-tree.hpp` — the intrusive red-black tree (colors packed in
  bit 63 of the node's `value` word);
* `src/halloc/src/Block.ipp` — a single arena (`Block`): spatial region list,
  split (`shrink_then_align`) and coalescing (`coalesce_nodes`);
* `src/halloc/src/BlocksContainer.ipp` — the arena pool (`BlocksContainer`);
* `src/unnamed/part_012` (`Halloc.hpp`) — the typed façade.

Machine words (`std::size_t`) are modelled as `Nat`; every bit operation of the
source is rendered arithmetically (bit k of `v` is `v / 2 ^ k % 2`), which
agrees with the C++ `|`/`&~` operations on all 64-bit values.  Pointers are
modelled as natural-number addresses; the doubly-linked spatial list of an
arena is modelled as a Lean list in address order (so `next`/`prev` become the
list successor/predecessor), and the parent-pointer loops of the red-black
tree are modelled with an explicit path context (zipper), the context being
exactly the chain of parent pointers of the source.
-/

namespace HA

/-! ## Packed word helpers

From `rb-tree.hpp` (bit 63 = color) and `Block.ipp` (bit 62 = used flag,
bits 0–61 = payload size). -/

/-- `hh::rb_tree::get_value`: `value & ~(1ull << 63)` — clear the color bit. -/
def rbGetValue (v : Nat) : Nat := v % 2 ^ 63

/-- `hh::rb_tree::set_color_red`: `value |= (1ull << 63)`. -/
def setColorRed (v : Nat) : Nat := v % 2 ^ 63 + 2 ^ 63

/-- `hh::rb_tree::set_color_black`: `value &= ~(1ull << 63)`. -/
def setColorBlack (v : Nat) : Nat := v % 2 ^ 63

/-- `hh::rb_tree::is_red`: bit 63 of the word. -/
def isRedW (v : Nat) : Bool := v / 2 ^ 63 % 2 = 1

/-- `hh::rb_tree::is_black`: negation of `is_red`. -/
def isBlackW (v : Nat) : Bool := ¬ (v / 2 ^ 63 % 2 = 1)

/-- `hh::rb_tree::get_color` (true = red). -/
def getColor (v : Nat) : Bool := isRedW v

/-- `Block::get_actual_value`: `value & ~(3ull << 62)` — clear bits 62–63. -/
def getActualValue (v : Nat) : Nat := v % 2 ^ 62

/-- `Block::mark_as_used`: `value |= (1ull << 62)`. -/
def markAsUsed (v : Nat) : Nat := 2 ^ 63 * (v / 2 ^ 63) + 2 ^ 62 + v % 2 ^ 62

/-- `Block::mark_as_free`: `value &= ~(1ull << 62)`. -/
def markAsFree (v : Nat) : Nat := 2 ^ 63 * (v / 2 ^ 63) + v % 2 ^ 62

/-- `Block::is_free`: bit 62 is clear. -/
def isFreeW (v : Nat) : Bool := v / 2 ^ 62 % 2 = 0

theorem rbGetValue_setColorRed (v : Nat) : rbGetValue (setColorRed v) = rbGetValue v := by
  have h : v % 2 ^ 63 < 2 ^ 63 := Nat.mod_lt _ (by norm_num)
  simp only [rbGetValue, setColorRed]
  omega

theorem rbGetValue_setColorBlack (v : Nat) :
    rbGetValue (setColorBlack v) = rbGetValue v := by
  simp [rbGetValue, setColorBlack, Nat.mod_mod_of_dvd]

theorem isRedW_setColorRed (v : Nat) : isRedW (setColorRed v) = true := by
  have h : v % 2 ^ 63 < 2 ^ 63 := Nat.mod_lt _ (by norm_num)
  simp only [isRedW, setColorRed, decide_eq_true_eq]
  omega

theorem isRedW_setColorBlack (v : Nat) : isRedW (setColorBlack v) = false := by
  have h : v % 2 ^ 63 < 2 ^ 63 := Nat.mod_lt _ (by norm_num)
  simp only [isRedW, setColorBlack, decide_eq_false_iff_not]
  omega

/-! ## The red-black tree (`hh::rb_tree`)

Nodes live in the arena's region headers; the tree links (`left`, `right`,
`parent`) are modelled by an inductive tree of `(address, value-word)` pairs.
The `parent` chain of the source is modelled by an explicit path context
(`Ctx`): a list of `Frame`s, innermost first, each recording on which side the
current node hangs below its parent, the parent's address and word, and the
sibling subtree. -/

inductive Tree where
  | nil : Tree
  | node (l : Tree) (a : Nat) (v : Nat) (r : Tree) : Tree
deriving DecidableEq, Repr

/-- `x && is_red(x->value)` for a possibly-null node. -/
def Tree.topRed : Tree → Bool
  | .nil => false
  | .node _ _ v _ => isRedW v

/-- `x == nullptr || is_black(x->value)` for a possibly-null node. -/
def Tree.topBlackOrNil : Tree → Bool
  | .nil => true
  | .node _ _ v _ => isBlackW v

/-- `if (x) set_color_black(x->value)`. -/
def Tree.setBlackTop : Tree → Tree
  | .nil => .nil
  | .node l a v r => .node l a (setColorBlack v) r

/-- `set_color_red(x->value)` on a non-null node (identity on null). -/
def Tree.setRedTop : Tree → Tree
  | .nil => .nil
  | .node l a v r => .node l a (setColorRed v) r

/-- Which side of its parent a node hangs on. -/
inductive Dir where
  | left : Dir
  | right : Dir
deriving DecidableEq, Repr

/-- One step of the parent chain: the hole is the `dir`-child of a parent
with address `a`, word `v`, and other child `sib`. -/
structure Frame where
  dir : Dir
  a : Nat
  v : Nat
  sib : Tree
deriving DecidableEq, Repr

/-- A parent chain, innermost parent first. -/
abbrev Ctx := List Frame

/-- Re-attach a subtree below one parent frame. -/
def plug1 (f : Frame) (t : Tree) : Tree :=
  match f.dir with
  | .left => .node t f.a f.v f.sib
  | .right => .node f.sib f.a f.v t

/-- Re-attach a subtree below a whole parent chain. -/
def plug : Tree → Ctx → Tree
  | t, [] => t
  | t, f :: c => plug (plug1 f t) c

/-- In-order list of `(address, value-with-color-bit-cleared)` pairs. -/
def Tree.entries : Tree → List (Nat × Nat)
  | .nil => []
  | .node l a v r => l.entries ++ (a, rbGetValue v) :: r.entries

/-- `hh::rb_tree::fix_insert`: the rebalancing loop after insertion,
translated to recursion on the parent chain of `z`.  Each loop iteration
reads `z->parent` (the head frame) and `z->parent->parent` (the second
frame); the uncle is the second frame's sibling.  When the parent is red and
there is no grandparent frame the C++ dereferences a null pointer (this is
unreachable from a valid tree, whose root is black); the model exits the
loop there. -/
def fix_insert : Ctx → Tree → Tree
  | [], z => z.setBlackTop
  | f1 :: rest, z =>
    if isRedW f1.v = false then (plug (plug1 f1 z) rest).setBlackTop
    else
      match rest with
      | [] => (plug1 f1 z).setBlackTop
      | f2 :: rest2 =>
        match f2.dir with
        | .left =>
          -- parent is the grandparent's left child; uncle y = grandparent->right
          if f2.sib.topRed then
            -- red uncle: recolor uncle and parent black, grandparent red, z = grandparent
            fix_insert rest2
              (.node (plug1 { f1 with v := setColorBlack f1.v } z) f2.a (setColorRed f2.v)
                f2.sib.setBlackTop)
          else
            match f1.dir with
            | .right =>
              -- z is a right child: z = parent; left_rotate(z); then recolor + right_rotate
              match z with
              | .nil => (plug z (f1 :: rest)).setBlackTop
              | .node zl za zv zr =>
                (plug
                  (.node (.node f1.sib f1.a f1.v zl) za (setColorBlack zv)
                    (.node zr f2.a (setColorRed f2.v) f2.sib))
                  rest2).setBlackTop
            | .left =>
              -- zig-zig: parent black, grandparent red, right_rotate(grandparent)
              (plug
                (.node z f1.a (setColorBlack f1.v)
                  (.node f1.sib f2.a (setColorRed f2.v) f2.sib))
                rest2).setBlackTop
        | .right =>
          -- mirror image: parent is the grandparent's right child; uncle = grandparent->left
          if f2.sib.topRed then
            fix_insert rest2
              (.node f2.sib.setBlackTop f2.a (setColorRed f2.v)
                (plug1 { f1 with v := setColorBlack f1.v } z))
          else
            match f1.dir with
            | .left =>
              match z with
              | .nil => (plug z (f1 :: rest)).setBlackTop
              | .node zl za zv zr =>
                (plug
                  (.node (.node f2.sib f2.a (setColorRed f2.v) zl) za (setColorBlack zv)
                    (.node zr f1.a f1.v f1.sib))
                  rest2).setBlackTop
            | .right =>
              (plug
                (.node (.node f2.sib f2.a (setColorRed f2.v) f1.sib) f1.a (setColorBlack f1.v)
                  z)
                rest2).setBlackTop

/-- The descent loop of `hh::rb_tree::insert`: walk down comparing
`get_value`, recording the parent chain (ties go right). -/
def descend : Tree → Nat → Ctx → Ctx
  | .nil, _, acc => acc
  | .node l a v r, nv, acc =>
    if rbGetValue nv < rbGetValue v then descend l nv (⟨.left, a, v, r⟩ :: acc)
    else descend r nv (⟨.right, a, v, l⟩ :: acc)

/-- `hh::rb_tree::insert`: BST descent, attach the new node as a red leaf,
then `fix_insert`. -/
def insert (t : Tree) (na nv : Nat) : Tree :=
  fix_insert (descend t nv []) (.node .nil na (setColorRed nv) .nil)

/-- `hh::rb_tree::lower_bound` with comparator `cmp`: record the current node
as candidate and go left whenever `cmp key value` holds, else go right; the
last (deepest) recorded candidate wins. -/
def lower_bound : Tree → Nat → (Nat → Nat → Bool) → Option (Nat × Nat)
  | .nil, _, _ => none
  | .node l a v r, key, cmp =>
    if cmp key (rbGetValue v) then
      match lower_bound l key cmp with
      | some res => some res
      | none => some (a, v)
    else lower_bound r key cmp

/-- Locate the node with address `tgt`, returning its parent chain and the
subtree rooted at it.  (The C++ `remove` receives the node pointer directly;
addresses are unique in every reachable tree, so the search returns the same
node.) -/
def findCtx : Tree → Nat → Ctx → Option (Ctx × Tree)
  | .nil, _, _ => none
  | .node l a v r, tgt, acc =>
    if a = tgt then some (acc, .node l a v r)
    else
      match findCtx l tgt (⟨.left, a, v, r⟩ :: acc) with
      | some res => some res
      | none => findCtx r tgt (⟨.right, a, v, l⟩ :: acc)

/-- The successor search of `remove`: `y = z->right; while (y->left) y = y->left`,
recording the path from `z->right` down to `y`. -/
def minCtx : Tree → Ctx → Ctx × Tree
  | .nil, acc => (acc, .nil)
  | .node l a v r, acc =>
    match l with
    | .nil => (acc, .node l a v r)
    | .node _ _ _ _ => minCtx l (⟨.left, a, v, r⟩ :: acc)

/-- `z_color = get_color(z->value); if (z_color) set_color_red(y) else set_color_black(y)`. -/
def copyColorFrom (src dst : Nat) : Nat :=
  if getColor src then setColorRed dst else setColorBlack dst

/-- Result of one arm of the `fix_remove` loop body: either continue the loop
one level up with a rebuilt subtree, or terminate (`x = root`). -/
inductive FixStep where
  | up (s : Tree) : FixStep
  | done (s : Tree) : FixStep

/-- Cases 2–4 of `fix_remove` for `x` on the LEFT of its parent
(`pa`,`pv`), with black sibling `w = node wl wa wv wr` on the right. -/
def solveL (x : Tree) (pa pv : Nat) (wl : Tree) (wa wv : Nat) (wr : Tree) : FixStep :=
  if wl.topBlackOrNil && wr.topBlackOrNil then
    -- case 2: recolor sibling red, move up (x = x_parent)
    .up (.node x pa pv (.node wl wa (setColorRed wv) wr))
  else if wr.topBlackOrNil then
    -- case 3: w->left red: blacken it, redden w, right_rotate(w); then case 4
    match wl with
    | .node wll wla wlv wlr =>
      .done (.node (.node x pa (setColorBlack pv) wll) wla
        (copyColorFrom pv (setColorBlack wlv))
        (.node wlr wa (setColorBlack (setColorRed wv)) wr))
    | .nil => .done (.node x pa pv (.node wl wa wv wr))
      -- unreachable: this branch requires w->left to be red, hence non-null
  else
    -- case 4: w->right red: w takes parent's color, parent black,
    -- w->right black, left_rotate(parent), x = root
    .done (.node (.node x pa (setColorBlack pv) wl) wa (copyColorFrom pv wv) wr.setBlackTop)

/-- Mirror image of `solveL`: `x` on the RIGHT, black sibling `w` on the left. -/
def solveR (x : Tree) (pa pv : Nat) (wl : Tree) (wa wv : Nat) (wr : Tree) : FixStep :=
  if wr.topBlackOrNil && wl.topBlackOrNil then
    .up (.node (.node wl wa (setColorRed wv) wr) pa pv x)
  else if wl.topBlackOrNil then
    -- mirror case 3: w->right red: blacken it, redden w, left_rotate(w); then case 4
    match wr with
    | .node wrl wra wrv wrr =>
      .done (.node (.node wl wa (setColorBlack (setColorRed wv)) wrl) wra
        (copyColorFrom pv (setColorBlack wrv))
        (.node wrr pa (setColorBlack pv) x))
    | .nil => .done (.node (.node wl wa wv wr) pa pv x)
      -- unreachable: this branch requires w->right to be red, hence non-null
  else
    -- mirror case 4: w->left red
    .done (.node wl.setBlackTop wa (copyColorFrom pv wv) (.node wr pa (setColorBlack pv) x))

/-- `hh::rb_tree::fix_remove`: the double-black fix-up loop, translated to
recursion on the parent chain of `x`.  The loop exits when `x` is the root
(empty chain) or `x` is red; afterwards `if (x) set_color_black(x->value)`.
Case 1 (red sibling) recolors and rotates, after which cases 2–4 run against
the new sibling under the extended chain; since case 1 painted the parent
red, a case-2 outcome exits the loop at the next test.  Null-sibling
branches mirror pointer dereferences the C++ performs blindly; they are
unreachable from valid trees. -/
def fix_remove : Ctx → Tree → Tree
  | [], x => x.setBlackTop
  | f :: rest, x =>
    if x.topRed then plug x.setBlackTop (f :: rest)
    else
      match f.dir with
      | .left =>
        match f.sib with
        | .nil => plug x (f :: rest)
        | .node wl wa wv wr =>
          if isRedW wv then
            match wl with
            | .nil => plug x (f :: rest)
            | .node wll wla wlv wlr =>
              match solveL x f.a (setColorRed f.v) wll wla wlv wlr with
              | .up s => plug s.setBlackTop (⟨.left, wa, setColorBlack wv, wr⟩ :: rest)
              | .done s => (plug s (⟨.left, wa, setColorBlack wv, wr⟩ :: rest)).setBlackTop
          else
            match solveL x f.a f.v wl wa wv wr with
            | .up s => fix_remove rest s
            | .done s => (plug s rest).setBlackTop
      | .right =>
        match f.sib with
        | .nil => plug x (f :: rest)
        | .node wl wa wv wr =>
          if isRedW wv then
            match wr with
            | .nil => plug x (f :: rest)
            | .node wrl wra wrv wrr =>
              match solveR x f.a (setColorRed f.v) wrl wra wrv wrr with
              | .up s => plug s.setBlackTop (⟨.right, wa, setColorBlack wv, wl⟩ :: rest)
              | .done s => (plug s (⟨.right, wa, setColorBlack wv, wl⟩ :: rest)).setBlackTop
          else
            match solveR x f.a f.v wl wa wv wr with
            | .up s => fix_remove rest s
            | .done s => (plug s rest).setBlackTop

/-- `hh::rb_tree::remove`, by address.  Mirrors the three cases of the C++:
no left child (transplant right child), no right child (transplant left
child), two children (splice in the in-order successor `y`, which inherits
`z`'s color; `x = y->right` takes `y`'s place).  `fix_remove` runs exactly
when the spliced-out node was black. -/
def remove (t : Tree) (tgt : Nat) : Tree :=
  match findCtx t tgt [] with
  | none => t
  | some (ctx, z) =>
    match z with
    | .nil => t
    | .node zl _za zv zr =>
      match zl with
      | .nil =>
        if isBlackW zv then fix_remove ctx zr else plug zr ctx
      | .node _ _ _ _ =>
        match zr with
        | .nil =>
          if isBlackW zv then fix_remove ctx zl else plug zl ctx
        | .node _ _ _ _ =>
          match minCtx zr [] with
          | (yctx, .node _ ya yv yr) =>
            let ctxx : Ctx := yctx ++ (⟨.right, ya, copyColorFrom zv yv, zl⟩ :: ctx)
            if isBlackW yv then fix_remove ctxx yr else plug yr ctxx
          | (_, .nil) => t

/-! ## Red-black validity

`Balanced t c n`: `t` satisfies the red-black invariants, has root color `c`
(read from bit 63 of the root word) and black-height `n`. -/

inductive Color where
  | red : Color
  | black : Color
deriving DecidableEq, Repr

inductive Balanced : Tree → Color → Nat → Prop where
  | nil : Balanced .nil .black 0
  | red : isRedW v = true → Balanced l .black n → Balanced r .black n →
      Balanced (.node l a v r) .red n
  | black : isRedW v = false → Balanced l c₁ n → Balanced r c₂ n →
      Balanced (.node l a v r) .black (n + 1)

theorem isBlackW_eq_not_isRedW (v : Nat) : isBlackW v = !isRedW v := by
  unfold isBlackW isRedW
  rcases Nat.mod_two_eq_zero_or_one (v / 2 ^ 63) with h | h <;> rw [h] <;> rfl

theorem isRedW_copyColorFrom (s d : Nat) : isRedW (copyColorFrom s d) = isRedW s := by
  unfold copyColorFrom getColor
  rcases h : isRedW s with _ | _ <;>
    simp [h, isRedW_setColorRed, isRedW_setColorBlack]

theorem rbGetValue_copyColorFrom (s d : Nat) :
    rbGetValue (copyColorFrom s d) = rbGetValue d := by
  unfold copyColorFrom
  rcases h : getColor s with _ | _ <;>
    simp [h, rbGetValue_setColorRed, rbGetValue_setColorBlack]

theorem balanced_nil_inv (h : Balanced .nil c n) : c = .black ∧ n = 0 := by
  cases h; exact ⟨rfl, rfl⟩

theorem balanced_topRed_true (h : Balanced t c n) (hr : t.topRed = true) : c = .red := by
  cases h with
  | nil => simp [Tree.topRed] at hr
  | red hv hl hr' => rfl
  | black hv hl hr' => simp [Tree.topRed, hv] at hr

theorem balanced_topRed_false (h : Balanced t c n) (hr : t.topRed = false) : c = .black := by
  cases h with
  | nil => rfl
  | red hv hl hr' => simp [Tree.topRed, hv] at hr
  | black hv hl hr' => rfl

theorem balanced_topBlackOrNil (h : Balanced t c n) (hb : t.topBlackOrNil = true) :
    c = .black := by
  cases h with
  | nil => rfl
  | red hv hl hr' => simp [Tree.topBlackOrNil, isBlackW_eq_not_isRedW, hv] at hb
  | black hv hl hr' => rfl

theorem balanced_black_topBlackOrNil (h : Balanced t .black n) :
    t.topBlackOrNil = true := by
  cases h with
  | nil => rfl
  | black hv hl hr' => simp [Tree.topBlackOrNil, isBlackW_eq_not_isRedW, hv]

theorem setBlackTop_balanced (h : Balanced t c n) :
    Balanced t.setBlackTop .black (match c with | .red => n + 1 | .black => n) := by
  cases h with
  | nil => exact .nil
  | red hv hl hr' => exact .black (isRedW_setColorBlack _) hl hr'
  | black hv hl hr' => exact .black (isRedW_setColorBlack _) hl hr'

theorem setBlackTop_balanced_ex (h : Balanced t c n) :
    ∃ n', Balanced t.setBlackTop .black n' := ⟨_, setBlackTop_balanced h⟩

theorem setRedTop_balanced (hl : Balanced l c₁ n) (hr : Balanced r c₂ n)
    (h1 : c₁ = .black) (h2 : c₂ = .black) :
    Balanced (Tree.node l a v r).setRedTop .red n := by
  subst h1; subst h2
  exact .red (isRedW_setColorRed _) hl hr

/-- Validity of a parent chain relative to a hole of black-height `n`; the
whole tree then has black-height `m`.  A red parent frame demands a black
sibling and a black parent of its own. -/
def headBlack : Ctx → Bool
  | [] => true
  | f :: _ => isBlackW f.v

def lastBlack : Ctx → Bool
  | [] => true
  | [f] => isBlackW f.v
  | _ :: f :: rest => lastBlack (f :: rest)

inductive CtxBal : Ctx → Nat → Nat → Prop where
  | nil : CtxBal [] n n
  | black {d a v sib rest n m c} : isRedW v = false → Balanced sib c n →
      CtxBal rest (n + 1) m → CtxBal (⟨d, a, v, sib⟩ :: rest) n m
  | red {d a v sib rest n m} : isRedW v = true → Balanced sib .black n →
      headBlack rest = true → CtxBal rest n m → CtxBal (⟨d, a, v, sib⟩ :: rest) n m

theorem plug1_balanced_black (hv : isRedW v = false) (hs : Balanced sib c n)
    (ht : Balanced t c' n) :
    Balanced (plug1 ⟨d, a, v, sib⟩ t) .black (n + 1) := by
  cases d with
  | left => exact .black hv ht hs
  | right => exact .black hv hs ht

theorem plug1_balanced_red (hv : isRedW v = true) (hs : Balanced sib .black n)
    (ht : Balanced t .black n) :
    Balanced (plug1 ⟨d, a, v, sib⟩ t) .red n := by
  cases d with
  | left => exact .red hv ht hs
  | right => exact .red hv hs ht

theorem plug_balanced (hc : CtxBal ctx n m) (ht : Balanced t c n)
    (hint : headBlack ctx = false → c = .black) :
    ∃ c', Balanced (plug t ctx) c' m := by
  induction hc generalizing t c with
  | nil => exact ⟨c, ht⟩
  | @black d a v sib rest n' m' c₀ hv hs _ ih =>
    exact ih (plug1_balanced_black hv hs ht) (fun _ => rfl)
  | @red d a v sib rest n' m' hv hs hh _ ih =>
    have hcb : c = .black := hint (by simp [headBlack, isBlackW_eq_not_isRedW, hv])
    subst hcb
    exact ih (plug1_balanced_red hv hs ht) (fun h => by rw [hh] at h; cases h)

theorem setBlackTop_plug1 (d : Dir) (a v : Nat) (sib t : Tree) :
    (plug1 ⟨d, a, v, sib⟩ t).setBlackTop = plug1 ⟨d, a, setColorBlack v, sib⟩ t := by
  cases d <;> rfl

theorem headBlack_cons_red (h : headBlack (⟨d, a, v, s⟩ :: r) = true) :
    isRedW v = false := by
  simpa [headBlack, isBlackW_eq_not_isRedW] using h

/-- `fix_insert` restores full red-black validity: if the parent chain is
valid for a hole of black-height `n` and `z` is a red-rooted valid subtree of
black-height `n` (the only possible violation being between `z` and a red
parent frame), the result is a valid tree with a black root. -/
theorem fix_insert_balanced :
    ∀ (ctx : Ctx) (z : Tree) (n m : Nat), CtxBal ctx n m → Balanced z .red n →
      ∃ m', Balanced (fix_insert ctx z) .black m'
  | [], z, n, m, hc, hz => by
    cases hc
    exact ⟨n + 1, by simpa [fix_insert] using setBlackTop_balanced hz⟩
  | [⟨d1, a1, v1, s1⟩], z, n, m, hc, hz => by
    cases hc with
    | black hv1 hs1 hc0 =>
      cases hc0
      refine ⟨n + 1, ?_⟩
      simp only [fix_insert, hv1, if_pos, plug, setBlackTop_plug1]
      exact plug1_balanced_black (isRedW_setColorBlack _) hs1 hz
    | red hv1 hs1 hh hc0 =>
      cases hc0
      refine ⟨n + 1, ?_⟩
      simp only [fix_insert, hv1, if_neg, Bool.true_eq_false, not_false_iff,
        setBlackTop_plug1]
      exact plug1_balanced_black (isRedW_setColorBlack _) hs1 hz
  | ⟨d1, a1, v1, s1⟩ :: ⟨d2, a2, v2, s2⟩ :: rest2, z, n, m, hc, hz => by
    cases hc with
    | black hv1 hs1 hc2 =>
      simp only [fix_insert, hv1, if_pos]
      have h1 : Balanced (plug1 ⟨d1, a1, v1, s1⟩ z) .black (n + 1) :=
        plug1_balanced_black hv1 hs1 hz
      obtain ⟨c', hb⟩ := plug_balanced hc2 h1 (fun _ => rfl)
      exact setBlackTop_balanced_ex hb
    | red hv1 hs1 hh hc2 =>
      have hv2 : isRedW v2 = false := headBlack_cons_red hh
      cases hc2 with
      | red hv2' _ _ _ => rw [hv2'] at hv2; cases hv2
      | black _ hs2 hcr =>
        rename_i c₂ _
        simp only [fix_insert, hv1, Bool.true_eq_false, if_neg, not_false_iff]
        cases d2 with
        | left =>
          rcases hu : s2.topRed with _ | _
          · -- black (or null) uncle: terminal rotations
            have hc₂ : c₂ = .black := balanced_topRed_false hs2 hu
            subst hc₂
            simp only [hu, Bool.false_eq_true, if_neg, not_false_iff]
            cases d1 with
            | right =>
              cases hz with
              | @red zv zl _ zr za hzv hzl hzr =>
                have hT : Balanced
                    (.node (.node s1 a1 v1 zl) za (setColorBlack zv)
                      (.node zr a2 (setColorRed v2) s2)) .black (n + 1) :=
                  .black (isRedW_setColorBlack _) (.red hv1 hs1 hzl)
                    (.red (isRedW_setColorRed _) hzr hs2)
                obtain ⟨c', hb⟩ := plug_balanced hcr hT (fun _ => rfl)
                exact setBlackTop_balanced_ex hb
            | left =>
              have hT : Balanced
                  (.node z a1 (setColorBlack v1) (.node s1 a2 (setColorRed v2) s2))
                  .black (n + 1) :=
                .black (isRedW_setColorBlack _) hz (.red (isRedW_setColorRed _) hs1 hs2)
              obtain ⟨c', hb⟩ := plug_balanced hcr hT (fun _ => rfl)
              exact setBlackTop_balanced_ex hb
          · -- red uncle: recolor and continue from the grandparent
            have hc₂ : c₂ = .red := balanced_topRed_true hs2 hu
            subst hc₂
            simp only [hu, if_pos]
            have hp : Balanced (plug1 ⟨d1, a1, setColorBlack v1, s1⟩ z) .black (n + 1) :=
              plug1_balanced_black (isRedW_setColorBlack _) hs1 hz
            have hz' : Balanced
                (.node (plug1 ⟨d1, a1, setColorBlack v1, s1⟩ z) a2 (setColorRed v2)
                  s2.setBlackTop) .red (n + 1) :=
              .red (isRedW_setColorRed _) hp (setBlackTop_balanced hs2)
            exact fix_insert_balanced rest2 _ (n + 1) m hcr hz'
        | right =>
          rcases hu : s2.topRed with _ | _
          · have hc₂ : c₂ = .black := balanced_topRed_false hs2 hu
            subst hc₂
            simp only [hu, Bool.false_eq_true, if_neg, not_false_iff]
            cases d1 with
            | left =>
              cases hz with
              | @red zv zl _ zr za hzv hzl hzr =>
                have hT : Balanced
                    (.node (.node s2 a2 (setColorRed v2) zl) za (setColorBlack zv)
                      (.node zr a1 v1 s1)) .black (n + 1) :=
                  .black (isRedW_setColorBlack _) (.red (isRedW_setColorRed _) hs2 hzl)
                    (.red hv1 hzr hs1)
                obtain ⟨c', hb⟩ := plug_balanced hcr hT (fun _ => rfl)
                exact setBlackTop_balanced_ex hb
            | right =>
              have hT : Balanced
                  (.node (.node s2 a2 (setColorRed v2) s1) a1 (setColorBlack v1) z)
                  .black (n + 1) :=
                .black (isRedW_setColorBlack _) (.red (isRedW_setColorRed _) hs2 hs1) hz
              obtain ⟨c', hb⟩ := plug_balanced hcr hT (fun _ => rfl)
              exact setBlackTop_balanced_ex hb
          · have hc₂ : c₂ = .red := balanced_topRed_true hs2 hu
            subst hc₂
            simp only [hu, if_pos]
            have hp : Balanced (plug1 ⟨d1, a1, setColorBlack v1, s1⟩ z) .black (n + 1) :=
              plug1_balanced_black (isRedW_setColorBlack _) hs1 hz
            have hz' : Balanced
                (.node s2.setBlackTop a2 (setColorRed v2)
                  (plug1 ⟨d1, a1, setColorBlack v1, s1⟩ z)) .red (n + 1) :=
              .red (isRedW_setColorRed _) (setBlackTop_balanced hs2) hp
            exact fix_insert_balanced rest2 _ (n + 1) m hcr hz'

/-- The descent of `insert` produces a valid context for the nil hole it
stops at. -/
theorem descend_ctxBal (hx : Balanced x cx n) (hacc : CtxBal acc n m)
    (hint : headBlack acc = false → cx = .black) :
    CtxBal (descend x nv acc) 0 m := by
  induction hx generalizing acc with
  | nil => simpa [descend] using hacc
  | @red v l n' r a hv hl hr ihl ihr =>
    have hhb : headBlack acc = true := by
      rcases h : headBlack acc with _ | _
      · exact absurd (hint h) (by intro hc; cases hc)
      · rfl
    simp only [descend]
    split
    · exact ihl (.red hv hr hhb hacc) (fun _ => rfl)
    · exact ihr (.red hv hl hhb hacc) (fun _ => rfl)
  | @black v l c₁ n' r c₂ a hv hl hr ihl ihr =>
    simp only [descend]
    split
    · exact ihl (.black hv hr hacc)
        (by intro h; simp [headBlack, isBlackW_eq_not_isRedW, hv] at h)
    · exact ihr (.black hv hl hacc)
        (by intro h; simp [headBlack, isBlackW_eq_not_isRedW, hv] at h)

/-- `hh::rb_tree::insert` preserves red-black validity (root stays black). -/
theorem insert_balanced (h : Balanced t .black m) (na nv : Nat) :
    ∃ m', Balanced (insert t na nv) .black m' := by
  have hc : CtxBal (descend t nv []) 0 m :=
    descend_ctxBal h .nil (by intro h'; cases h')
  have hz : Balanced (.node .nil na (setColorRed nv) .nil) .red 0 :=
    .red (isRedW_setColorRed _) .nil .nil
  exact fix_insert_balanced _ _ 0 m hc hz

theorem plug1_topBlackOrNil (d : Dir) (a v : Nat) (sib t : Tree) :
    (plug1 ⟨d, a, v, sib⟩ t).topBlackOrNil = isBlackW v := by
  cases d <;> rfl

theorem setBlackTop_topBlackOrNil (t : Tree) : t.setBlackTop.topBlackOrNil = true := by
  cases t with
  | nil => rfl
  | node l a v r =>
    simp [Tree.setBlackTop, Tree.topBlackOrNil, isBlackW_eq_not_isRedW, isRedW_setColorBlack]

theorem lastBlack_cons (f : Frame) (c : Ctx) :
    lastBlack (f :: c) = (match c with | [] => isBlackW f.v | _ :: _ => lastBlack c) := by
  cases c <;> rfl

theorem lastBlack_append_ne (c1 : Ctx) (g : Frame) (c2 : Ctx) :
    lastBlack (c1 ++ g :: c2) = lastBlack (g :: c2) := by
  induction c1 with
  | nil => rfl
  | cons f rest ih =>
    rw [List.cons_append, lastBlack_cons]
    cases rest with
    | nil => rfl
    | cons q qs => simpa using ih

theorem headBlack_append (c1 c2 : Ctx) :
    headBlack (c1 ++ c2) = (match c1 with | [] => headBlack c2 | f :: _ => isBlackW f.v) := by
  cases c1 <;> rfl

theorem plug_topBlackOrNil :
    ∀ (ctx : Ctx) (t : Tree), lastBlack ctx = true →
      (ctx = [] → t.topBlackOrNil = true) → (plug t ctx).topBlackOrNil = true
  | [], t, _, h0 => by simpa [plug] using h0 rfl
  | f :: rest, t, hl, _ => by
    rcases f with ⟨d, a, v, sib⟩
    refine plug_topBlackOrNil rest (plug1 ⟨d, a, v, sib⟩ t) ?_ ?_
    · rw [lastBlack_cons] at hl
      cases rest with
      | nil => rfl
      | cons q qs => exact hl
    · intro h
      subst h
      rw [lastBlack_cons] at hl
      simpa [plug1_topBlackOrNil] using hl

theorem fix_remove_topRed (ctx : Ctx) (x : Tree) (h : x.topRed = true) :
    fix_remove ctx x = plug x.setBlackTop ctx := by
  cases ctx with
  | nil => rfl
  | cons f rest => simp [fix_remove, h]

theorem CtxBal_append (h1 : CtxBal c1 h k) (h2 : CtxBal c2 k m)
    (hif : lastBlack c1 = false → headBlack c2 = true) :
    CtxBal (c1 ++ c2) h m := by
  induction h1 with
  | nil => simpa using h2
  | @black d a v sib rest n' m' c hv hs _ ih =>
    refine .black hv hs (ih h2 ?_)
    intro hlr
    refine hif ?_
    rw [lastBlack_cons]
    cases rest with
    | nil => simp [lastBlack] at hlr
    | cons q qs => exact hlr
  | @red d a v sib rest n' m' hv hs hh _ ih =>
    refine .red hv hs ?_ (ih h2 ?_)
    · show headBlack (rest ++ c2) = true
      rw [headBlack_append]
      cases rest with
      | nil =>
        exact hif (by simp [lastBlack_cons, isBlackW_eq_not_isRedW, hv])
      | cons q qs => exact hh
    · intro hlr
      refine hif ?_
      rw [lastBlack_cons]
      cases rest with
      | nil => simp [lastBlack] at hlr
      | cons q qs => exact hlr

theorem topBlackOrNil_false_red (h : Tree.topBlackOrNil t = false) :
    ∃ l a v r, t = .node l a v r ∧ isRedW v = true := by
  cases t with
  | nil => simp [Tree.topBlackOrNil] at h
  | node l a v r =>
    refine ⟨l, a, v, r, rfl, ?_⟩
    simpa [Tree.topBlackOrNil, isBlackW_eq_not_isRedW] using h

/-- Behaviour of the cases 2–4 of the removal fix-up (`solveL`): with a
valid subtree `x` of black-height `n` (one short) and a valid black sibling
of black-height `n + 1`, a `.up` outcome becomes fully valid once its root is
painted black (and is already valid if the parent was black), while a
`.done` outcome is fully valid with the parent's old color and the restored
black-height. -/
theorem solveL_spec (hx : Balanced x cx n)
    (hw : Balanced (Tree.node wl wa wv wr) .black (n + 1)) (pa pv : Nat) :
    (∀ s, solveL x pa pv wl wa wv wr = .up s →
      Balanced s.setBlackTop .black (n + 1) ∧
      (isRedW pv = false → Balanced s .black (n + 1)) ∧ s.topRed = isRedW pv) ∧
    (∀ s, solveL x pa pv wl wa wv wr = .done s →
      Balanced s (if isRedW pv = true then Color.red else Color.black)
        (if isRedW pv = true then n + 1 else n + 2)) := by
  cases hw with
  | @black _ _ c₁ _ _ c₂ _ hwv hl hr =>
    by_cases h2 : (wl.topBlackOrNil && wr.topBlackOrNil) = true
    · -- case 2
      have he : solveL x pa pv wl wa wv wr =
          .up (.node x pa pv (.node wl wa (setColorRed wv) wr)) := by
        unfold solveL; rw [if_pos h2]
      rw [Bool.and_eq_true] at h2
      have hc₁ : c₁ = .black := balanced_topBlackOrNil hl h2.1
      have hc₂ : c₂ = .black := balanced_topBlackOrNil hr h2.2
      subst hc₁; subst hc₂
      have hinner : Balanced (Tree.node wl wa (setColorRed wv) wr) .red n :=
        .red (isRedW_setColorRed _) hl hr
      constructor
      · intro s hs
        rw [he] at hs
        cases hs
        refine ⟨.black (isRedW_setColorBlack _) hx hinner, ?_, rfl⟩
        intro hpv
        exact .black hpv hx hinner
      · intro s hs
        rw [he] at hs
        cases hs
    · by_cases h3 : wr.topBlackOrNil = true
      · -- case 3 (then 4): w->left is red
        have hwl : wl.topBlackOrNil = false := by
          rcases hb : wl.topBlackOrNil with _ | _
          · rfl
          · rw [hb, h3] at h2; simp at h2
        obtain ⟨wll, wla, wlv, wlr, rfl, hred⟩ := topBlackOrNil_false_red hwl
        have he : solveL x pa pv (.node wll wla wlv wlr) wa wv wr =
            .done (.node (.node x pa (setColorBlack pv) wll) wla
              (copyColorFrom pv (setColorBlack wlv))
              (.node wlr wa (setColorBlack (setColorRed wv)) wr)) := by
          unfold solveL; rw [if_neg h2, if_pos h3]
        have hc₁ : c₁ = .red := balanced_topRed_true hl (by simp [Tree.topRed, hred])
        subst hc₁
        have hc₂ : c₂ = .black := balanced_topBlackOrNil hr h3
        subst hc₂
        cases hl with
        | red _ hll hlr =>
          constructor
          · intro s hs
            rw [he] at hs
            cases hs
          · intro s hs
            rw [he] at hs
            cases hs
            have hL : Balanced (Tree.node x pa (setColorBlack pv) wll) .black (n + 1) :=
              .black (isRedW_setColorBlack _) hx hll
            have hR : Balanced
                (Tree.node wlr wa (setColorBlack (setColorRed wv)) wr) .black (n + 1) :=
              .black (isRedW_setColorBlack _) hlr hr
            rcases hpv : isRedW pv with _ | _
            · simp only [Bool.false_eq_true, if_neg, not_false_iff]
              exact .black (by rw [isRedW_copyColorFrom, hpv]) hL hR
            · simp only [if_pos]
              exact .red (by rw [isRedW_copyColorFrom, hpv]) hL hR
      · -- case 4: w->right is red
        have hwr : wr.topBlackOrNil = false := by
          rcases hb : wr.topBlackOrNil with _ | _
          · rfl
          · exact absurd hb h3
        have he : solveL x pa pv wl wa wv wr =
            .done (.node (.node x pa (setColorBlack pv) wl) wa (copyColorFrom pv wv)
              wr.setBlackTop) := by
          unfold solveL; rw [if_neg h2, if_neg (by rw [hwr]; simp)]
        obtain ⟨wrl, wra, wrv, wrr, heq, hred⟩ := topBlackOrNil_false_red hwr
        subst heq
        have hc₂ : c₂ = .red := balanced_topRed_true hr (by simp [Tree.topRed, hred])
        subst hc₂
        have hRb : Balanced (Tree.node wrl wra wrv wrr).setBlackTop .black (n + 1) :=
          setBlackTop_balanced hr
        have hL : Balanced (Tree.node x pa (setColorBlack pv) wl) .black (n + 1) :=
          .black (isRedW_setColorBlack _) hx hl
        constructor
        · intro s hs
          rw [he] at hs
          cases hs
        · intro s hs
          rw [he] at hs
          cases hs
          rcases hpv : isRedW pv with _ | _
          · simp only [Bool.false_eq_true, if_neg, not_false_iff]
            exact .black (by rw [isRedW_copyColorFrom, hpv]) hL hRb
          · simp only [if_pos]
            exact .red (by rw [isRedW_copyColorFrom, hpv]) hL hRb

/-- Mirror image of `solveL_spec` for `x` on the right of its parent. -/
theorem solveR_spec (hx : Balanced x cx n)
    (hw : Balanced (Tree.node wl wa wv wr) .black (n + 1)) (pa pv : Nat) :
    (∀ s, solveR x pa pv wl wa wv wr = .up s →
      Balanced s.setBlackTop .black (n + 1) ∧
      (isRedW pv = false → Balanced s .black (n + 1)) ∧ s.topRed = isRedW pv) ∧
    (∀ s, solveR x pa pv wl wa wv wr = .done s →
      Balanced s (if isRedW pv = true then Color.red else Color.black)
        (if isRedW pv = true then n + 1 else n + 2)) := by
  cases hw with
  | @black _ _ c₁ _ _ c₂ _ hwv hl hr =>
    by_cases h2 : (wr.topBlackOrNil && wl.topBlackOrNil) = true
    · -- mirror case 2
      have he : solveR x pa pv wl wa wv wr =
          .up (.node (.node wl wa (setColorRed wv) wr) pa pv x) := by
        unfold solveR; rw [if_pos h2]
      rw [Bool.and_eq_true] at h2
      have hc₁ : c₁ = .black := balanced_topBlackOrNil hl h2.2
      have hc₂ : c₂ = .black := balanced_topBlackOrNil hr h2.1
      subst hc₁; subst hc₂
      have hinner : Balanced (Tree.node wl wa (setColorRed wv) wr) .red n :=
        .red (isRedW_setColorRed _) hl hr
      constructor
      · intro s hs
        rw [he] at hs
        cases hs
        refine ⟨.black (isRedW_setColorBlack _) hinner hx, ?_, rfl⟩
        intro hpv
        exact .black hpv hinner hx
      · intro s hs
        rw [he] at hs
        cases hs
    · by_cases h3 : wl.topBlackOrNil = true
      · -- mirror case 3 (then 4): w->right is red
        have hwr : wr.topBlackOrNil = false := by
          rcases hb : wr.topBlackOrNil with _ | _
          · rfl
          · rw [hb, h3] at h2; simp at h2
        obtain ⟨wrl, wra, wrv, wrr, rfl, hred⟩ := topBlackOrNil_false_red hwr
        have he : solveR x pa pv wl wa wv (.node wrl wra wrv wrr) =
            .done (.node (.node wl wa (setColorBlack (setColorRed wv)) wrl) wra
              (copyColorFrom pv (setColorBlack wrv))
              (.node wrr pa (setColorBlack pv) x)) := by
          unfold solveR; rw [if_neg h2, if_pos h3]
        have hc₂ : c₂ = .red := balanced_topRed_true hr (by simp [Tree.topRed, hred])
        subst hc₂
        have hc₁ : c₁ = .black := balanced_topBlackOrNil hl h3
        subst hc₁
        cases hr with
        | red _ hrl hrr =>
          constructor
          · intro s hs
            rw [he] at hs
            cases hs
          · intro s hs
            rw [he] at hs
            cases hs
            have hL : Balanced
                (Tree.node wl wa (setColorBlack (setColorRed wv)) wrl) .black (n + 1) :=
              .black (isRedW_setColorBlack _) hl hrl
            have hR : Balanced (Tree.node wrr pa (setColorBlack pv) x) .black (n + 1) :=
              .black (isRedW_setColorBlack _) hrr hx
            rcases hpv : isRedW pv with _ | _
            · simp only [Bool.false_eq_true, if_neg, not_false_iff]
              exact .black (by rw [isRedW_copyColorFrom, hpv]) hL hR
            · simp only [if_pos]
              exact .red (by rw [isRedW_copyColorFrom, hpv]) hL hR
      · -- mirror case 4: w->left is red
        have hwl : wl.topBlackOrNil = false := by
          rcases hb : wl.topBlackOrNil with _ | _
          · rfl
          · exact absurd hb h3
        have he : solveR x pa pv wl wa wv wr =
            .done (.node wl.setBlackTop wa (copyColorFrom pv wv)
              (.node wr pa (setColorBlack pv) x)) := by
          unfold solveR; rw [if_neg h2, if_neg h3]
        obtain ⟨wll, wla, wlv, wlr, heq, hred⟩ := topBlackOrNil_false_red hwl
        subst heq
        have hc₁ : c₁ = .red := balanced_topRed_true hl (by simp [Tree.topRed, hred])
        subst hc₁
        have hLb : Balanced (Tree.node wll wla wlv wlr).setBlackTop .black (n + 1) :=
          setBlackTop_balanced hl
        have hR : Balanced (Tree.node wr pa (setColorBlack pv) x) .black (n + 1) :=
          .black (isRedW_setColorBlack _) hr hx
        constructor
        · intro s hs
          rw [he] at hs
          cases hs
        · intro s hs
          rw [he] at hs
          cases hs
          rcases hpv : isRedW pv with _ | _
          · simp only [Bool.false_eq_true, if_neg, not_false_iff]
            exact .black (by rw [isRedW_copyColorFrom, hpv]) hLb hR
          · simp only [if_pos]
            exact .red (by rw [isRedW_copyColorFrom, hpv]) hLb hR

/-- `fix_remove` restores full red-black validity: `x` is a valid subtree
whose black-height is one less than its parent chain expects ("doubly
black"), and the loop either transfers the deficit upward or terminates by a
rotation, yielding a fully valid tree. -/
theorem fix_remove_balanced :
    ∀ (ctx : Ctx) (x : Tree) (n m : Nat) (cx : Color),
      CtxBal ctx (n + 1) m → Balanced x cx n →
      ∃ c' m', Balanced (fix_remove ctx x) c' m'
  | [], x, n, m, cx, hc, hx => by
    cases hc
    exact ⟨.black, _, setBlackTop_balanced hx⟩
  | ⟨d, a, v, sib⟩ :: rest, x, n, m, cx, hc, hx => by
    by_cases hxr : x.topRed = true
    · have hcx : cx = .red := balanced_topRed_true hx hxr
      subst hcx
      rw [fix_remove_topRed _ _ hxr]
      obtain ⟨c', hres⟩ := plug_balanced hc (setBlackTop_balanced hx) (fun _ => rfl)
      exact ⟨c', m, hres⟩
    · have hcx : cx = .black := balanced_topRed_false hx (by
        rcases h : x.topRed with _ | _
        · rfl
        · exact absurd h hxr)
      subst hcx
      cases hc with
      | black hv hs hrest =>
        rename_i cw
        cases d with
        | left =>
          cases sib with
          | nil => cases hs
          | node wl wa wv wr =>
            simp only [fix_remove]
            rw [if_neg hxr]
            by_cases hwv : isRedW wv = true
            · -- case 1: red sibling
              have hcw : cw = .red :=
                balanced_topRed_true hs (by simp [Tree.topRed, hwv])
              subst hcw
              cases hs with
              | red _ hwl hwr =>
                rw [if_pos hwv]
                split
                · cases hwl
                · rename_i wll wla wlv wlr
                  have spec := solveL_spec hx hwl a (setColorRed v)
                  cases hsol : solveL x a (setColorRed v) wll wla wlv wlr with
                  | up s =>
                    show ∃ c' m', Balanced
                      (plug s.setBlackTop (⟨.left, wa, setColorBlack wv, wr⟩ :: rest)) c' m'
                    obtain ⟨hsb, _, _⟩ := spec.1 s hsol
                    have houter : CtxBal (⟨.left, wa, setColorBlack wv, wr⟩ :: rest)
                        (n + 1) m := .black (isRedW_setColorBlack _) hwr hrest
                    obtain ⟨c', hres⟩ := plug_balanced houter hsb (fun _ => rfl)
                    exact ⟨c', m, hres⟩
                  | done s =>
                    show ∃ c' m', Balanced
                      ((plug s (⟨.left, wa, setColorBlack wv, wr⟩ :: rest)).setBlackTop) c' m'
                    have hsd := spec.2 s hsol
                    rw [isRedW_setColorRed] at hsd
                    simp only [if_pos] at hsd
                    have houter : CtxBal (⟨.left, wa, setColorBlack wv, wr⟩ :: rest)
                        (n + 1) m := .black (isRedW_setColorBlack _) hwr hrest
                    obtain ⟨c', hres⟩ := plug_balanced houter hsd (by
                      intro h
                      simp [headBlack, isBlackW_eq_not_isRedW, isRedW_setColorBlack] at h)
                    obtain ⟨m', hres'⟩ := setBlackTop_balanced_ex hres
                    exact ⟨.black, m', hres'⟩
            · -- black sibling: cases 2-4 directly
              have hwv' : isRedW wv = false := by
                rcases h : isRedW wv with _ | _
                · rfl
                · exact absurd h hwv
              have hcw : cw = .black := balanced_topBlackOrNil hs
                (by simp [Tree.topBlackOrNil, isBlackW_eq_not_isRedW, hwv'])
              subst hcw
              rw [if_neg hwv]
              have spec := solveL_spec hx hs a v
              cases hsol : solveL x a v wl wa wv wr with
              | up s =>
                show ∃ c' m', Balanced (fix_remove rest s) c' m'
                obtain ⟨_, hup, _⟩ := spec.1 s hsol
                exact fix_remove_balanced rest s (n + 1) m .black hrest (hup hv)
              | done s =>
                show ∃ c' m', Balanced ((plug s rest).setBlackTop) c' m'
                have hsd := spec.2 s hsol
                rw [hv] at hsd
                simp only [Bool.false_eq_true, if_neg, not_false_iff] at hsd
                obtain ⟨c', hres⟩ := plug_balanced hrest hsd (fun _ => rfl)
                obtain ⟨m', hres'⟩ := setBlackTop_balanced_ex hres
                exact ⟨.black, m', hres'⟩
        | right =>
          cases sib with
          | nil => cases hs
          | node wl wa wv wr =>
            simp only [fix_remove]
            rw [if_neg hxr]
            by_cases hwv : isRedW wv = true
            · have hcw : cw = .red :=
                balanced_topRed_true hs (by simp [Tree.topRed, hwv])
              subst hcw
              cases hs with
              | red _ hwl hwr =>
                rw [if_pos hwv]
                split
                · cases hwr
                · rename_i wrl wra wrv wrr
                  have spec := solveR_spec hx hwr a (setColorRed v)
                  cases hsol : solveR x a (setColorRed v) wrl wra wrv wrr with
                  | up s =>
                    show ∃ c' m', Balanced
                      (plug s.setBlackTop (⟨.right, wa, setColorBlack wv, wl⟩ :: rest)) c' m'
                    obtain ⟨hsb, _, _⟩ := spec.1 s hsol
                    have houter : CtxBal (⟨.right, wa, setColorBlack wv, wl⟩ :: rest)
                        (n + 1) m := .black (isRedW_setColorBlack _) hwl hrest
                    obtain ⟨c', hres⟩ := plug_balanced houter hsb (fun _ => rfl)
                    exact ⟨c', m, hres⟩
                  | done s =>
                    show ∃ c' m', Balanced
                      ((plug s (⟨.right, wa, setColorBlack wv, wl⟩ :: rest)).setBlackTop) c' m'
                    have hsd := spec.2 s hsol
                    rw [isRedW_setColorRed] at hsd
                    simp only [if_pos] at hsd
                    have houter : CtxBal (⟨.right, wa, setColorBlack wv, wl⟩ :: rest)
                        (n + 1) m := .black (isRedW_setColorBlack _) hwl hrest
                    obtain ⟨c', hres⟩ := plug_balanced houter hsd (by
                      intro h
                      simp [headBlack, isBlackW_eq_not_isRedW, isRedW_setColorBlack] at h)
                    obtain ⟨m', hres'⟩ := setBlackTop_balanced_ex hres
                    exact ⟨.black, m', hres'⟩
            · have hwv' : isRedW wv = false := by
                rcases h : isRedW wv with _ | _
                · rfl
                · exact absurd h hwv
              have hcw : cw = .black := balanced_topBlackOrNil hs
                (by simp [Tree.topBlackOrNil, isBlackW_eq_not_isRedW, hwv'])
              subst hcw
              rw [if_neg hwv]
              have spec := solveR_spec hx hs a v
              cases hsol : solveR x a v wl wa wv wr with
              | up s =>
                show ∃ c' m', Balanced (fix_remove rest s) c' m'
                obtain ⟨_, hup, _⟩ := spec.1 s hsol
                exact fix_remove_balanced rest s (n + 1) m .black hrest (hup hv)
              | done s =>
                show ∃ c' m', Balanced ((plug s rest).setBlackTop) c' m'
                have hsd := spec.2 s hsol
                rw [hv] at hsd
                simp only [Bool.false_eq_true, if_neg, not_false_iff] at hsd
                obtain ⟨c', hres⟩ := plug_balanced hrest hsd (fun _ => rfl)
                obtain ⟨m', hres'⟩ := setBlackTop_balanced_ex hres
                exact ⟨.black, m', hres'⟩
      | red hv hs hh hrest =>
        cases d with
        | left =>
          cases sib with
          | nil => cases hs
          | node wl wa wv wr =>
            simp only [fix_remove]
            rw [if_neg hxr]
            have hwv : ¬ isRedW wv = true := by
              cases hs with
              | black h1 _ _ => rw [h1]; simp
            rw [if_neg hwv]
            have spec := solveL_spec hx hs a v
            cases hsol : solveL x a v wl wa wv wr with
            | up s =>
              show ∃ c' m', Balanced (fix_remove rest s) c' m'
              obtain ⟨hsb, _, htop⟩ := spec.1 s hsol
              rw [fix_remove_topRed _ _ (htop.trans hv)]
              obtain ⟨c', hres⟩ := plug_balanced hrest hsb (fun _ => rfl)
              exact ⟨c', m, hres⟩
            | done s =>
              show ∃ c' m', Balanced ((plug s rest).setBlackTop) c' m'
              have hsd := spec.2 s hsol
              rw [hv] at hsd
              simp only [if_pos] at hsd
              obtain ⟨c', hres⟩ := plug_balanced hrest hsd (by
                intro h
                rw [hh] at h
                cases h)
              obtain ⟨m', hres'⟩ := setBlackTop_balanced_ex hres
              exact ⟨.black, m', hres'⟩
        | right =>
          cases sib with
          | nil => cases hs
          | node wl wa wv wr =>
            simp only [fix_remove]
            rw [if_neg hxr]
            have hwv : ¬ isRedW wv = true := by
              cases hs with
              | black h1 _ _ => rw [h1]; simp
            rw [if_neg hwv]
            have spec := solveR_spec hx hs a v
            cases hsol : solveR x a v wl wa wv wr with
            | up s =>
              show ∃ c' m', Balanced (fix_remove rest s) c' m'
              obtain ⟨hsb, _, htop⟩ := spec.1 s hsol
              rw [fix_remove_topRed _ _ (htop.trans hv)]
              obtain ⟨c', hres⟩ := plug_balanced hrest hsb (fun _ => rfl)
              exact ⟨c', m, hres⟩
            | done s =>
              show ∃ c' m', Balanced ((plug s rest).setBlackTop) c' m'
              have hsd := spec.2 s hsol
              rw [hv] at hsd
              simp only [if_pos] at hsd
              obtain ⟨c', hres⟩ := plug_balanced hrest hsd (by
                intro h
                rw [hh] at h
                cases h)
              obtain ⟨m', hres'⟩ := setBlackTop_balanced_ex hres
              exact ⟨.black, m', hres'⟩

theorem cons_ne_nil_ctx (f : Frame) (rest : Ctx) : (f :: rest : Ctx) ≠ [] := by
  intro h; cases h

/-- The root of the tree stays black across `fix_remove` whenever the
outermost parent frame is black (in particular whenever the chain came from a
tree with a black root). -/
theorem fix_remove_topBlackOrNil :
    ∀ (ctx : Ctx) (x : Tree), lastBlack ctx = true →
      (fix_remove ctx x).topBlackOrNil = true
  | [], x, _ => by
    show (x.setBlackTop).topBlackOrNil = true
    exact setBlackTop_topBlackOrNil x
  | ⟨d, a, v, sib⟩ :: rest, x, hl => by
    have hrest : lastBlack rest = true := by
      rw [lastBlack_cons] at hl
      cases rest with
      | nil => rfl
      | cons q qs => exact hl
    by_cases hxr : x.topRed = true
    · rw [fix_remove_topRed _ _ hxr]
      exact plug_topBlackOrNil _ _ hl (fun h => absurd h (cons_ne_nil_ctx _ _))
    · cases d with
      | left =>
        cases sib with
        | nil =>
          simp only [fix_remove]
          rw [if_neg hxr]
          exact plug_topBlackOrNil _ _ hl (fun h => absurd h (cons_ne_nil_ctx _ _))
        | node wl wa wv wr =>
          simp only [fix_remove]
          rw [if_neg hxr]
          by_cases hwv : isRedW wv = true
          · rw [if_pos hwv]
            split
            · exact plug_topBlackOrNil _ _ hl (fun h => absurd h (cons_ne_nil_ctx _ _))
            · rename_i wll wla wlv wlr
              cases hsol : solveL x a (setColorRed v) wll wla wlv wlr with
              | up s =>
                show (plug s.setBlackTop
                  (⟨.left, wa, setColorBlack wv, wr⟩ :: rest)).topBlackOrNil = true
                refine plug_topBlackOrNil _ _ ?_ (fun h => absurd h (cons_ne_nil_ctx _ _))
                rw [lastBlack_cons]
                cases rest with
                | nil =>
                  simp [isBlackW_eq_not_isRedW, isRedW_setColorBlack]
                | cons q qs => exact hrest
              | done s =>
                show ((plug s
                  (⟨.left, wa, setColorBlack wv, wr⟩ :: rest)).setBlackTop).topBlackOrNil = true
                exact setBlackTop_topBlackOrNil _
          · rw [if_neg hwv]
            cases hsol : solveL x a v wl wa wv wr with
            | up s =>
              show (fix_remove rest s).topBlackOrNil = true
              exact fix_remove_topBlackOrNil rest s hrest
            | done s =>
              show ((plug s rest).setBlackTop).topBlackOrNil = true
              exact setBlackTop_topBlackOrNil _
      | right =>
        cases sib with
        | nil =>
          simp only [fix_remove]
          rw [if_neg hxr]
          exact plug_topBlackOrNil _ _ hl (fun h => absurd h (cons_ne_nil_ctx _ _))
        | node wl wa wv wr =>
          simp only [fix_remove]
          rw [if_neg hxr]
          by_cases hwv : isRedW wv = true
          · rw [if_pos hwv]
            split
            · exact plug_topBlackOrNil _ _ hl (fun h => absurd h (cons_ne_nil_ctx _ _))
            · rename_i wrl wra wrv wrr
              cases hsol : solveR x a (setColorRed v) wrl wra wrv wrr with
              | up s =>
                show (plug s.setBlackTop
                  (⟨.right, wa, setColorBlack wv, wl⟩ :: rest)).topBlackOrNil = true
                refine plug_topBlackOrNil _ _ ?_ (fun h => absurd h (cons_ne_nil_ctx _ _))
                rw [lastBlack_cons]
                cases rest with
                | nil =>
                  simp [isBlackW_eq_not_isRedW, isRedW_setColorBlack]
                | cons q qs => exact hrest
              | done s =>
                show ((plug s
                  (⟨.right, wa, setColorBlack wv, wl⟩ :: rest)).setBlackTop).topBlackOrNil = true
                exact setBlackTop_topBlackOrNil _
          · rw [if_neg hwv]
            cases hsol : solveR x a v wl wa wv wr with
            | up s =>
              show (fix_remove rest s).topBlackOrNil = true
              exact fix_remove_topBlackOrNil rest s hrest
            | done s =>
              show ((plug s rest).setBlackTop).topBlackOrNil = true
              exact setBlackTop_topBlackOrNil _

theorem balanced_black_zero (h : Balanced t .black 0) : t = .nil := by
  cases h with
  | nil => rfl

theorem findCtx_isNode :
    ∀ (x : Tree) (acc ctx : Ctx) (z : Tree), findCtx x tgt acc = some (ctx, z) →
      ∃ zl za zv zr, z = .node zl za zv zr
  | .nil, acc, ctx, z, h => by simp [findCtx] at h
  | .node l a v r, acc, ctx, z, h => by
    simp only [findCtx] at h
    split at h
    · cases h
      exact ⟨l, a, v, r, rfl⟩
    · cases hL : findCtx l tgt (⟨.left, a, v, r⟩ :: acc) with
      | some res =>
        rw [hL] at h
        cases h
        exact findCtx_isNode l _ _ _ hL
      | none =>
        rw [hL] at h
        exact findCtx_isNode r _ _ _ h

theorem findCtx_ctxBal (hx : Balanced x cx n) (hacc : CtxBal acc n m)
    (hint : headBlack acc = false → cx = .black)
    (hfind : findCtx x tgt acc = some (ctx, z)) :
    ∃ cz k, Balanced z cz k ∧ CtxBal ctx k m ∧
      (headBlack ctx = false → cz = .black) ∧ (ctx = [] → z = x ∧ acc = []) := by
  induction hx generalizing acc ctx z with
  | nil => simp [findCtx] at hfind
  | @red v l n' r a hv hl hr ihl ihr =>
    have hhb : headBlack acc = true := by
      rcases h : headBlack acc with _ | _
      · exact absurd (hint h) (by intro hc; cases hc)
      · rfl
    simp only [findCtx] at hfind
    split at hfind
    · cases hfind
      refine ⟨.red, n', .red hv hl hr, hacc, hint, ?_⟩
      intro h
      subst h
      cases hacc
      exact ⟨rfl, rfl⟩
    · cases hL : findCtx l tgt (⟨.left, a, v, r⟩ :: acc) with
      | some res =>
        rw [hL] at hfind
        cases hfind
        obtain ⟨cz, k, h1, h2, h3, h4⟩ := ihl (.red hv hr hhb hacc) (fun _ => rfl) hL
        exact ⟨cz, k, h1, h2, h3, fun h => absurd (h4 h).2 (cons_ne_nil_ctx _ _)⟩
      | none =>
        rw [hL] at hfind
        obtain ⟨cz, k, h1, h2, h3, h4⟩ := ihr (.red hv hl hhb hacc) (fun _ => rfl) hfind
        exact ⟨cz, k, h1, h2, h3, fun h => absurd (h4 h).2 (cons_ne_nil_ctx _ _)⟩
  | @black v l c₁ n' r c₂ a hv hl hr ihl ihr =>
    simp only [findCtx] at hfind
    split at hfind
    · cases hfind
      refine ⟨.black, n' + 1, .black hv hl hr, hacc, hint, ?_⟩
      intro h
      subst h
      cases hacc
      exact ⟨rfl, rfl⟩
    · cases hL : findCtx l tgt (⟨.left, a, v, r⟩ :: acc) with
      | some res =>
        rw [hL] at hfind
        cases hfind
        obtain ⟨cz, k, h1, h2, h3, h4⟩ := ihl (.black hv hr hacc)
          (by intro h; simp [headBlack, isBlackW_eq_not_isRedW, hv] at h) hL
        exact ⟨cz, k, h1, h2, h3, fun h => absurd (h4 h).2 (cons_ne_nil_ctx _ _)⟩
      | none =>
        rw [hL] at hfind
        obtain ⟨cz, k, h1, h2, h3, h4⟩ := ihr (.black hv hl hacc)
          (by intro h; simp [headBlack, isBlackW_eq_not_isRedW, hv] at h) hfind
        exact ⟨cz, k, h1, h2, h3, fun h => absurd (h4 h).2 (cons_ne_nil_ctx _ _)⟩

theorem findCtx_lastBlack :
    ∀ (x : Tree) (acc ctx : Ctx) (z : Tree), findCtx x tgt acc = some (ctx, z) →
      lastBlack acc = true → (acc = [] → x.topBlackOrNil = true) → lastBlack ctx = true
  | .nil, acc, ctx, z, h, _, _ => by simp [findCtx] at h
  | .node l a v r, acc, ctx, z, h, hacc, htop => by
    have hcons : ∀ (d : Dir) (sib : Tree),
        lastBlack (⟨d, a, v, sib⟩ :: acc) = true := by
      intro d sib
      rw [lastBlack_cons]
      cases hae : acc with
      | nil => simpa [Tree.topBlackOrNil] using htop hae
      | cons q qs =>
        show lastBlack (q :: qs) = true
        rw [← hae]
        exact hacc
    simp only [findCtx] at h
    split at h
    · cases h; exact hacc
    · cases hL : findCtx l tgt (⟨.left, a, v, r⟩ :: acc) with
      | some res =>
        rw [hL] at h
        cases h
        exact findCtx_lastBlack l _ _ _ hL (hcons _ _)
          (fun hc => absurd hc (cons_ne_nil_ctx _ _))
      | none =>
        rw [hL] at h
        exact findCtx_lastBlack r _ _ _ h (hcons _ _)
          (fun hc => absurd hc (cons_ne_nil_ctx _ _))

/-- Specification of the successor search of `remove`: it returns the
leftmost node `y` of `x` (which has a nil left child) together with a valid
relative parent chain. -/
theorem minCtx_spec (hx : Balanced x cx k) :
    ∀ {acc ctx' : Ctx} {y : Tree}, minCtx x acc = (ctx', y) → x ≠ .nil →
      ∃ ya yv yr cy ky yctx, y = .node .nil ya yv yr ∧ Balanced y cy ky ∧
        ctx' = yctx ++ acc ∧ CtxBal yctx ky k ∧
        (headBlack yctx = false → cy = .black) ∧
        (yctx = [] ∨ lastBlack yctx = x.topBlackOrNil) ∧
        (yctx = [] → y = x) := by
  induction hx with
  | nil => exact fun _ h => absurd rfl h
  | @red v l n' r a hv hl hr ihl ihr =>
    intro acc ctx' y hmin _
    cases l with
    | nil =>
      cases hmin
      refine ⟨a, v, r, .red, n', [], rfl, .red hv hl hr, rfl, .nil, ?_, .inl rfl, fun _ => rfl⟩
      intro h; cases h
    | node ll la lv lr =>
      rw [minCtx] at hmin
      obtain ⟨ya, yv, yr, cy, ky, yctx, h1, h2, h3, h4, h5, h6, h7⟩ :=
        ihl hmin (by intro h; cases h)
      refine ⟨ya, yv, yr, cy, ky, yctx ++ [⟨.left, a, v, r⟩], h1, h2,
        by simp [h3], ?_, ?_, ?_, ?_⟩
      · refine CtxBal_append h4 (.red hv hr rfl .nil) ?_
        intro hlb
        rcases h6 with h6 | h6
        · subst h6; simp [lastBlack] at hlb
        · rw [h6] at hlb
          have := balanced_black_topBlackOrNil hl
          rw [this] at hlb
          cases hlb
      · rw [headBlack_append]
        cases hyc : yctx with
        | nil =>
          intro hb
          have hyl : y = Tree.node ll la lv lr := h7 hyc
          exact balanced_topBlackOrNil h2 (by rw [hyl]; exact balanced_black_topBlackOrNil hl)
        | cons q qs =>
          intro hb
          refine h5 ?_
          rw [hyc]
          exact hb
      · refine .inr ?_
        rw [lastBlack_append_ne]
        rfl
      · intro h
        exact absurd h (by simp)
  | @black v l c₁ n' r c₂ a hv hl hr ihl ihr =>
    intro acc ctx' y hmin _
    cases l with
    | nil =>
      cases hmin
      refine ⟨a, v, r, .black, n' + 1, [], rfl, .black hv hl hr, rfl, .nil, ?_,
        .inl rfl, fun _ => rfl⟩
      intro h; cases h
    | node ll la lv lr =>
      rw [minCtx] at hmin
      obtain ⟨ya, yv, yr, cy, ky, yctx, h1, h2, h3, h4, h5, h6, h7⟩ :=
        ihl hmin (by intro h; cases h)
      refine ⟨ya, yv, yr, cy, ky, yctx ++ [⟨.left, a, v, r⟩], h1, h2,
        by simp [h3], ?_, ?_, ?_, ?_⟩
      · refine CtxBal_append h4 (.black hv hr .nil) ?_
        intro _
        simp [headBlack, isBlackW_eq_not_isRedW, hv]
      · rw [headBlack_append]
        cases hyc : yctx with
        | nil =>
          intro hb
          simp [headBlack, isBlackW_eq_not_isRedW, hv] at hb
        | cons q qs =>
          intro hb
          refine h5 ?_
          rw [hyc]
          exact hb
      · refine .inr ?_
        rw [lastBlack_append_ne]
        simp [lastBlack, Tree.topBlackOrNil]
      · intro h
        exact absurd h (by simp)

/-- `hh::rb_tree::remove` preserves red-black validity (root stays black). -/
theorem remove_balanced (hb : Balanced t .black mb) (tgt : Nat) :
    ∃ m', Balanced (remove t tgt) .black m' := by
  unfold remove
  cases hf : findCtx t tgt [] with
  | none => exact ⟨mb, hb⟩
  | some res =>
    obtain ⟨ctx, z⟩ := res
    obtain ⟨zl, za, zv, zr, rfl⟩ := findCtx_isNode t [] ctx z hf
    obtain ⟨cz, k, hz, hctx, hint, hnil⟩ := findCtx_ctxBal hb .nil (fun h => by cases h) hf
    have hlast : lastBlack ctx = true :=
      findCtx_lastBlack t [] ctx _ hf rfl (fun _ => balanced_black_topBlackOrNil hb)
    cases zl with
    | nil =>
      show ∃ m', Balanced
        (if isBlackW zv = true then fix_remove ctx zr else plug zr ctx) .black m'
      cases hz with
      | red hv hl hr =>
        rw [if_neg (by rw [isBlackW_eq_not_isRedW, hv]; simp)]
        obtain ⟨-, hk⟩ := balanced_nil_inv hl
        subst hk
        obtain ⟨c', hres⟩ := plug_balanced hctx hr (fun _ => rfl)
        have hcb : c' = .black := balanced_topBlackOrNil hres
          (plug_topBlackOrNil ctx zr hlast (fun _ => balanced_black_topBlackOrNil hr))
        subst hcb
        exact ⟨mb, hres⟩
      | black hv hl hr =>
        rw [if_pos (by rw [isBlackW_eq_not_isRedW, hv]; rfl)]
        obtain ⟨-, hk⟩ := balanced_nil_inv hl
        subst hk
        obtain ⟨c', m', hres⟩ := fix_remove_balanced ctx zr 0 mb _ hctx hr
        have hcb : c' = .black := balanced_topBlackOrNil hres
          (fix_remove_topBlackOrNil ctx zr hlast)
        subst hcb
        exact ⟨m', hres⟩
    | node zll zla zlv zlr =>
      cases zr with
      | nil =>
        show ∃ m', Balanced
          (if isBlackW zv = true then fix_remove ctx (Tree.node zll zla zlv zlr)
            else plug (Tree.node zll zla zlv zlr) ctx) .black m'
        cases hz with
        | red hv hl hr =>
          obtain ⟨-, hk⟩ := balanced_nil_inv hr
          subst hk
          exact absurd (balanced_black_zero hl) (by intro h; cases h)
        | black hv hl hr =>
          rw [if_pos (by rw [isBlackW_eq_not_isRedW, hv]; rfl)]
          obtain ⟨-, hk⟩ := balanced_nil_inv hr
          subst hk
          obtain ⟨c', m', hres⟩ := fix_remove_balanced ctx _ 0 mb _ hctx hl
          have hcb : c' = .black := balanced_topBlackOrNil hres
            (fix_remove_topBlackOrNil ctx _ hlast)
          subst hcb
          exact ⟨m', hres⟩
      | node zrl zra zrv zrr =>
        show ∃ m', Balanced
          (match minCtx (Tree.node zrl zra zrv zrr) [] with
           | (yctx, .node _ ya yv yr) =>
             if isBlackW yv = true then
               fix_remove (yctx ++ ⟨.right, ya, copyColorFrom zv yv,
                 Tree.node zll zla zlv zlr⟩ :: ctx) yr
             else plug yr (yctx ++ ⟨.right, ya, copyColorFrom zv yv,
               Tree.node zll zla zlv zlr⟩ :: ctx)
           | (_, .nil) => t) .black m'
        cases hmin : minCtx (Tree.node zrl zra zrv zrr) [] with
        | mk ctx0 y =>
          cases hz with
          | red hv hl hr =>
            obtain ⟨ya, yv, yr, cy, ky, yctx, hy, hby, hctx0, hcb, hint_y, hlast_y, hy_eq⟩ :=
              minCtx_spec hr hmin (by intro h; cases h)
            subst hy
            rw [List.append_nil] at hctx0
            subst hctx0
            have hcne : ctx ≠ [] := by
              intro h
              obtain ⟨hzt, -⟩ := hnil h
              have htb := balanced_black_topBlackOrNil hb
              rw [← hzt] at htb
              simp [Tree.topBlackOrNil, isBlackW_eq_not_isRedW, hv] at htb
            have hheadctx : headBlack ctx = true := by
              rcases h : headBlack ctx with _ | _
              · exact absurd (hint h) (by intro hc; cases hc)
              · rfl
            have hfr : CtxBal (⟨.right, ya, copyColorFrom zv yv,
                Tree.node zll zla zlv zlr⟩ :: ctx) k mb :=
              .red (by rw [isRedW_copyColorFrom]; exact hv) hl hheadctx hctx
            have hside : lastBlack ctx0 = false →
                headBlack (⟨.right, ya, copyColorFrom zv yv,
                  Tree.node zll zla zlv zlr⟩ :: ctx) = true := by
              intro hlb
              rcases hlast_y with h6 | h6
              · subst h6; simp [lastBlack] at hlb
              · rw [h6] at hlb
                rw [balanced_black_topBlackOrNil hr] at hlb
                cases hlb
            have hctxx : CtxBal (ctx0 ++ ⟨.right, ya, copyColorFrom zv yv,
                Tree.node zll zla zlv zlr⟩ :: ctx) ky mb :=
              CtxBal_append hcb hfr hside
            have hlastxx : lastBlack (ctx0 ++ ⟨.right, ya, copyColorFrom zv yv,
                Tree.node zll zla zlv zlr⟩ :: ctx) = true := by
              rw [lastBlack_append_ne, lastBlack_cons]
              cases hc2 : ctx with
              | nil => exact absurd hc2 hcne
              | cons q qs =>
                show lastBlack (q :: qs) = true
                rw [← hc2]
                exact hlast
            show ∃ m', Balanced
              (if isBlackW yv = true then
                fix_remove (ctx0 ++ ⟨.right, ya, copyColorFrom zv yv,
                  Tree.node zll zla zlv zlr⟩ :: ctx) yr
              else plug yr (ctx0 ++ ⟨.right, ya, copyColorFrom zv yv,
                Tree.node zll zla zlv zlr⟩ :: ctx)) .black m'
            by_cases hyv : isBlackW yv = true
            · rw [if_pos hyv]
              cases hby with
              | red hyv' hyl hyr =>
                rw [isBlackW_eq_not_isRedW, hyv'] at hyv
                cases hyv
              | black hyv' hyl hyr =>
                obtain ⟨-, hk0⟩ := balanced_nil_inv hyl
                subst hk0
                obtain ⟨c', m', hres⟩ := fix_remove_balanced _ yr 0 mb _ hctxx hyr
                have hcbk : c' = .black := balanced_topBlackOrNil hres
                  (fix_remove_topBlackOrNil _ yr hlastxx)
                subst hcbk
                exact ⟨m', hres⟩
            · rw [if_neg hyv]
              cases hby with
              | black hyv' hyl hyr =>
                rw [isBlackW_eq_not_isRedW, hyv'] at hyv
                simp at hyv
              | red hyv' hyl hyr =>
                obtain ⟨-, hk0⟩ := balanced_nil_inv hyl
                subst hk0
                have hyrnil : yr = .nil := balanced_black_zero hyr
                subst hyrnil
                obtain ⟨c', hres⟩ := plug_balanced hctxx .nil (fun _ => rfl)
                have hcbk : c' = .black := balanced_topBlackOrNil hres
                  (plug_topBlackOrNil _ _ hlastxx (fun _ => rfl))
                subst hcbk
                exact ⟨mb, hres⟩
          | black hv hl hr =>
            obtain ⟨ya, yv, yr, cy, ky, yctx, hy, hby, hctx0, hcb, hint_y, hlast_y, hy_eq⟩ :=
              minCtx_spec hr hmin (by intro h; cases h)
            subst hy
            rw [List.append_nil] at hctx0
            subst hctx0
            have hfr : CtxBal (⟨.right, ya, copyColorFrom zv yv,
                Tree.node zll zla zlv zlr⟩ :: ctx) _ mb :=
              .black (by rw [isRedW_copyColorFrom]; exact hv) hl hctx
            have hside : lastBlack ctx0 = false →
                headBlack (⟨.right, ya, copyColorFrom zv yv,
                  Tree.node zll zla zlv zlr⟩ :: ctx) = true := by
              intro _
              simp [headBlack, isBlackW_eq_not_isRedW, isRedW_copyColorFrom, hv]
            have hctxx : CtxBal (ctx0 ++ ⟨.right, ya, copyColorFrom zv yv,
                Tree.node zll zla zlv zlr⟩ :: ctx) ky mb :=
              CtxBal_append hcb hfr hside
            have hlastxx : lastBlack (ctx0 ++ ⟨.right, ya, copyColorFrom zv yv,
                Tree.node zll zla zlv zlr⟩ :: ctx) = true := by
              rw [lastBlack_append_ne, lastBlack_cons]
              cases hc2 : ctx with
              | nil =>
                simp [isBlackW_eq_not_isRedW, isRedW_copyColorFrom, hv]
              | cons q qs =>
                show lastBlack (q :: qs) = true
                rw [← hc2]
                exact hlast
            show ∃ m', Balanced
              (if isBlackW yv = true then
                fix_remove (ctx0 ++ ⟨.right, ya, copyColorFrom zv yv,
                  Tree.node zll zla zlv zlr⟩ :: ctx) yr
              else plug yr (ctx0 ++ ⟨.right, ya, copyColorFrom zv yv,
                Tree.node zll zla zlv zlr⟩ :: ctx)) .black m'
            by_cases hyv : isBlackW yv = true
            · rw [if_pos hyv]
              cases hby with
              | red hyv' hyl hyr =>
                rw [isBlackW_eq_not_isRedW, hyv'] at hyv
                cases hyv
              | black hyv' hyl hyr =>
                obtain ⟨-, hk0⟩ := balanced_nil_inv hyl
                subst hk0
                obtain ⟨c', m', hres⟩ := fix_remove_balanced _ yr 0 mb _ hctxx hyr
                have hcbk : c' = .black := balanced_topBlackOrNil hres
                  (fix_remove_topBlackOrNil _ yr hlastxx)
                subst hcbk
                exact ⟨m', hres⟩
            · rw [if_neg hyv]
              cases hby with
              | black hyv' hyl hyr =>
                rw [isBlackW_eq_not_isRedW, hyv'] at hyv
                simp at hyv
              | red hyv' hyl hyr =>
                obtain ⟨-, hk0⟩ := balanced_nil_inv hyl
                subst hk0
                have hyrnil : yr = .nil := balanced_black_zero hyr
                subst hyrnil
                obtain ⟨c', hres⟩ := plug_balanced hctxx .nil (fun _ => rfl)
                have hcbk : c' = .black := balanced_topBlackOrNil hres
                  (plug_topBlackOrNil _ _ hlastxx (fun _ => rfl))
                subst hcbk
                exact ⟨mb, hres⟩

/-! ## In-order entries, search-tree ordering -/

/-- The in-order list of stored values (sizes, color bit masked off). -/
def Tree.vals (t : Tree) : List Nat := t.entries.map Prod.snd

/-- The binary-search-tree ordering invariant: the in-order value sequence is
weakly sorted (duplicates sit to the right, as `insert` sends ties right). -/
def Ordered (t : Tree) : Prop := t.vals.Pairwise (· ≤ ·)

theorem vals_nil : Tree.vals .nil = [] := rfl

theorem vals_node (l : Tree) (a v : Nat) (r : Tree) :
    (Tree.node l a v r).vals = l.vals ++ rbGetValue v :: r.vals := by
  simp [Tree.vals, Tree.entries]

theorem ordered_node_iff (l : Tree) (a v : Nat) (r : Tree) :
    Ordered (.node l a v r) ↔
      Ordered l ∧ Ordered r ∧ (∀ u ∈ l.vals, u ≤ rbGetValue v) ∧
        (∀ w ∈ r.vals, rbGetValue v ≤ w) ∧
        (∀ u ∈ l.vals, ∀ w ∈ r.vals, u ≤ w) := by
  simp only [Ordered, vals_node, List.pairwise_append, List.pairwise_cons, List.mem_cons]
  constructor
  · rintro ⟨hl, ⟨hvr, hr⟩, hlr⟩
    refine ⟨hl, hr, fun u hu => (hlr u hu _ (.inl rfl)), hvr, ?_⟩
    exact fun u hu w hw => hlr u hu w (.inr hw)
  · rintro ⟨hl, hr, hlv, hvr, hlr⟩
    refine ⟨hl, ⟨hvr, hr⟩, ?_⟩
    rintro u hu w (rfl | hw)
    · exact hlv u hu
    · exact hlr u hu w hw

/-- Entries of a tree context, split into the part that sits before the hole
in in-order and the part after it. -/
def ctxL : Ctx → List (Nat × Nat)
  | [] => []
  | ⟨.left, _, _, _⟩ :: rest => ctxL rest
  | ⟨.right, a, v, sib⟩ :: rest => ctxL rest ++ sib.entries ++ [(a, rbGetValue v)]

def ctxR : Ctx → List (Nat × Nat)
  | [] => []
  | ⟨.left, a, v, sib⟩ :: rest => (a, rbGetValue v) :: sib.entries ++ ctxR rest
  | ⟨.right, _, _, _⟩ :: rest => ctxR rest

theorem entries_plug : ∀ (c : Ctx) (t : Tree),
    (plug t c).entries = ctxL c ++ t.entries ++ ctxR c
  | [], t => by simp [plug, ctxL, ctxR]
  | ⟨.left, a, v, sib⟩ :: rest, t => by
    show (plug (.node t a v sib) rest).entries = _
    rw [entries_plug rest]
    simp [ctxL, ctxR, Tree.entries]
  | ⟨.right, a, v, sib⟩ :: rest, t => by
    show (plug (.node sib a v t) rest).entries = _
    rw [entries_plug rest]
    simp [ctxL, ctxR, Tree.entries]

theorem entries_setBlackTop (t : Tree) : t.setBlackTop.entries = t.entries := by
  cases t <;> simp [Tree.setBlackTop, Tree.entries, rbGetValue_setColorBlack]

theorem entries_plug1_left (a v : Nat) (sib t : Tree) :
    (plug1 ⟨.left, a, v, sib⟩ t).entries = t.entries ++ (a, rbGetValue v) :: sib.entries := by
  simp [plug1, Tree.entries]

theorem entries_plug1_right (a v : Nat) (sib t : Tree) :
    (plug1 ⟨.right, a, v, sib⟩ t).entries = sib.entries ++ (a, rbGetValue v) :: t.entries := by
  simp [plug1, Tree.entries]

/-- `fix_insert` only recolors and rotates: the in-order entry sequence is
unchanged. -/
theorem entries_fix_insert :
    ∀ (ctx : Ctx) (z : Tree), (fix_insert ctx z).entries = (plug z ctx).entries
  | [], z => by simp [fix_insert, entries_setBlackTop, plug]
  | [⟨d1, a1, v1, s1⟩], z => by
    rcases h1 : isRedW v1 with _ | _ <;>
      simp [fix_insert, h1, entries_setBlackTop, plug]
  | ⟨d1, a1, v1, s1⟩ :: ⟨d2, a2, v2, s2⟩ :: rest2, z => by
    rcases h1 : isRedW v1 with _ | _
    · simp [fix_insert, h1, entries_setBlackTop, plug]
    · simp only [fix_insert, h1, Bool.true_eq_false, if_neg, not_false_iff]
      cases d2 with
      | left =>
        rcases hu : Tree.topRed s2 with _ | _
        · simp only [hu, Bool.false_eq_true, if_neg, not_false_iff]
          cases d1 with
          | right =>
            cases z with
            | nil => simp [entries_setBlackTop, plug]
            | node zl za zv zr =>
              rw [entries_setBlackTop]
              show _ = (plug (plug1 ⟨.left, a2, v2, s2⟩
                (plug1 ⟨.right, a1, v1, s1⟩ (Tree.node zl za zv zr))) rest2).entries
              rw [entries_plug, entries_plug]
              simp [Tree.entries, entries_plug1_left, entries_plug1_right,
                rbGetValue_setColorRed, rbGetValue_setColorBlack, plug1]
          | left =>
            rw [entries_setBlackTop]
            show _ = (plug (plug1 ⟨.left, a2, v2, s2⟩
              (plug1 ⟨.left, a1, v1, s1⟩ z)) rest2).entries
            rw [entries_plug, entries_plug]
            simp [Tree.entries, rbGetValue_setColorRed, rbGetValue_setColorBlack, plug1]
        · simp only [hu, if_pos]
          rw [entries_fix_insert rest2]
          show _ = (plug (plug1 ⟨.left, a2, v2, s2⟩
            (plug1 ⟨d1, a1, v1, s1⟩ z)) rest2).entries
          rw [entries_plug, entries_plug]
          cases d1 <;>
            simp [Tree.entries, entries_setBlackTop, rbGetValue_setColorRed,
              rbGetValue_setColorBlack, plug1]
      | right =>
        rcases hu : Tree.topRed s2 with _ | _
        · simp only [hu, Bool.false_eq_true, if_neg, not_false_iff]
          cases d1 with
          | left =>
            cases z with
            | nil => simp [entries_setBlackTop, plug]
            | node zl za zv zr =>
              rw [entries_setBlackTop]
              show _ = (plug (plug1 ⟨.right, a2, v2, s2⟩
                (plug1 ⟨.left, a1, v1, s1⟩ (Tree.node zl za zv zr))) rest2).entries
              rw [entries_plug, entries_plug]
              simp [Tree.entries, rbGetValue_setColorRed, rbGetValue_setColorBlack, plug1]
          | right =>
            rw [entries_setBlackTop]
            show _ = (plug (plug1 ⟨.right, a2, v2, s2⟩
              (plug1 ⟨.right, a1, v1, s1⟩ z)) rest2).entries
            rw [entries_plug, entries_plug]
            simp [Tree.entries, rbGetValue_setColorRed, rbGetValue_setColorBlack, plug1]
        · simp only [hu, if_pos]
          rw [entries_fix_insert rest2]
          show _ = (plug (plug1 ⟨.right, a2, v2, s2⟩
            (plug1 ⟨d1, a1, v1, s1⟩ z)) rest2).entries
          rw [entries_plug, entries_plug]
          cases d1 <;>
            simp [Tree.entries, entries_setBlackTop, rbGetValue_setColorRed,
              rbGetValue_setColorBlack, plug1]

/-- The tree produced by the plain BST descent of `insert` (before
rebalancing): `z` is attached at the position `descend` walks to. -/
def insTree : Tree → Nat → Tree → Tree
  | .nil, _, z => z
  | .node l a v r, nv, z =>
    if rbGetValue nv < rbGetValue v then .node (insTree l nv z) a v r
    else .node l a v (insTree r nv z)

theorem plug_descend :
    ∀ (x : Tree) (nv : Nat) (acc : Ctx) (z : Tree),
      plug z (descend x nv acc) = plug (insTree x nv z) acc
  | .nil, nv, acc, z => by simp [descend, insTree]
  | .node l a v r, nv, acc, z => by
    simp only [descend, insTree]
    split
    · rw [plug_descend l]
      rfl
    · rw [plug_descend r]
      rfl

theorem entries_insTree_perm :
    ∀ (x : Tree) (nv : Nat) (z : Tree),
      (insTree x nv z).entries.Perm (z.entries ++ x.entries)
  | .nil, nv, z => by simp [insTree, Tree.entries]
  | .node l a v r, nv, z => by
    simp only [insTree]
    split
    · show List.Perm ((insTree l nv z).entries ++ (a, rbGetValue v) :: r.entries) _
      refine ((entries_insTree_perm l nv z).append_right _).trans ?_
      refine List.perm_iff_count.mpr fun e => ?_
      simp [Tree.entries, List.count_append, List.count_cons]
    · show List.Perm (l.entries ++ (a, rbGetValue v) :: (insTree r nv z).entries) _
      refine List.Perm.trans
        (((entries_insTree_perm r nv z).cons _).append_left l.entries) ?_
      refine List.perm_iff_count.mpr fun e => ?_
      simp [Tree.entries, List.count_append, List.count_cons]
      omega

theorem vals_insTree_perm (x : Tree) (nv : Nat) (z : Tree) :
    (insTree x nv z).vals.Perm (z.vals ++ x.vals) := by
  have h := (entries_insTree_perm x nv z).map Prod.snd
  simpa [Tree.vals] using h

theorem mem_vals_insTree {x z : Tree} {nv u : Nat} :
    u ∈ (insTree x nv z).vals ↔ u ∈ z.vals ∨ u ∈ x.vals := by
  rw [(vals_insTree_perm x nv z).mem_iff, List.mem_append]

/-- BST insertion at the descent position preserves the ordering invariant
when the attached subtree is the single new node. -/
theorem insTree_ordered :
    ∀ (x : Tree), Ordered x →
      Ordered (insTree x nv (.node .nil na (setColorRed nv) .nil))
  | .nil, _ => by
    simp [insTree, Ordered, Tree.vals, Tree.entries]
  | .node l a v r, h => by
    rw [ordered_node_iff] at h
    obtain ⟨hl, hr, hlv, hvr, hlr⟩ := h
    have hzv : ∀ u ∈ (Tree.node Tree.nil na (setColorRed nv) Tree.nil).vals,
        u = rbGetValue nv := by
      intro u hu
      simpa [Tree.vals, Tree.entries, rbGetValue_setColorRed] using hu
    simp only [insTree]
    split
    · rename_i hlt
      rw [ordered_node_iff]
      refine ⟨insTree_ordered l hl, hr, ?_, hvr, ?_⟩
      · intro u hu
        rcases mem_vals_insTree.mp hu with hz | hx
        · rw [hzv u hz]; exact Nat.le_of_lt hlt
        · exact hlv u hx
      · intro u hu w hw
        rcases mem_vals_insTree.mp hu with hz | hx
        · rw [hzv u hz]; exact Nat.le_trans (Nat.le_of_lt hlt) (hvr w hw)
        · exact hlr u hx w hw
    · rename_i hge
      rw [Nat.not_lt] at hge
      rw [ordered_node_iff]
      refine ⟨hl, insTree_ordered r hr, hlv, ?_, ?_⟩
      · intro w hw
        rcases mem_vals_insTree.mp hw with hz | hx
        · rw [hzv w hz]; exact hge
        · exact hvr w hx
      · intro u hu w hw
        rcases mem_vals_insTree.mp hw with hz | hx
        · rw [hzv w hz]; exact Nat.le_trans (hlv u hu) hge
        · exact hlr u hu w hx

/-- `insert` only adds one entry (address, size). -/
theorem entries_insert (t : Tree) (na nv : Nat) :
    (insert t na nv).entries.Perm ((na, rbGetValue nv) :: t.entries) := by
  unfold insert
  rw [entries_fix_insert, plug_descend]
  show (plug (insTree t nv (.node .nil na (setColorRed nv) .nil)) []).entries.Perm _
  refine (entries_insTree_perm _ _ _).trans ?_
  simp [Tree.entries, rbGetValue_setColorRed]

/-- `insert` preserves the search-tree ordering. -/
theorem insert_ordered (h : Ordered t) (na nv : Nat) : Ordered (insert t na nv) := by
  unfold Ordered
  have he : (insert t na nv).vals =
      (insTree t nv (.node .nil na (setColorRed nv) .nil)).vals := by
    unfold insert Tree.vals
    rw [entries_fix_insert, plug_descend]
    rfl
  rw [he]
  exact insTree_ordered t h

/-! ## Entries across removal -/

def FixStep.tree : FixStep → Tree
  | .up s => s
  | .done s => s

theorem solveL_entries (x : Tree) (pa pv : Nat) (wl : Tree) (wa wv : Nat) (wr : Tree) :
    ((solveL x pa pv wl wa wv wr).tree).entries =
      (Tree.node x pa pv (Tree.node wl wa wv wr)).entries := by
  unfold solveL
  split
  · simp [FixStep.tree, Tree.entries, rbGetValue_setColorRed]
  · split
    · split
      · simp [FixStep.tree, Tree.entries, rbGetValue_setColorRed, rbGetValue_setColorBlack,
          rbGetValue_copyColorFrom]
      · simp [FixStep.tree]
    · cases wr with
      | nil => simp [FixStep.tree, Tree.entries, Tree.setBlackTop, rbGetValue_setColorBlack,
          rbGetValue_copyColorFrom]
      | node wrl wra wrv wrr =>
        simp [FixStep.tree, Tree.entries, Tree.setBlackTop, rbGetValue_setColorBlack,
          rbGetValue_copyColorFrom]

theorem solveR_entries (x : Tree) (pa pv : Nat) (wl : Tree) (wa wv : Nat) (wr : Tree) :
    ((solveR x pa pv wl wa wv wr).tree).entries =
      (Tree.node (Tree.node wl wa wv wr) pa pv x).entries := by
  unfold solveR
  split
  · simp [FixStep.tree, Tree.entries, rbGetValue_setColorRed]
  · split
    · split
      · simp [FixStep.tree, Tree.entries, rbGetValue_setColorRed, rbGetValue_setColorBlack,
          rbGetValue_copyColorFrom]
      · simp [FixStep.tree]
    · cases wl with
      | nil => simp [FixStep.tree, Tree.entries, Tree.setBlackTop, rbGetValue_setColorBlack,
          rbGetValue_copyColorFrom]
      | node wll wla wlv wlr =>
        simp [FixStep.tree, Tree.entries, Tree.setBlackTop, rbGetValue_setColorBlack,
          rbGetValue_copyColorFrom]

/-- `fix_remove` only recolors and rotates: the in-order entry sequence is
unchanged. -/
theorem entries_fix_remove :
    ∀ (ctx : Ctx) (x : Tree), (fix_remove ctx x).entries = (plug x ctx).entries
  | [], x => by simp [fix_remove, entries_setBlackTop, plug]
  | ⟨d, a, v, sib⟩ :: rest, x => by
    by_cases hxr : x.topRed = true
    · rw [fix_remove_topRed _ _ hxr, entries_plug, entries_plug, entries_setBlackTop]
    · cases d with
      | left =>
        cases sib with
        | nil =>
          simp only [fix_remove]
          rw [if_neg hxr]
        | node wl wa wv wr =>
          simp only [fix_remove]
          rw [if_neg hxr]
          by_cases hwv : isRedW wv = true
          · rw [if_pos hwv]
            split
            · rfl
            · rename_i wll wla wlv wlr
              cases hsol : solveL x a (setColorRed v) wll wla wlv wlr with
              | up s =>
                show (plug s.setBlackTop (⟨.left, wa, setColorBlack wv, wr⟩ :: rest)).entries = _
                have hse : s.entries =
                    (Tree.node x a (setColorRed v)
                      (Tree.node wll wla wlv wlr)).entries := by
                  have h := solveL_entries x a (setColorRed v) wll wla wlv wlr
                  rw [hsol] at h
                  exact h
                rw [entries_plug, entries_plug, entries_setBlackTop, hse]
                simp [Tree.entries, plug1, ctxL, ctxR, rbGetValue_setColorRed,
                  rbGetValue_setColorBlack]
              | done s =>
                show ((plug s (⟨.left, wa, setColorBlack wv, wr⟩ :: rest)).setBlackTop).entries = _
                have hse : s.entries =
                    (Tree.node x a (setColorRed v)
                      (Tree.node wll wla wlv wlr)).entries := by
                  have h := solveL_entries x a (setColorRed v) wll wla wlv wlr
                  rw [hsol] at h
                  exact h
                rw [entries_setBlackTop, entries_plug, entries_plug, hse]
                simp [Tree.entries, plug1, ctxL, ctxR, rbGetValue_setColorRed,
                  rbGetValue_setColorBlack]
          · rw [if_neg hwv]
            cases hsol : solveL x a v wl wa wv wr with
            | up s =>
              show (fix_remove rest s).entries = _
              rw [entries_fix_remove rest s]
              have hse : s.entries = (Tree.node x a v (Tree.node wl wa wv wr)).entries := by
                have h := solveL_entries x a v wl wa wv wr
                rw [hsol] at h
                exact h
              rw [entries_plug, entries_plug, hse]
              simp [Tree.entries, plug1, ctxL, ctxR]
            | done s =>
              show ((plug s rest).setBlackTop).entries = _
              have hse : s.entries = (Tree.node x a v (Tree.node wl wa wv wr)).entries := by
                have h := solveL_entries x a v wl wa wv wr
                rw [hsol] at h
                exact h
              rw [entries_setBlackTop, entries_plug, entries_plug, hse]
              simp [Tree.entries, plug1, ctxL, ctxR]
      | right =>
        cases sib with
        | nil =>
          simp only [fix_remove]
          rw [if_neg hxr]
        | node wl wa wv wr =>
          simp only [fix_remove]
          rw [if_neg hxr]
          by_cases hwv : isRedW wv = true
          · rw [if_pos hwv]
            split
            · rfl
            · rename_i wrl wra wrv wrr
              cases hsol : solveR x a (setColorRed v) wrl wra wrv wrr with
              | up s =>
                show (plug s.setBlackTop (⟨.right, wa, setColorBlack wv, wl⟩ :: rest)).entries = _
                have hse : s.entries =
                    (Tree.node (Tree.node wrl wra wrv wrr) a (setColorRed v) x).entries := by
                  have h := solveR_entries x a (setColorRed v) wrl wra wrv wrr
                  rw [hsol] at h
                  exact h
                rw [entries_plug, entries_plug, entries_setBlackTop, hse]
                simp [Tree.entries, plug1, ctxL, ctxR, rbGetValue_setColorRed,
                  rbGetValue_setColorBlack]
              | done s =>
                show ((plug s (⟨.right, wa, setColorBlack wv, wl⟩ :: rest)).setBlackTop).entries = _
                have hse : s.entries =
                    (Tree.node (Tree.node wrl wra wrv wrr) a (setColorRed v) x).entries := by
                  have h := solveR_entries x a (setColorRed v) wrl wra wrv wrr
                  rw [hsol] at h
                  exact h
                rw [entries_setBlackTop, entries_plug, entries_plug, hse]
                simp [Tree.entries, plug1, ctxL, ctxR, rbGetValue_setColorRed,
                  rbGetValue_setColorBlack]
          · rw [if_neg hwv]
            cases hsol : solveR x a v wl wa wv wr with
            | up s =>
              show (fix_remove rest s).entries = _
              rw [entries_fix_remove rest s]
              have hse : s.entries = (Tree.node (Tree.node wl wa wv wr) a v x).entries := by
                have h := solveR_entries x a v wl wa wv wr
                rw [hsol] at h
                exact h
              rw [entries_plug, entries_plug, hse]
              simp [Tree.entries, plug1, ctxL, ctxR]
            | done s =>
              show ((plug s rest).setBlackTop).entries = _
              have hse : s.entries = (Tree.node (Tree.node wl wa wv wr) a v x).entries := by
                have h := solveR_entries x a v wl wa wv wr
                rw [hsol] at h
                exact h
              rw [entries_setBlackTop, entries_plug, entries_plug, hse]
              simp [Tree.entries, plug1, ctxL, ctxR]

theorem ctxL_append : ∀ c1 c2 : Ctx, ctxL (c1 ++ c2) = ctxL c2 ++ ctxL c1
  | [], c2 => by simp [ctxL]
  | ⟨.left, a, v, sib⟩ :: rest, c2 => by
    show ctxL (rest ++ c2) = ctxL c2 ++ ctxL (⟨.left, a, v, sib⟩ :: rest)
    rw [ctxL_append rest c2]
    rfl
  | ⟨.right, a, v, sib⟩ :: rest, c2 => by
    show ctxL (rest ++ c2) ++ sib.entries ++ [(a, rbGetValue v)] = _
    rw [ctxL_append rest c2]
    show _ = ctxL c2 ++ (ctxL rest ++ sib.entries ++ [(a, rbGetValue v)])
    simp [List.append_assoc]

theorem ctxR_append : ∀ c1 c2 : Ctx, ctxR (c1 ++ c2) = ctxR c1 ++ ctxR c2
  | [], c2 => by simp [ctxR]
  | ⟨.left, a, v, sib⟩ :: rest, c2 => by
    show (a, rbGetValue v) :: sib.entries ++ ctxR (rest ++ c2) = _
    rw [ctxR_append rest c2]
    show _ = ((a, rbGetValue v) :: sib.entries ++ ctxR rest) ++ ctxR c2
    simp [List.append_assoc]
  | ⟨.right, a, v, sib⟩ :: rest, c2 => by
    show ctxR (rest ++ c2) = ctxR (⟨.right, a, v, sib⟩ :: rest) ++ ctxR c2
    rw [ctxR_append rest c2]
    rfl

theorem findCtx_plug :
    ∀ (x : Tree) (acc ctx : Ctx) (z : Tree), findCtx x tgt acc = some (ctx, z) →
      plug z ctx = plug x acc ∧ ∃ zl zv zr, z = .node zl tgt zv zr
  | .nil, acc, ctx, z, h => by simp [findCtx] at h
  | .node l a v r, acc, ctx, z, h => by
    simp only [findCtx] at h
    split at h
    · rename_i heq
      cases h
      subst heq
      exact ⟨rfl, l, v, r, rfl⟩
    · cases hL : findCtx l tgt (⟨.left, a, v, r⟩ :: acc) with
      | some res =>
        rw [hL] at h
        cases h
        obtain ⟨h1, h2⟩ := findCtx_plug l _ _ _ hL
        exact ⟨h1, h2⟩
      | none =>
        rw [hL] at h
        obtain ⟨h1, h2⟩ := findCtx_plug r _ _ _ h
        exact ⟨h1, h2⟩

theorem minCtx_plug :
    ∀ (x : Tree) (acc : Ctx) (ctx' : Ctx) (y : Tree), minCtx x acc = (ctx', y) →
      x ≠ .nil →
      plug y ctx' = plug x acc ∧ (∃ ya yv yr, y = .node .nil ya yv yr) ∧
        ctxL ctx' = ctxL acc
  | .nil, acc, ctx', y, h, hne => absurd rfl hne
  | .node l a v r, acc, ctx', y, h, _ => by
    cases l with
    | nil =>
      cases h
      exact ⟨rfl, ⟨a, v, r, rfl⟩, rfl⟩
    | node ll la lv lr =>
      rw [minCtx] at h
      obtain ⟨h1, h2, h3⟩ := minCtx_plug _ _ _ _ h (by intro hc; cases hc)
      exact ⟨h1, h2, h3⟩

theorem remove_not_found (t : Tree) (tgt : Nat) (h : findCtx t tgt [] = none) :
    remove t tgt = t := by
  unfold remove
  rw [h]

/-- `remove` deletes exactly the in-order entry of the targeted node, leaving
every other entry in place and in order. -/
theorem remove_entries (t : Tree) (tgt : Nat) {ctx : Ctx} {z : Tree}
    (hf : findCtx t tgt [] = some (ctx, z)) :
    ∃ w pre post, t.entries = pre ++ (tgt, w) :: post ∧
      (remove t tgt).entries = pre ++ post := by
  obtain ⟨hplug, zl, zv, zr, rfl⟩ := findCtx_plug t [] ctx z hf
  have hte : t.entries = (ctxL ctx ++ zl.entries) ++ (tgt, rbGetValue zv) ::
      (zr.entries ++ ctxR ctx) := by
    conv_lhs => rw [show t = plug (Tree.node zl tgt zv zr) ctx from hplug.symm]
    rw [entries_plug]
    simp [Tree.entries, List.append_assoc]
  refine ⟨rbGetValue zv, ctxL ctx ++ zl.entries, zr.entries ++ ctxR ctx, hte, ?_⟩
  unfold remove
  rw [hf]
  cases zl with
  | nil =>
    show (if isBlackW zv = true then fix_remove ctx zr else plug zr ctx).entries = _
    by_cases hzv : isBlackW zv = true
    · rw [if_pos hzv, entries_fix_remove, entries_plug]
      simp [Tree.entries]
    · rw [if_neg hzv, entries_plug]
      simp [Tree.entries]
  | node zll zla zlv zlr =>
    cases zr with
    | nil =>
      show (if isBlackW zv = true then fix_remove ctx (Tree.node zll zla zlv zlr)
        else plug (Tree.node zll zla zlv zlr) ctx).entries = _
      by_cases hzv : isBlackW zv = true
      · rw [if_pos hzv, entries_fix_remove, entries_plug]
        simp [Tree.entries]
      · rw [if_neg hzv, entries_plug]
        simp [Tree.entries]
    | node zrl zra zrv zrr =>
      show (match minCtx (Tree.node zrl zra zrv zrr) [] with
        | (yctx, .node _ ya yv yr) =>
          if isBlackW yv = true then
            fix_remove (yctx ++ (⟨.right, ya, copyColorFrom zv yv,
              Tree.node zll zla zlv zlr⟩ : Frame) :: ctx) yr
          else plug yr (yctx ++ (⟨.right, ya, copyColorFrom zv yv,
            Tree.node zll zla zlv zlr⟩ : Frame) :: ctx)
        | (_, .nil) => t).entries = _
      cases hmin : minCtx (Tree.node zrl zra zrv zrr) [] with
      | mk ctx0 y =>
        obtain ⟨hyplug, ⟨ya, yv, yr, rfl⟩, hL0⟩ :=
          minCtx_plug _ [] ctx0 y hmin (by intro hc; cases hc)
        show (if isBlackW yv = true then
            fix_remove (ctx0 ++ ⟨.right, ya, copyColorFrom zv yv,
              Tree.node zll zla zlv zlr⟩ :: ctx) yr
          else plug yr (ctx0 ++ ⟨.right, ya, copyColorFrom zv yv,
            Tree.node zll zla zlv zlr⟩ :: ctx)).entries = _
      
        have hzr : (Tree.node zrl zra zrv zrr).entries =
            (ya, rbGetValue yv) :: yr.entries ++ ctxR ctx0 := by
          rw [show (Tree.node zrl zra zrv zrr) =
            plug (Tree.node .nil ya yv yr) ctx0 from hyplug.symm, entries_plug]
          rw [hL0]
          simp [Tree.entries, ctxL]
        have key : (plug yr (ctx0 ++ ⟨.right, ya, copyColorFrom zv yv,
            Tree.node zll zla zlv zlr⟩ :: ctx)).entries =
            ctxL ctx ++ (Tree.node zll zla zlv zlr).entries ++
              (Tree.node zrl zra zrv zrr).entries ++ ctxR ctx := by
          rw [entries_plug, ctxL_append, ctxR_append, hL0, hzr]
          show (ctxL ctx ++ (Tree.node zll zla zlv zlr).entries ++
              [(ya, rbGetValue (copyColorFrom zv yv))] ++ ([] ++ ctxL [])) ++
              yr.entries ++ (ctxR ctx0 ++ ctxR ctx) = _
          rw [rbGetValue_copyColorFrom]
          simp [ctxL, List.append_assoc]
        by_cases hyv : isBlackW yv = true
        · rw [if_pos hyv, entries_fix_remove, key]
          simp [List.append_assoc]
        · rw [if_neg hyv, key]
          simp [List.append_assoc]

/-- `remove` preserves the search-tree ordering. -/
theorem remove_ordered (h : Ordered t) (tgt : Nat) : Ordered (remove t tgt) := by
  cases hf : findCtx t tgt [] with
  | none => rw [remove_not_found t tgt hf]; exact h
  | some res =>
    obtain ⟨ctx, z⟩ := res
    obtain ⟨w, pre, post, h1, h2⟩ := remove_entries t tgt hf
    unfold Ordered Tree.vals at h ⊢
    rw [h2]
    rw [h1] at h
    refine h.sublist ?_
    refine List.Sublist.map _ ?_
    exact ((List.Sublist.refl post).cons _).append_left pre

/-! ## Correctness of `lower_bound` with the best-fit comparator -/

/-- The comparator `Block::best_fit` passes to `lower_bound`:
`[](std::size_t a, std::size_t b) { return (a) <= (b); }`. -/
def leCmp (a b : Nat) : Bool := a ≤ b

theorem lower_bound_correct :
    ∀ (t : Tree), Ordered t → ∀ (key : Nat),
      ((lower_bound t key leCmp = none → ∀ w ∈ t.vals, w < key) ∧
       ∀ a v, lower_bound t key leCmp = some (a, v) →
         (a, rbGetValue v) ∈ t.entries ∧ key ≤ rbGetValue v ∧
           ∀ w ∈ t.vals, key ≤ w → rbGetValue v ≤ w)
  | .nil, _, key => by
    constructor
    · intro _ w hw
      simp [Tree.vals, Tree.entries] at hw
    · intro a v h
      simp [lower_bound] at h
  | .node l na nv r, hord, key => by
    rw [ordered_node_iff] at hord
    obtain ⟨hl, hr, hlv, hvr, hlr⟩ := hord
    have ihl := lower_bound_correct l hl key
    have ihr := lower_bound_correct r hr key
    constructor
    · intro hnone w hw
      simp only [lower_bound] at hnone
      split at hnone
      · split at hnone <;> cases hnone
      · rename_i hcmp
        have hklt : rbGetValue nv < key := by
          simpa [leCmp, Nat.not_le] using hcmp
        rw [vals_node] at hw
        rcases List.mem_append.mp hw with hw | hw
        · exact Nat.lt_of_le_of_lt (hlv w hw) hklt
        · rcases List.mem_cons.mp hw with rfl | hw
          · exact hklt
          · exact ihr.1 hnone w hw
    · intro a v hsome
      simp only [lower_bound] at hsome
      split at hsome
      · rename_i hcmp
        have hkle : key ≤ rbGetValue nv := by simpa [leCmp] using hcmp
        cases hfl : lower_bound l key leCmp with
        | some res =>
          rw [hfl] at hsome
          cases hsome
          obtain ⟨hmem, hk, hmin⟩ := ihl.2 a v hfl
          refine ⟨?_, hk, ?_⟩
          · show (a, rbGetValue v) ∈ l.entries ++ (na, rbGetValue nv) :: r.entries
            exact List.mem_append.mpr (Or.inl hmem)
          have hvlmem : rbGetValue v ∈ l.vals := by
            simpa [Tree.vals] using List.mem_map_of_mem Prod.snd hmem
          intro w hw hkw
          rw [vals_node] at hw
          rcases List.mem_append.mp hw with hw | hw
          · exact hmin w hw hkw
          · rcases List.mem_cons.mp hw with rfl | hw
            · exact hlv _ hvlmem
            · exact Nat.le_trans (hlv _ hvlmem) (hvr w hw)
        | none =>
          rw [hfl] at hsome
          cases hsome
          refine ⟨?_, hkle, ?_⟩
          · show (na, rbGetValue nv) ∈ l.entries ++ (na, rbGetValue nv) :: r.entries
            exact List.mem_append.mpr (Or.inr (List.mem_cons_self _ _))
          intro w hw hkw
          rw [vals_node] at hw
          rcases List.mem_append.mp hw with hw | hw
          · exact absurd hkw (Nat.not_le.mpr (ihl.1 hfl w hw))
          · rcases List.mem_cons.mp hw with rfl | hw
            · exact Nat.le_refl _
            · exact hvr w hw
      · rename_i hcmp
        have hklt : rbGetValue nv < key := by simpa [leCmp, Nat.not_le] using hcmp
        obtain ⟨hmem, hk, hmin⟩ := ihr.2 a v hsome
        refine ⟨?_, hk, ?_⟩
        · show (a, rbGetValue v) ∈ l.entries ++ (na, rbGetValue nv) :: r.entries
          exact List.mem_append.mpr (Or.inr (List.mem_cons_of_mem _ hmem))
        intro w hw hkw
        rw [vals_node] at hw
        rcases List.mem_append.mp hw with hw | hw
        · exact absurd hkw (Nat.not_le.mpr (Nat.lt_of_le_of_lt (hlv w hw) hklt))
        · rcases List.mem_cons.mp hw with rfl | hw
          · exact absurd hkw (Nat.not_le.mpr hklt)
          · exact hmin w hw hkw

/-! ## The arena (`Block`, from `Block.ipp`)

A region header (`MemoryNode`) has six 8-byte fields (`value`, `left`,
`right`, `parent`, `next`, `prev`), so `MEMORY_NODE_SIZE = sizeof(MemoryNode)`
is 48.  The doubly-linked spatial list is modelled as a list of regions in
address order; `next`/`prev` are the list neighbours.  Of the packed `value`
word, the payload size (bits 0–61) and the used flag (bit 62) are kept in the
region record, while the tree keeps its nodes' whole words (whose used bit is
always clear, only free regions being inserted); outside the tree the color
bit is never read, and `hh::rb_tree::insert` recolors its argument before any
use, so dropping a stale color bit when re-inserting is observationally
exact. -/

def MEMORY_NODE_SIZE : Nat := 48

structure Region where
  addr : Nat
  size : Nat
  used : Bool
deriving DecidableEq, Repr

structure Block where
  head : Option Nat
  size : Nat
  regions : List Region
  rb_tree : Tree
deriving DecidableEq, Repr

/-- `Block::Block()`: default construction (`head = nullptr`). -/
def Block.default : Block := ⟨none, 0, [], .nil⟩

/-- `Block::Block(std::size_t bytes)` after `REQUEST_MEMORY_VIA_MMAP`
returned the address `base`: one free region spanning the whole mapping less
one header, made the tree root. -/
def Block.mkNew (bytes base : Nat) : Block :=
  { head := some base
    size := bytes
    regions := [⟨base, bytes - MEMORY_NODE_SIZE, false⟩]
    rb_tree := .node .nil base (markAsFree (bytes - MEMORY_NODE_SIZE)) .nil }

/-- `Block::get_head()` (a null pointer is address 0). -/
def Block.get_head (b : Block) : Nat :=
  match b.head with
  | some a => a
  | none => 0

/-- `Block::best_fit`: `rb_tree.lower_bound(bytes, a <= b)`. -/
def Block.best_fit (b : Block) (bytes : Nat) : Option (Nat × Nat) :=
  lower_bound b.rb_tree bytes leCmp

/-- Locate the region with header address `addr`, returning the spatial
predecessors in reverse (so `node->prev` is the head of the first component)
and the successors (`node->next` is the head of the last). -/
def splitRegionsAux : List Region → Nat → List Region →
    Option (List Region × Region × List Region)
  | [], _, _ => none
  | r :: rest, addr, acc =>
    if r.addr = addr then some (acc, r, rest)
    else splitRegionsAux rest addr (r :: acc)

def splitRegions (rs : List Region) (addr : Nat) :
    Option (List Region × Region × List Region) :=
  splitRegionsAux rs addr []

/-- `Block::allocate(bytes, node)` together with `Block::shrink_then_align`:
remove the node from the tree; split it when
`node_size >= bytes + MEMORY_NODE_SIZE + 1` (the remainder becomes a new free
region threaded right after it and inserted into the tree, the node's size
becomes exactly `bytes`); mark the node used; return the payload pointer. -/
def Block.allocate (b : Block) (bytes nodeAddr : Nat) : Nat × Block :=
  (nodeAddr + MEMORY_NODE_SIZE,
    let t1 := remove b.rb_tree nodeAddr
    match splitRegions b.regions nodeAddr with
    | none => { b with rb_tree := t1 }
    | some (revPre, r0, post0) =>
      if r0.size ≥ bytes + MEMORY_NODE_SIZE + 1 then
        { b with
          rb_tree := insert t1 (nodeAddr + MEMORY_NODE_SIZE + bytes)
            (markAsFree (r0.size - bytes - MEMORY_NODE_SIZE))
          regions := revPre.reverse ++ ⟨nodeAddr, bytes, true⟩ ::
            ⟨nodeAddr + MEMORY_NODE_SIZE + bytes,
              r0.size - bytes - MEMORY_NODE_SIZE, false⟩ :: post0 }
      else
        { b with
          rb_tree := t1
          regions := revPre.reverse ++ ⟨nodeAddr, r0.size, true⟩ :: post0 })

/-- The backward-merge half of `Block::coalesce_nodes`, followed by the final
tree insertion: if `node->prev` exists and is free, it absorbs the current
region; the survivor is inserted into the tree. -/
def coalesceBack (b : Block) (t : Tree) (revPre : List Region) (nodeAddr sz : Nat)
    (post : List Region) : Block :=
  match revPre with
  | p :: revPre' =>
    if p.used = false then
      { b with
        regions := revPre'.reverse ++
          ⟨p.addr, p.size + sz + MEMORY_NODE_SIZE, false⟩ :: post
        rb_tree := insert (remove t p.addr) p.addr
          (markAsFree (p.size + sz + MEMORY_NODE_SIZE)) }
    else
      { b with
        regions := revPre.reverse ++ ⟨nodeAddr, sz, false⟩ :: post
        rb_tree := insert t nodeAddr (markAsFree sz) }
  | [] =>
    { b with
      regions := ⟨nodeAddr, sz, false⟩ :: post
      rb_tree := insert t nodeAddr (markAsFree sz) }

/-- `Block::deallocate(ptr, bytes)`: recover the header at
`ptr - MEMORY_NODE_SIZE`, mark it free, and `coalesce_nodes`: forward merge
with a free `next`, then backward merge with a free `prev`, then insert the
survivor into the tree.  (A `ptr` whose header is not a live region is
undefined behaviour in the source; the model leaves the block unchanged.) -/
def Block.deallocate (b : Block) (ptr : Nat) (_bytes : Nat) : Block :=
  let nodeAddr := ptr - MEMORY_NODE_SIZE
  match splitRegions b.regions nodeAddr with
  | none => b
  | some (revPre, r0, post0) =>
    match post0 with
    | n :: post' =>
      if n.used = false then
        coalesceBack b (remove b.rb_tree n.addr) revPre nodeAddr
          (r0.size + n.size + MEMORY_NODE_SIZE) post'
      else coalesceBack b b.rb_tree revPre nodeAddr r0.size post0
    | [] => coalesceBack b b.rb_tree revPre nodeAddr r0.size post0

/-! ## The arena pool (`BlocksContainer`, from `BlocksContainer.ipp`)

`Block blocks[MaxNumBlocks]` is a list of that length (default-constructed
slots), `current_block_index` the watermark.  The OS mapping call of a
potential provisioning is an oracle argument: `some base` when `mmap`
succeeds at address `base`, `none` when it fails (`MAP_FAILED`, making the
`Block` constructor throw `std::bad_alloc`).  Outcomes that the C++ reports
by throwing carry the pool state as mutated up to the throw. -/

structure BlocksContainer where
  BlockSize : Nat
  MaxNumBlocks : Nat
  blocks : List Block
  current_block_index : Nat
deriving DecidableEq, Repr

/-- `BlocksContainer::BlocksContainer()` after the first arena mapped at
`base`. -/
def BlocksContainer.mkNew (BlockSize MaxNumBlocks base : Nat) : BlocksContainer :=
  { BlockSize
    MaxNumBlocks
    blocks := (List.replicate MaxNumBlocks Block.default).set 0 (Block.mkNew BlockSize base)
    current_block_index := 0 }

/-- `BlocksContainer::best_fit`: scan blocks `0..current_block_index`,
keeping the strictly smallest candidate (so ties keep the first arena);
returns the sentinel `none` when no block has a fitting node. -/
def BlocksContainer.best_fit (s : BlocksContainer) (bytes : Nat) :
    Option (Nat × Nat × Nat) :=
  (List.range (s.current_block_index + 1)).foldl
    (fun best i =>
      match (s.blocks.getD i Block.default).best_fit bytes with
      | some (na, nv) =>
        match best with
        | none => some (i, na, nv)
        | some (bi, ba, bv) =>
          if getActualValue nv < getActualValue bv then some (i, na, nv)
          else some (bi, ba, bv)
      | none => best)
    none

inductive AllocResult where
  | thrownInvalidArg : AllocResult
  | thrownBadAlloc : AllocResult
  | null : AllocResult
  | ok (ptr : Nat) : AllocResult
deriving DecidableEq, Repr

/-- `BlocksContainer::allocate(bytes)`.  `bytes < 1` throws
`std::invalid_argument` before any state change.  Otherwise search all
provisioned blocks; if none fits and a slot remains, `current_block_index`
is incremented and a new `Block(BlockSize)` is constructed — when the OS
mapping fails the constructor's `std::bad_alloc` propagates with the index
already incremented.  A fresh block that still cannot fit the request makes
`allocate` return null with the new block kept. -/
def BlocksContainer.allocate (s : BlocksContainer) (bytes : Nat) (osMap : Option Nat) :
    AllocResult × BlocksContainer :=
  if bytes < 1 then (.thrownInvalidArg, s)
  else
    match s.best_fit bytes with
    | some (i, na, _) =>
      let pb := (s.blocks.getD i Block.default).allocate bytes na
      (.ok pb.1, { s with blocks := s.blocks.set i pb.2 })
    | none =>
      if s.current_block_index + 1 < s.MaxNumBlocks then
        match osMap with
        | none =>
          (.thrownBadAlloc, { s with current_block_index := s.current_block_index + 1 })
        | some base =>
          let nb := Block.mkNew s.BlockSize base
          match nb.best_fit bytes with
          | none =>
            (.null, { s with
              current_block_index := s.current_block_index + 1
              blocks := s.blocks.set (s.current_block_index + 1) nb })
          | some (na, _) =>
            let pb := nb.allocate bytes na
            (.ok pb.1, { s with
              current_block_index := s.current_block_index + 1
              blocks := s.blocks.set (s.current_block_index + 1) pb.2 })
      else (.null, s)

inductive DeallocResult where
  | thrownInvalidArg : DeallocResult
  | ok : DeallocResult
deriving DecidableEq, Repr

/-- The owner scan of `BlocksContainer::deallocate`: the first block `i` in
`0..current_block_index` with `block_start <= ptr && ptr < block_start +
BlockSize`. -/
def BlocksContainer.findBlock (s : BlocksContainer) (ptr : Nat) : Option Nat :=
  (List.range (s.current_block_index + 1)).find? (fun i =>
    let bs := (s.blocks.getD i Block.default).get_head
    decide (bs ≤ ptr) && decide (ptr < bs + s.BlockSize))

/-- `BlocksContainer::deallocate(ptr, bytes)`: delegate to the owning block,
or throw `std::invalid_argument` when no provisioned block's address range
contains `ptr`. -/
def BlocksContainer.deallocate (s : BlocksContainer) (ptr bytes : Nat) :
    DeallocResult × BlocksContainer :=
  match s.findBlock ptr with
  | some i =>
    (.ok, { s with
      blocks := s.blocks.set i ((s.blocks.getD i Block.default).deallocate ptr bytes) })
  | none => (.thrownInvalidArg, s)

/-! ## The typed façade (`Halloc`, from `Halloc.hpp`)

`Halloc` holds `std::shared_ptr<BlocksContainer<...>> blocks`; copies share
the pointee.  The shared pointer is modelled as the identity (a natural
number) of the pool object in a world mapping identities to pool states;
`operator==` compares the stored pointers. -/

structure Halloc where
  sizeofT : Nat
  blocks : Nat
deriving DecidableEq, Repr

/-- The copy constructor `Halloc(const Halloc&)`: shares `blocks`. -/
def Halloc.copy (h : Halloc) : Halloc := { sizeofT := h.sizeofT, blocks := h.blocks }

/-- `Halloc::operator==`: `blocks == other.blocks` (shared-pointer identity). -/
def Halloc.eq (h other : Halloc) : Bool := h.blocks = other.blocks

/-- `Halloc::allocate(count)`: `blocks->allocate(count * sizeof(T))`, acting
on the pool the handle points to. -/
def Halloc.allocate (h : Halloc) (world : Nat → BlocksContainer) (count : Nat)
    (osMap : Option Nat) : AllocResult × (Nat → BlocksContainer) :=
  let r := (world h.blocks).allocate (count * h.sizeofT) osMap
  (r.1, fun i => if i = h.blocks then r.2 else world i)

/-- `Halloc::deallocate(ptr, count)`: `blocks->deallocate(ptr, count * sizeof(T))`. -/
def Halloc.deallocate (h : Halloc) (world : Nat → BlocksContainer) (ptr count : Nat) :
    DeallocResult × (Nat → BlocksContainer) :=
  let r := (world h.blocks).deallocate ptr (count * h.sizeofT)
  (r.1, fun i => if i = h.blocks then r.2 else world i)

/-! ## Supporting lemmas for the claim theorems -/

theorem splitRegionsAux_spec :
    ∀ (rs : List Region) (acc : List Region) (pre : List Region) (r : Region)
      (post : List Region), rs = pre ++ r :: post →
      (∀ q ∈ pre, q.addr ≠ r.addr) →
      splitRegionsAux rs r.addr acc = some (pre.reverse ++ acc, r, post)
  | rs, acc, [], r, post, hrs, _ => by
    subst hrs
    simp [splitRegionsAux]
  | rs, acc, q :: pre', r, post, hrs, hne => by
    subst hrs
    show splitRegionsAux (q :: (pre' ++ r :: post)) r.addr acc = _
    rw [splitRegionsAux]
    rw [if_neg (hne q (List.mem_cons_self _ _))]
    rw [splitRegionsAux_spec (pre' ++ r :: post) (q :: acc) pre' r post rfl
      (fun p hp => hne p (List.mem_cons_of_mem _ hp))]
    simp

theorem splitRegions_spec (rs : List Region) (pre : List Region) (r : Region)
    (post : List Region) (hrs : rs = pre ++ r :: post)
    (hnd : (rs.map Region.addr).Nodup) :
    splitRegions rs r.addr = some (pre.reverse, r, post) := by
  have hne : ∀ q ∈ pre, q.addr ≠ r.addr := by
    intro q hq heq
    subst hrs
    rw [List.map_append, List.map_cons] at hnd
    have h1 := (List.nodup_append.mp hnd).2.2
    exact h1 (List.mem_map_of_mem _ hq) (by rw [heq]; exact List.mem_cons_self _ _)
  have h := splitRegionsAux_spec rs [] pre r post hrs hne
  simpa [splitRegions] using h

theorem mem_entries_findCtx :
    ∀ (t : Tree) (acc : Ctx) (tgt w : Nat), (tgt, w) ∈ t.entries →
      ∃ ctx z, findCtx t tgt acc = some (ctx, z)
  | .nil, acc, tgt, w, h => by simp [Tree.entries] at h
  | .node l a v r, acc, tgt, w, h => by
    simp only [findCtx]
    split
    · exact ⟨acc, _, rfl⟩
    · rename_i hne
      simp only [Tree.entries, List.mem_append, List.mem_cons] at h
      rcases h with h | h | h
      · obtain ⟨ctx, z, hL⟩ := mem_entries_findCtx l (⟨.left, a, v, r⟩ :: acc) tgt w h
        rw [hL]
        exact ⟨ctx, z, rfl⟩
      · cases h
        simp at hne
      · cases hL : findCtx l tgt (⟨.left, a, v, r⟩ :: acc) with
        | some res => exact ⟨res.1, res.2, rfl⟩
        | none =>
          show ∃ ctx z,
            findCtx r tgt (⟨.right, a, v, l⟩ :: acc) = some (ctx, z)
          exact mem_entries_findCtx r (⟨.right, a, v, l⟩ :: acc) tgt w h

/-- In a tree with no duplicate addresses, the entry removed by `remove` at a
present address is exactly that address's entry. -/
theorem remove_entries_of_mem (t : Tree) (tgt w : Nat)
    (hmem : (tgt, w) ∈ t.entries) (hnd : (t.entries.map Prod.fst).Nodup) :
    ∃ pre post, t.entries = pre ++ (tgt, w) :: post ∧
      (remove t tgt).entries = pre ++ post := by
  obtain ⟨ctx, z, hf⟩ := mem_entries_findCtx t [] tgt w hmem
  obtain ⟨w', pre, post, h1, h2⟩ := remove_entries t tgt hf
  refine ⟨pre, post, ?_, h2⟩
  have hw : w = w' := by
    rw [h1] at hmem hnd
    rw [List.map_append, List.map_cons] at hnd
    rcases List.mem_append.mp hmem with hm | hm
    · have hm2 : tgt ∈ pre.map Prod.fst := List.mem_map_of_mem Prod.fst hm
      exact absurd (List.mem_cons_self _ _) ((List.nodup_append.mp hnd).2.2 hm2)
    · rcases List.mem_cons.mp hm with he | hm
      · exact congrArg Prod.snd he
      · exact absurd (List.mem_map_of_mem Prod.fst hm)
          (List.nodup_cons.mp (List.nodup_append.mp hnd).2.1).1
  rw [hw]
  exact h1

/-- The free regions of a spatial list as tree entries `(addr, size)`. -/
def freeEntries (rs : List Region) : List (Nat × Nat) :=
  (rs.filter (fun r => r.used = false)).map (fun r => (r.addr, r.size))

/-- `Halloc::operator=`: `blocks = other.blocks` (the element type, and with it
`sizeof(T)`, is the same on both sides of a copy assignment). -/
def Halloc.assign (self other : Halloc) : Halloc := { self with blocks := other.blocks }

theorem getD_set_ne {α : Type} : ∀ (l : List α) (j i : Nat) (a d : α), i ≠ j →
    (l.set j a).getD i d = l.getD i d
  | [], _, _, _, _, _ => rfl
  | _ :: _, 0, 0, _, _, h => absurd rfl h
  | _ :: _, 0, _ + 1, _, _, _ => rfl
  | _ :: _, _ + 1, 0, _, _, _ => rfl
  | _ :: xs, j + 1, i + 1, a, d, h =>
    getD_set_ne xs j i a d (fun he => h (by rw [he]))

theorem getD_set_self {α : Type} : ∀ (l : List α) (j : Nat) (a d : α),
    j < l.length → (l.set j a).getD j d = a
  | [], _, _, _, h => absurd h (by simp)
  | _ :: _, 0, _, _, _ => rfl
  | _ :: xs, j + 1, a, d, h =>
    getD_set_self xs j a d (Nat.lt_of_succ_lt_succ (by simpa using h))

theorem rbGetValue_markAsFree (v : Nat) (h : v < 2 ^ 62) :
    rbGetValue (markAsFree v) = v := by
  unfold rbGetValue markAsFree
  have h1 : v / 2 ^ 63 = 0 := Nat.div_eq_of_lt (lt_trans h (by norm_num))
  have h2 : v % 2 ^ 62 = v := Nat.mod_eq_of_lt h
  rw [h1, h2]
  have h3 : v < 2 ^ 63 := lt_trans h (by norm_num)
  rw [Nat.mul_comm]
  simpa using Nat.mod_eq_of_lt h3

theorem freeEntries_append (l1 l2 : List Region) :
    freeEntries (l1 ++ l2) = freeEntries l1 ++ freeEntries l2 := by
  simp [freeEntries]

theorem freeEntries_cons_used (r : Region) (l : List Region) (h : r.used = true) :
    freeEntries (r :: l) = freeEntries l := by
  simp [freeEntries, h]

theorem freeEntries_cons_free (r : Region) (l : List Region) (h : r.used = false) :
    freeEntries (r :: l) = (r.addr, r.size) :: freeEntries l := by
  simp [freeEntries, h]

/-! ## The claims -/

/-- C1, the claim as frozen is false in the code: on this two-slot pool of
capacity 100 (so any request needs at most `100 - 48 = 52` payload bytes), a
request of 60 bytes finds no fit, provisions the second arena uselessly, and
returns the null sentinel with `current_block_index` advanced from 0 to 1 —
the observable state is not as before the call, and a new arena was
provisioned for a request exceeding the arena capacity. -/
theorem C1_null_provisions_counterexample :
    (((BlocksContainer.mkNew 100 2 1000).allocate 60 (some 5000)).1 = .null) ∧
    ((BlocksContainer.mkNew 100 2 1000).allocate 60 (some 5000)).2.current_block_index =
      (BlocksContainer.mkNew 100 2 1000).current_block_index + 1 ∧
    ((BlocksContainer.mkNew 100 2 1000).allocate 60 (some 5000)).2 ≠
      BlocksContainer.mkNew 100 2 1000 := by
  decide

/-- C1 (amended): when `allocate` returns the null sentinel, every arena
provisioned before the call is exactly unchanged, the pool parameters are
unchanged, and the pool state is either exactly as before the call or differs
only in that `current_block_index` advanced by one with the fresh slot
holding a brand-new empty arena (the useless provisioning the source's own
comment concedes for requests no arena can fit). -/
theorem C1_null_atomicity_amended (s : BlocksContainer) (b : Nat) (osMap : Option Nat)
    (hlen : s.MaxNumBlocks ≤ s.blocks.length)
    (hnull : (s.allocate b osMap).1 = .null) :
    (∀ i ≤ s.current_block_index,
      (s.allocate b osMap).2.blocks.getD i Block.default =
        s.blocks.getD i Block.default) ∧
    (s.allocate b osMap).2.BlockSize = s.BlockSize ∧
    (s.allocate b osMap).2.MaxNumBlocks = s.MaxNumBlocks ∧
    ((s.allocate b osMap).2 = s ∨
      ((s.allocate b osMap).2.current_block_index = s.current_block_index + 1 ∧
       ∃ base, osMap = some base ∧
         (s.allocate b osMap).2.blocks.getD (s.current_block_index + 1) Block.default =
           Block.mkNew s.BlockSize base)) := by
  by_cases hb : b < 1
  · have hres : (s.allocate b osMap).1 = .thrownInvalidArg := by
      simp [BlocksContainer.allocate, hb]
    rw [hres] at hnull
    cases hnull
  · cases hbf : s.best_fit b with
    | some res =>
      obtain ⟨i, na, nv⟩ := res
      have hres : (s.allocate b osMap).1 = .ok
          (((s.blocks.getD i Block.default).allocate b na).1) := by
        simp [BlocksContainer.allocate, hb, hbf]
      rw [hres] at hnull
      cases hnull
    | none =>
      by_cases hslot : s.current_block_index + 1 < s.MaxNumBlocks
      · cases osMap with
        | none =>
          have hres : (s.allocate b none).1 = .thrownBadAlloc := by
            simp [BlocksContainer.allocate, hb, hbf, hslot]
          rw [hres] at hnull
          cases hnull
        | some base =>
          cases hnb : (Block.mkNew s.BlockSize base).best_fit b with
          | some res =>
            obtain ⟨na, nv⟩ := res
            have hres : (s.allocate b (some base)).1 = .ok
                (((Block.mkNew s.BlockSize base).allocate b na).1) := by
              simp [BlocksContainer.allocate, hb, hbf, hslot, hnb]
            rw [hres] at hnull
            cases hnull
          | none =>
            have hres : s.allocate b (some base) = (.null, { s with
                current_block_index := s.current_block_index + 1
                blocks := s.blocks.set (s.current_block_index + 1)
                  (Block.mkNew s.BlockSize base) }) := by
              simp [BlocksContainer.allocate, hb, hbf, hslot, hnb]
            rw [hres]
            refine ⟨?_, rfl, rfl, Or.inr ⟨rfl, base, rfl, ?_⟩⟩
            · intro i hi
              exact getD_set_ne _ _ _ _ _ (by omega)
            · exact getD_set_self _ _ _ _ (by omega)
      · have hres : s.allocate b osMap = (.null, s) := by
          simp [BlocksContainer.allocate, hb, hbf, hslot]
        rw [hres]
        exact ⟨fun i _ => rfl, rfl, rfl, Or.inl rfl⟩

theorem C1_null_atomicity_amended_witness :
    ((BlocksContainer.mkNew 100 1 1000).MaxNumBlocks ≤
      (BlocksContainer.mkNew 100 1 1000).blocks.length) ∧
    (((BlocksContainer.mkNew 100 1 1000).allocate 60 none).1 = .null) ∧
    ((∀ i ≤ (BlocksContainer.mkNew 100 1 1000).current_block_index,
      ((BlocksContainer.mkNew 100 1 1000).allocate 60 none).2.blocks.getD i Block.default =
        (BlocksContainer.mkNew 100 1 1000).blocks.getD i Block.default) ∧
    ((BlocksContainer.mkNew 100 1 1000).allocate 60 none).2.BlockSize =
      (BlocksContainer.mkNew 100 1 1000).BlockSize ∧
    ((BlocksContainer.mkNew 100 1 1000).allocate 60 none).2.MaxNumBlocks =
      (BlocksContainer.mkNew 100 1 1000).MaxNumBlocks ∧
    (((BlocksContainer.mkNew 100 1 1000).allocate 60 none).2 =
        BlocksContainer.mkNew 100 1 1000 ∨
      (((BlocksContainer.mkNew 100 1 1000).allocate 60 none).2.current_block_index =
        (BlocksContainer.mkNew 100 1 1000).current_block_index + 1 ∧
       ∃ base, (none : Option Nat) = some base ∧
         ((BlocksContainer.mkNew 100 1 1000).allocate 60 none).2.blocks.getD
             ((BlocksContainer.mkNew 100 1 1000).current_block_index + 1) Block.default =
           Block.mkNew (BlocksContainer.mkNew 100 1 1000).BlockSize base))) :=
  ⟨by decide, by decide,
    C1_null_atomicity_amended (BlocksContainer.mkNew 100 1 1000) 60 none
      (by decide) (by decide)⟩

/-- C2: the code does not meet the claim.  On a pool with a free slot, an
unsatisfiable request whose provisioning attempt hits an OS mapping failure
propagates the allocation exception as specified, but the pool is NOT left as
it was: `current_block_index` was incremented before the `Block` constructor
threw, so the watermark now counts an arena that was never provisioned. -/
theorem C2_oom_watermark_bug :
    (((BlocksContainer.mkNew 1024 2 1000).allocate 2000 none).1 = .thrownBadAlloc) ∧
    ((BlocksContainer.mkNew 1024 2 1000).allocate 2000 none).2.current_block_index =
      (BlocksContainer.mkNew 1024 2 1000).current_block_index + 1 ∧
    ((BlocksContainer.mkNew 1024 2 1000).allocate 2000 none).2 ≠
      BlocksContainer.mkNew 1024 2 1000 := by
  decide

/-- C3: a copy of the façade (copy construction or copy assignment) compares
equal to the original and delegates to the same pool, so allocation and
release through the copy have exactly the effect they have through the
original. -/
theorem C3_facade_copies_equivalent (h g : Halloc) (world : Nat → BlocksContainer)
    (ptr count : Nat) (osMap : Option Nat) (hsz : g.sizeofT = h.sizeofT) :
    (h.copy.eq h = true ∧ h.eq h.copy = true ∧ (g.assign h).eq h = true) ∧
    h.copy.allocate world count osMap = h.allocate world count osMap ∧
    h.copy.deallocate world ptr count = h.deallocate world ptr count ∧
    (g.assign h).allocate world count osMap = h.allocate world count osMap ∧
    (g.assign h).deallocate world ptr count = h.deallocate world ptr count := by
  refine ⟨⟨?_, ?_, ?_⟩, rfl, rfl, ?_, ?_⟩ <;>
    simp [Halloc.copy, Halloc.eq, Halloc.assign, Halloc.allocate, Halloc.deallocate, hsz]

theorem C3_facade_copies_equivalent_witness :
    ((4 : Nat) = (4 : Nat)) ∧
    (((Halloc.mk 4 0).copy.eq (Halloc.mk 4 0) = true ∧
      (Halloc.mk 4 0).eq (Halloc.mk 4 0).copy = true ∧
      ((Halloc.mk 4 1).assign (Halloc.mk 4 0)).eq (Halloc.mk 4 0) = true) ∧
    (Halloc.mk 4 0).copy.allocate (fun _ => BlocksContainer.mkNew 100 1 1000) 2 none =
      (Halloc.mk 4 0).allocate (fun _ => BlocksContainer.mkNew 100 1 1000) 2 none ∧
    (Halloc.mk 4 0).copy.deallocate (fun _ => BlocksContainer.mkNew 100 1 1000) 5 2 =
      (Halloc.mk 4 0).deallocate (fun _ => BlocksContainer.mkNew 100 1 1000) 5 2 ∧
    ((Halloc.mk 4 1).assign (Halloc.mk 4 0)).allocate
        (fun _ => BlocksContainer.mkNew 100 1 1000) 2 none =
      (Halloc.mk 4 0).allocate (fun _ => BlocksContainer.mkNew 100 1 1000) 2 none ∧
    ((Halloc.mk 4 1).assign (Halloc.mk 4 0)).deallocate
        (fun _ => BlocksContainer.mkNew 100 1 1000) 5 2 =
      (Halloc.mk 4 0).deallocate (fun _ => BlocksContainer.mkNew 100 1 1000) 5 2) :=
  ⟨rfl, C3_facade_copies_equivalent (Halloc.mk 4 0) (Halloc.mk 4 1)
    (fun _ => BlocksContainer.mkNew 100 1 1000) 5 2 none rfl⟩

/-- C9: `allocate` raises invalid-argument exactly on a zero-byte request and
then changes nothing; `deallocate` raises invalid-argument exactly when the
pointer lies in no provisioned arena's `[base, base + BlockSize)` range, and
then changes nothing. -/
theorem C9_invalid_argument_exact (s : BlocksContainer) (b ptr db : Nat)
    (osMap : Option Nat) :
    ((s.allocate b osMap).1 = .thrownInvalidArg ↔ b = 0) ∧
    (s.allocate 0 osMap = (.thrownInvalidArg, s)) ∧
    ((s.deallocate ptr db).1 = .thrownInvalidArg ↔
      ∀ i ≤ s.current_block_index,
        ¬((s.blocks.getD i Block.default).get_head ≤ ptr ∧
          ptr < (s.blocks.getD i Block.default).get_head + s.BlockSize)) ∧
    ((s.deallocate ptr db).1 = .thrownInvalidArg → (s.deallocate ptr db).2 = s) := by
  have hchar : s.findBlock ptr = none ↔
      ∀ i ≤ s.current_block_index,
        ¬((s.blocks.getD i Block.default).get_head ≤ ptr ∧
          ptr < (s.blocks.getD i Block.default).get_head + s.BlockSize) := by
    unfold BlocksContainer.findBlock
    rw [List.find?_eq_none]
    constructor
    · intro hp i hi
      have := hp i (List.mem_range.mpr (by omega))
      simpa using this
    · intro hp i hi
      have hi2 : i ≤ s.current_block_index := by
        have := List.mem_range.mp hi
        omega
      simpa using hp i hi2
  refine ⟨?_, ?_, ?_, ?_⟩
  · constructor
    · intro hres
      by_contra hb0
      have hb : ¬ b < 1 := by omega
      cases hbf : s.best_fit b with
      | some res =>
        obtain ⟨i, na, nv⟩ := res
        simp [BlocksContainer.allocate, hb, hbf] at hres
      | none =>
        by_cases hslot : s.current_block_index + 1 < s.MaxNumBlocks
        · cases osMap with
          | none => simp [BlocksContainer.allocate, hb, hbf, hslot] at hres
          | some base =>
            cases hnb : (Block.mkNew s.BlockSize base).best_fit b with
            | some res =>
              obtain ⟨na, nv⟩ := res
              simp [BlocksContainer.allocate, hb, hbf, hslot, hnb] at hres
            | none => simp [BlocksContainer.allocate, hb, hbf, hslot, hnb] at hres
        · simp [BlocksContainer.allocate, hb, hbf, hslot] at hres
    · intro hb0
      subst hb0
      simp [BlocksContainer.allocate]
  · simp [BlocksContainer.allocate]
  · cases hfb : s.findBlock ptr with
    | some i =>
      have hlhs : (s.deallocate ptr db).1 = .ok := by
        simp [BlocksContainer.deallocate, hfb]
      rw [hlhs]
      constructor
      · intro hcon
        cases hcon
      · intro hall
        rw [hchar.mpr hall] at hfb
        cases hfb
    | none =>
      have hlhs : (s.deallocate ptr db).1 = .thrownInvalidArg := by
        simp [BlocksContainer.deallocate, hfb]
      rw [hlhs]
      simp only [true_iff]
      exact (hchar.mp hfb)
  · intro hres
    cases hfb : s.findBlock ptr with
    | some i =>
      have hlhs : (s.deallocate ptr db).1 = .ok := by
        simp [BlocksContainer.deallocate, hfb]
      rw [hlhs] at hres
      cases hres
    | none => simp [BlocksContainer.deallocate, hfb]

theorem C9_invalid_argument_exact_witness :
    (((BlocksContainer.mkNew 1024 1 1000).allocate 7 none).1 = .thrownInvalidArg ↔
      (7 : Nat) = 0) ∧
    ((BlocksContainer.mkNew 1024 1 1000).allocate 0 none =
      (.thrownInvalidArg, BlocksContainer.mkNew 1024 1 1000)) ∧
    (((BlocksContainer.mkNew 1024 1 1000).deallocate 3 8).1 = .thrownInvalidArg ↔
      ∀ i ≤ (BlocksContainer.mkNew 1024 1 1000).current_block_index,
        ¬(((BlocksContainer.mkNew 1024 1 1000).blocks.getD i Block.default).get_head ≤ 3 ∧
          3 < ((BlocksContainer.mkNew 1024 1 1000).blocks.getD i Block.default).get_head +
            (BlocksContainer.mkNew 1024 1 1000).BlockSize)) ∧
    (((BlocksContainer.mkNew 1024 1 1000).deallocate 3 8).1 = .thrownInvalidArg →
      ((BlocksContainer.mkNew 1024 1 1000).deallocate 3 8).2 =
        BlocksContainer.mkNew 1024 1 1000) :=
  C9_invalid_argument_exact (BlocksContainer.mkNew 1024 1 1000) 7 3 8 none

/-- C10: releasing the null pointer (address 0) raises invalid-argument with
the pool unchanged — never a no-op — because every provisioned arena's base
address is positive, so the owner scan finds no arena containing address 0. -/
theorem C10_release_null_raises (s : BlocksContainer) (b : Nat)
    (hbase : ∀ i ≤ s.current_block_index,
      1 ≤ (s.blocks.getD i Block.default).get_head) :
    s.deallocate 0 b = (.thrownInvalidArg, s) := by
  have hfb : s.findBlock 0 = none := by
    unfold BlocksContainer.findBlock
    rw [List.find?_eq_none]
    intro i hi
    have hib : i ≤ s.current_block_index := by
      have := List.mem_range.mp hi
      omega
    have h1 := hbase i hib
    intro hcon
    simp only [Bool.and_eq_true, decide_eq_true_eq] at hcon
    omega
  simp [BlocksContainer.deallocate, hfb]

theorem C10_release_null_raises_witness :
    (∀ i ≤ (BlocksContainer.mkNew 1024 1 1000).current_block_index,
      1 ≤ ((BlocksContainer.mkNew 1024 1 1000).blocks.getD i Block.default).get_head) ∧
    (BlocksContainer.mkNew 1024 1 1000).deallocate 0 8 =
      (.thrownInvalidArg, BlocksContainer.mkNew 1024 1 1000) :=
  ⟨by decide, C10_release_null_raises (BlocksContainer.mkNew 1024 1 1000) 8 (by decide)⟩

/-- The full effect of `Block::allocate` at a free region located by the
spatial decomposition `pre / node / post`. -/
theorem allocate_spec (b : Block) (pre post : List Region) (nodeAddr s bytes : Nat)
    (hreg : b.regions = pre ++ ⟨nodeAddr, s, false⟩ :: post)
    (hnd : (b.regions.map Region.addr).Nodup)
    (htree : b.rb_tree.entries.Perm (freeEntries b.regions))
    (hs : s < 2 ^ 62) :
    (b.allocate bytes nodeAddr).1 = nodeAddr + MEMORY_NODE_SIZE ∧
    (b.allocate bytes nodeAddr).2.regions =
      (if bytes + MEMORY_NODE_SIZE + 1 ≤ s then
        pre ++ ⟨nodeAddr, bytes, true⟩ ::
          ⟨nodeAddr + MEMORY_NODE_SIZE + bytes, s - bytes - MEMORY_NODE_SIZE, false⟩ ::
            post
      else pre ++ ⟨nodeAddr, s, true⟩ :: post) ∧
    (b.allocate bytes nodeAddr).2.rb_tree.entries.Perm
      (freeEntries (b.allocate bytes nodeAddr).2.regions) := by
  have hsplit := splitRegions_spec b.regions pre ⟨nodeAddr, s, false⟩ post hreg hnd
  have hmem : (nodeAddr, s) ∈ b.rb_tree.entries := by
    refine htree.mem_iff.mpr ?_
    rw [hreg, freeEntries_append, freeEntries_cons_free _ _ rfl]
    exact List.mem_append.mpr (Or.inr (List.mem_cons_self _ _))
  have hndE : (b.rb_tree.entries.map Prod.fst).Nodup := by
    refine (htree.map Prod.fst).nodup_iff.mpr ?_
    have hfe : (freeEntries b.regions).map Prod.fst =
        (b.regions.filter (fun r => r.used = false)).map Region.addr := by
      simp [freeEntries, List.map_map]
    rw [hfe]
    exact hnd.sublist ((List.filter_sublist _).map Region.addr)
  obtain ⟨epre, epost, hE1, hE2⟩ := remove_entries_of_mem b.rb_tree nodeAddr s hmem hndE
  have ht1perm : (remove b.rb_tree nodeAddr).entries.Perm
      (freeEntries pre ++ freeEntries post) := by
    rw [hE2]
    have htree2 : (epre ++ (nodeAddr, s) :: epost).Perm
        (freeEntries pre ++ (nodeAddr, s) :: freeEntries post) := by
      rw [← hE1]
      refine htree.trans ?_
      rw [hreg, freeEntries_append, freeEntries_cons_free _ _ rfl]
    have step1 : ((nodeAddr, s) :: (epre ++ epost)).Perm
        ((nodeAddr, s) :: (freeEntries pre ++ freeEntries post)) :=
      List.perm_middle.symm.trans (htree2.trans List.perm_middle)
    exact step1.cons_inv
  by_cases hif : bytes + MEMORY_NODE_SIZE + 1 ≤ s
  · have hres : b.allocate bytes nodeAddr = (nodeAddr + MEMORY_NODE_SIZE,
      { b with
        rb_tree := insert (remove b.rb_tree nodeAddr)
          (nodeAddr + MEMORY_NODE_SIZE + bytes)
          (markAsFree (s - bytes - MEMORY_NODE_SIZE))
        regions := pre ++ ⟨nodeAddr, bytes, true⟩ ::
          ⟨nodeAddr + MEMORY_NODE_SIZE + bytes, s - bytes - MEMORY_NODE_SIZE, false⟩ ::
            post }) := by
      simp only [Block.allocate, hsplit]
      rw [if_pos hif]
      simp [List.reverse_reverse]
    rw [hres, if_pos hif]
    refine ⟨rfl, rfl, ?_⟩
    have hins := entries_insert (remove b.rb_tree nodeAddr)
      (nodeAddr + MEMORY_NODE_SIZE + bytes) (markAsFree (s - bytes - MEMORY_NODE_SIZE))
    have hsz : s - bytes - MEMORY_NODE_SIZE < 2 ^ 62 :=
      Nat.lt_of_le_of_lt (Nat.le_trans (Nat.sub_le _ _) (Nat.sub_le _ _)) hs
    rw [rbGetValue_markAsFree _ hsz] at hins
    have htarget : freeEntries (pre ++ ⟨nodeAddr, bytes, true⟩ ::
        ⟨nodeAddr + MEMORY_NODE_SIZE + bytes, s - bytes - MEMORY_NODE_SIZE, false⟩ ::
          post) =
        freeEntries pre ++
          (nodeAddr + MEMORY_NODE_SIZE + bytes, s - bytes - MEMORY_NODE_SIZE) ::
            freeEntries post := by
      rw [freeEntries_append, freeEntries_cons_used _ _ rfl, freeEntries_cons_free _ _ rfl]
    rw [htarget]
    exact hins.trans ((ht1perm.cons _).trans List.perm_middle.symm)
  · have hres : b.allocate bytes nodeAddr = (nodeAddr + MEMORY_NODE_SIZE,
      { b with
        rb_tree := remove b.rb_tree nodeAddr
        regions := pre ++ ⟨nodeAddr, s, true⟩ :: post }) := by
      simp only [Block.allocate, hsplit]
      rw [if_neg hif]
      simp [List.reverse_reverse]
    rw [hres, if_neg hif]
    refine ⟨rfl, rfl, ?_⟩
    have htarget : freeEntries (pre ++ ⟨nodeAddr, s, true⟩ :: post) =
        freeEntries pre ++ freeEntries post := by
      rw [freeEntries_append, freeEntries_cons_used _ _ rfl]
    rw [htarget]
    exact ht1perm

/-- C4: an arena allocation from a chosen free region of payload size `s`
splits exactly when `s ≥ bytes + MEMORY_NODE_SIZE + 1`: the remainder becomes
a new free region of payload `s - bytes - MEMORY_NODE_SIZE` threaded into
the spatial list directly after the shrunk region (which now has payload
exactly `bytes`); otherwise the region is used whole.  In both cases the
region is marked used, the tree keeps exactly the free regions (the new
remainder entering the tree on a split), and the returned pointer is the
payload address. -/
theorem C4_split_policy (b : Block) (pre post : List Region) (nodeAddr s bytes : Nat)
    (hreg : b.regions = pre ++ ⟨nodeAddr, s, false⟩ :: post)
    (hnd : (b.regions.map Region.addr).Nodup)
    (htree : b.rb_tree.entries.Perm (freeEntries b.regions))
    (hs : s < 2 ^ 62) :
    (b.allocate bytes nodeAddr).1 = nodeAddr + MEMORY_NODE_SIZE ∧
    (b.allocate bytes nodeAddr).2.regions =
      (if bytes + MEMORY_NODE_SIZE + 1 ≤ s then
        pre ++ ⟨nodeAddr, bytes, true⟩ ::
          ⟨nodeAddr + MEMORY_NODE_SIZE + bytes, s - bytes - MEMORY_NODE_SIZE, false⟩ ::
            post
      else pre ++ ⟨nodeAddr, s, true⟩ :: post) ∧
    (b.allocate bytes nodeAddr).2.rb_tree.entries.Perm
      (freeEntries (b.allocate bytes nodeAddr).2.regions) :=
  allocate_spec b pre post nodeAddr s bytes hreg hnd htree hs

theorem C4_split_policy_witness :
    ((Block.mkNew 1024 1000).regions = [] ++ ⟨1000, 976, false⟩ :: [] ∧
      ((Block.mkNew 1024 1000).regions.map Region.addr).Nodup ∧
      (Block.mkNew 1024 1000).rb_tree.entries.Perm
        (freeEntries (Block.mkNew 1024 1000).regions) ∧
      976 < 2 ^ 62) ∧
    (((Block.mkNew 1024 1000).allocate 100 1000).1 = 1000 + MEMORY_NODE_SIZE ∧
    ((Block.mkNew 1024 1000).allocate 100 1000).2.regions =
      (if 100 + MEMORY_NODE_SIZE + 1 ≤ 976 then
        [] ++ ⟨1000, 100, true⟩ ::
          ⟨1000 + MEMORY_NODE_SIZE + 100, 976 - 100 - MEMORY_NODE_SIZE, false⟩ :: []
      else [] ++ ⟨1000, 976, true⟩ :: []) ∧
    ((Block.mkNew 1024 1000).allocate 100 1000).2.rb_tree.entries.Perm
      (freeEntries ((Block.mkNew 1024 1000).allocate 100 1000).2.regions)) :=
  ⟨⟨by decide, by decide, by decide, by decide⟩,
    C4_split_policy (Block.mkNew 1024 1000) [] [] 1000 976 100
      (by decide) (by decide) (by decide) (by decide)⟩

/-- The trees the allocator can hold: reachable from the empty tree by the
tree's two mutators. -/
inductive TreeReachable : Tree → Prop
  | init : TreeReachable .nil
  | ins (t : Tree) (a v : Nat) : TreeReachable t → TreeReachable (insert t a v)
  | rem (t : Tree) (tgt : Nat) : TreeReachable t → TreeReachable (remove t tgt)

theorem TreeReachable.ordered {t : Tree} (h : TreeReachable t) : Ordered t := by
  induction h with
  | init => exact List.Pairwise.nil
  | ins t a v _ ih => exact insert_ordered ih a v
  | rem t tgt _ ih => exact remove_ordered ih tgt

/-- C8: on every tree reachable by insertions and removals, `lower_bound k`
with the `a <= b` comparator returns a node of minimal size among those of
size at least `k` when one exists, returns the null sentinel exactly when
every node is smaller than `k`, and when a node of size exactly `k` is
present it returns size exactly `k` (no equal-sized node is skipped). -/
theorem C8_lower_bound_exact (t : Tree) (ht : TreeReachable t) (k : Nat) :
    (∀ a v, lower_bound t k leCmp = some (a, v) →
      (a, rbGetValue v) ∈ t.entries ∧ k ≤ rbGetValue v ∧
        ∀ w ∈ t.vals, k ≤ w → rbGetValue v ≤ w) ∧
    (lower_bound t k leCmp = none → ∀ w ∈ t.vals, w < k) ∧
    (k ∈ t.vals → ∃ a v, lower_bound t k leCmp = some (a, v) ∧ rbGetValue v = k) := by
  have hc := lower_bound_correct t ht.ordered k
  refine ⟨hc.2, hc.1, ?_⟩
  intro hk
  cases hlb : lower_bound t k leCmp with
  | none => exact absurd (hc.1 hlb k hk) (by omega)
  | some res =>
    obtain ⟨a, v⟩ := res
    obtain ⟨hmem, hle, hmin⟩ := hc.2 a v hlb
    exact ⟨a, v, rfl, Nat.le_antisymm (hmin k hk (Nat.le_refl k)) hle⟩

theorem C8_lower_bound_exact_witness :
    ((∀ a v,
      lower_bound (insert (insert (insert .nil 10 20) 11 30) 12 20) 20 leCmp =
          some (a, v) →
      (a, rbGetValue v) ∈ (insert (insert (insert .nil 10 20) 11 30) 12 20).entries ∧
        20 ≤ rbGetValue v ∧
        ∀ w ∈ (insert (insert (insert .nil 10 20) 11 30) 12 20).vals,
          20 ≤ w → rbGetValue v ≤ w) ∧
    (lower_bound (insert (insert (insert .nil 10 20) 11 30) 12 20) 20 leCmp = none →
      ∀ w ∈ (insert (insert (insert .nil 10 20) 11 30) 12 20).vals, w < 20) ∧
    (20 ∈ (insert (insert (insert .nil 10 20) 11 30) 12 20).vals →
      ∃ a v,
        lower_bound (insert (insert (insert .nil 10 20) 11 30) 12 20) 20 leCmp =
            some (a, v) ∧
          rbGetValue v = 20)) :=
  C8_lower_bound_exact (insert (insert (insert .nil 10 20) 11 30) 12 20)
    (TreeReachable.ins _ 12 20 (TreeReachable.ins _ 11 30
      (TreeReachable.ins _ 10 20 TreeReachable.init))) 20

/-! ## Arena invariants -/

/-- The spatial list tiles the address range `[base, limit)` contiguously:
each region's header sits at the cursor, which then advances by
`MEMORY_NODE_SIZE + payload`; the last region ends exactly at `limit`
(`node->next == nullptr` there). -/
def tilesFrom : Nat → Nat → List Region → Prop
  | base, limit, [] => base = limit
  | base, limit, r :: rs =>
    r.addr = base ∧ tilesFrom (base + MEMORY_NODE_SIZE + r.size) limit rs

theorem tilesFrom_append (l1 : List Region) : ∀ (l2 : List Region) (base limit : Nat),
    tilesFrom base limit (l1 ++ l2) ↔
      ∃ m, tilesFrom base m l1 ∧ tilesFrom m limit l2 := by
  induction l1 with
  | nil =>
    intro l2 base limit
    constructor
    · intro h
      exact ⟨base, rfl, h⟩
    · rintro ⟨m, hm, h2⟩
      have : base = m := hm
      rw [show (tilesFrom base limit ([] ++ l2) : Prop) = tilesFrom base limit l2 from rfl]
      rw [this]
      exact h2
  | cons r rs ih =>
    intro l2 base limit
    show (r.addr = base ∧ tilesFrom _ limit (rs ++ l2)) ↔ _
    rw [ih]
    constructor
    · rintro ⟨ha, m, h1, h2⟩
      exact ⟨m, ⟨ha, h1⟩, h2⟩
    · rintro ⟨m, ⟨ha, h1⟩, h2⟩
      exact ⟨ha, m, h1, h2⟩

theorem tilesFrom_le : ∀ (rs : List Region) (base limit : Nat),
    tilesFrom base limit rs → base ≤ limit
  | [], _, _, h => Nat.le_of_eq h
  | _ :: rs, _, _, h => by
    have := tilesFrom_le rs _ _ h.2
    omega

theorem tilesFrom_mem_bound : ∀ (rs : List Region) (base limit : Nat),
    tilesFrom base limit rs →
      ∀ r ∈ rs, base ≤ r.addr ∧ r.addr + MEMORY_NODE_SIZE + r.size ≤ limit
  | [], _, _, _, _, hr => absurd hr (by simp)
  | q :: rs, base, limit, h, r, hr => by
    rcases List.mem_cons.mp hr with rfl | hr
    · have h2 := tilesFrom_le rs _ _ h.2
      have h1 := h.1
      omega
    · have := tilesFrom_mem_bound rs _ _ h.2 r hr
      omega

theorem tilesFrom_addr_lt : ∀ (rs : List Region) (base limit : Nat),
    tilesFrom base limit rs → (rs.map Region.addr).Pairwise (· < ·)
  | [], _, _, _ => List.Pairwise.nil
  | q :: rs, base, limit, h => by
    have h48 : MEMORY_NODE_SIZE = 48 := rfl
    refine List.pairwise_cons.mpr ⟨?_, tilesFrom_addr_lt rs _ _ h.2⟩
    intro a ha
    obtain ⟨r, hr, rfl⟩ := List.mem_map.mp ha
    have hb := (tilesFrom_mem_bound rs _ _ h.2 r hr).1
    have h1 := h.1
    omega

theorem tilesFrom_nodup (rs : List Region) (base limit : Nat)
    (h : tilesFrom base limit rs) : (rs.map Region.addr).Nodup :=
  (tilesFrom_addr_lt rs base limit h).imp Nat.ne_of_lt

theorem markAsFree_small (v : Nat) (h : v < 2 ^ 62) : markAsFree v = v := by
  unfold markAsFree
  have h1 : v / 2 ^ 63 = 0 := Nat.div_eq_of_lt (lt_trans h (by norm_num))
  have h2 : v % 2 ^ 62 = v := Nat.mod_eq_of_lt h
  rw [h1, h2]
  simp

theorem rbGetValue_small (v : Nat) (h : v < 2 ^ 63) : rbGetValue v = v :=
  Nat.mod_eq_of_lt h

theorem isRedW_small (v : Nat) (h : v < 2 ^ 62) : isRedW v = false := by
  have h1 : v / 2 ^ 63 = 0 := Nat.div_eq_of_lt (lt_trans h (by norm_num))
  unfold isRedW
  rw [h1]
  decide

theorem getActualValue_eq_rbGetValue (v : Nat) (h : rbGetValue v < 2 ^ 62) :
    getActualValue v = rbGetValue v := by
  unfold rbGetValue at h
  unfold getActualValue rbGetValue
  conv_lhs => rw [← Nat.mod_mod_of_dvd v (by norm_num : (2 : Nat) ^ 62 ∣ 2 ^ 63)]
  exact Nat.mod_eq_of_lt h

/-- The per-arena invariant every provisioned `Block` satisfies between
public operations: the header chain tiles the mapping, no two spatial
neighbours are both free, live regions are nonempty, and the tree holds
exactly the free regions, size-ordered and red-black balanced. -/
structure BlockInv (BS : Nat) (b : Block) : Prop where
  head_some : b.head = some b.get_head
  head_pos : 1 ≤ b.get_head
  tiles : tilesFrom b.get_head (b.get_head + BS) b.regions
  noAdjFree : b.regions.Chain' (fun a c => a.used = true ∨ c.used = true)
  used_pos : ∀ r ∈ b.regions, r.used = true → 1 ≤ r.size
  tree_regions : b.rb_tree.entries.Perm (freeEntries b.regions)
  ordered : Ordered b.rb_tree
  balanced : ∃ n, Balanced b.rb_tree .black n

theorem blockInv_mkNew (BS base : Nat) (h48 : MEMORY_NODE_SIZE ≤ BS)
    (hBS : BS < 2 ^ 62) (hbase : 1 ≤ base) : BlockInv BS (Block.mkNew BS base) := by
  have h48e : MEMORY_NODE_SIZE = 48 := rfl
  have hsz : BS - MEMORY_NODE_SIZE < 2 ^ 62 :=
    Nat.lt_of_le_of_lt (Nat.sub_le _ _) hBS
  have hval : rbGetValue (markAsFree (BS - MEMORY_NODE_SIZE)) =
      BS - MEMORY_NODE_SIZE := by
    rw [markAsFree_small _ hsz]
    exact rbGetValue_small _ (lt_trans hsz (by norm_num))
  refine ⟨rfl, hbase, ⟨rfl, ?_⟩, List.chain'_singleton _, ?_, ?_, ?_, ?_⟩
  · show base + MEMORY_NODE_SIZE + (BS - MEMORY_NODE_SIZE) = base + BS
    omega
  · intro r hr hu
    rcases List.mem_singleton.mp hr with rfl
    cases hu
  · show [(base, rbGetValue (markAsFree (BS - MEMORY_NODE_SIZE)))].Perm
      (freeEntries [⟨base, BS - MEMORY_NODE_SIZE, false⟩])
    rw [hval]
    exact List.Perm.refl _
  · show ([(base, rbGetValue (markAsFree (BS - MEMORY_NODE_SIZE)))].map Prod.snd).Pairwise
      (· ≤ ·)
    simp
  · refine ⟨1, Balanced.black ?_ Balanced.nil Balanced.nil⟩
    rw [markAsFree_small _ hsz]
    exact isRedW_small _ hsz

theorem block_best_fit_none (b : Block) (bytes : Nat)
    (htree : b.rb_tree.entries.Perm (freeEntries b.regions)) (hord : Ordered b.rb_tree)
    (hnone : b.best_fit bytes = none) :
    ∀ r ∈ b.regions, r.used = false → r.size < bytes := by
  intro r hr hfree
  have hmemE : (r.addr, r.size) ∈ freeEntries b.regions := by
    unfold freeEntries
    exact List.mem_map_of_mem _ (List.mem_filter.mpr ⟨hr, by simp [hfree]⟩)
  have hmem : (r.addr, r.size) ∈ b.rb_tree.entries := htree.mem_iff.mpr hmemE
  have hval : r.size ∈ b.rb_tree.vals := by
    have := List.mem_map_of_mem Prod.snd hmem
    simpa [Tree.vals] using this
  exact (lower_bound_correct b.rb_tree hord bytes).1 hnone r.size hval

theorem block_best_fit_some (b : Block) (bytes na nv : Nat)
    (htree : b.rb_tree.entries.Perm (freeEntries b.regions)) (hord : Ordered b.rb_tree)
    (hsome : b.best_fit bytes = some (na, nv)) :
    (⟨na, rbGetValue nv, false⟩ : Region) ∈ b.regions ∧ bytes ≤ rbGetValue nv ∧
      ∀ r ∈ b.regions, r.used = false → bytes ≤ r.size → rbGetValue nv ≤ r.size := by
  obtain ⟨hmem, hk, hmin⟩ := (lower_bound_correct b.rb_tree hord bytes).2 na nv hsome
  refine ⟨?_, hk, ?_⟩
  · have hmemE : (na, rbGetValue nv) ∈ freeEntries b.regions := htree.mem_iff.mp hmem
    unfold freeEntries at hmemE
    obtain ⟨r, hrf, heq⟩ := List.mem_map.mp hmemE
    have hru := List.mem_filter.mp hrf
    have h3 : r.used = false := by simpa using hru.2
    have hre : r = ⟨na, rbGetValue nv, false⟩ := by
      have h1 : r.addr = na := congrArg Prod.fst heq
      have h2 : r.size = rbGetValue nv := congrArg Prod.snd heq
      cases r
      simp_all
    exact hre ▸ hru.1
  · intro r hr hfree hq
    have hmemE : (r.addr, r.size) ∈ freeEntries b.regions := by
      unfold freeEntries
      exact List.mem_map_of_mem _ (List.mem_filter.mpr ⟨hr, by simp [hfree]⟩)
    have hval : r.size ∈ b.rb_tree.vals := by
      have := List.mem_map_of_mem Prod.snd (htree.mem_iff.mpr hmemE)
      simpa [Tree.vals] using this
    exact hmin r.size hval hq

/-- The state equation of `Block::allocate` at a located free region. -/
theorem allocate_result (b : Block) (pre post : List Region) (nodeAddr s bytes : Nat)
    (hreg : b.regions = pre ++ ⟨nodeAddr, s, false⟩ :: post)
    (hnd : (b.regions.map Region.addr).Nodup) :
    b.allocate bytes nodeAddr = (nodeAddr + MEMORY_NODE_SIZE,
      if bytes + MEMORY_NODE_SIZE + 1 ≤ s then
        { b with
          rb_tree := insert (remove b.rb_tree nodeAddr)
            (nodeAddr + MEMORY_NODE_SIZE + bytes)
            (markAsFree (s - bytes - MEMORY_NODE_SIZE))
          regions := pre ++ ⟨nodeAddr, bytes, true⟩ ::
            ⟨nodeAddr + MEMORY_NODE_SIZE + bytes, s - bytes - MEMORY_NODE_SIZE, false⟩ ::
              post }
      else
        { b with
          rb_tree := remove b.rb_tree nodeAddr
          regions := pre ++ ⟨nodeAddr, s, true⟩ :: post }) := by
  have hsplit := splitRegions_spec b.regions pre ⟨nodeAddr, s, false⟩ post hreg hnd
  by_cases hif : bytes + MEMORY_NODE_SIZE + 1 ≤ s
  · rw [if_pos hif]
    simp only [Block.allocate, hsplit]
    rw [if_pos hif]
    simp [List.reverse_reverse]
  · rw [if_neg hif]
    simp only [Block.allocate, hsplit]
    rw [if_neg hif]
    simp [List.reverse_reverse]

theorem allocate_head (b : Block) (bytes nodeAddr : Nat) :
    (b.allocate bytes nodeAddr).2.head = b.head ∧
      (b.allocate bytes nodeAddr).2.size = b.size := by
  cases hsp : splitRegions b.regions nodeAddr with
  | none => simp [Block.allocate, hsp]
  | some res =>
    obtain ⟨rp, r0, p0⟩ := res
    by_cases h : r0.size ≥ bytes + MEMORY_NODE_SIZE + 1
    · simp [Block.allocate, hsp, h]
    · simp [Block.allocate, hsp, h]

/-- Deleting a located entry from a tree whose entries agree with a free-list
up to permutation. -/
theorem perm_remove_entry (t : Tree) (A w : Nat) (P Q : List (Nat × Nat))
    (hperm : t.entries.Perm (P ++ (A, w) :: Q))
    (hnd : (t.entries.map Prod.fst).Nodup) :
    (remove t A).entries.Perm (P ++ Q) := by
  have hmem : (A, w) ∈ t.entries :=
    hperm.mem_iff.mpr (List.mem_append.mpr (Or.inr (List.mem_cons_self _ _)))
  obtain ⟨epre, epost, h1, h2⟩ := remove_entries_of_mem t A w hmem hnd
  rw [h2]
  have hx : (epre ++ (A, w) :: epost).Perm (P ++ (A, w) :: Q) := h1 ▸ hperm
  exact (List.perm_middle.symm.trans (hx.trans List.perm_middle)).cons_inv

/-- `remove` keeps the address column duplicate-free. -/
theorem nodup_entries_remove (t : Tree) (A : Nat)
    (hnd : (t.entries.map Prod.fst).Nodup) :
    ((remove t A).entries.map Prod.fst).Nodup := by
  cases hf : findCtx t A [] with
  | none => rw [remove_not_found t A hf]; exact hnd
  | some res =>
    obtain ⟨w, epre, epost, h1, h2⟩ := remove_entries t A hf
    rw [h2]
    rw [h1] at hnd
    have hsub : List.Sublist (epre ++ epost) (epre ++ (A, w) :: epost) :=
      ((List.Sublist.refl epost).cons (A, w)).append_left epre
    exact hnd.sublist (hsub.map Prod.fst)

/-- Inserting a freed size into a tree whose entries agree with a free-list
up to permutation. -/
theorem perm_insert_free (t : Tree) (X S : Nat) (P Q : List (Nat × Nat))
    (hperm : t.entries.Perm (P ++ Q)) (hS : S < 2 ^ 62) :
    (insert t X (markAsFree S)).entries.Perm (P ++ (X, S) :: Q) := by
  have hins := entries_insert t X (markAsFree S)
  have hv : rbGetValue (markAsFree S) = S := by
    rw [markAsFree_small _ hS]
    exact rbGetValue_small _ (lt_trans hS (by norm_num))
  rw [hv] at hins
  exact hins.trans ((hperm.cons _).trans List.perm_middle.symm)

theorem blockInv_allocate (BS : Nat) (b : Block) (bytes na nv : Nat)
    (hinv : BlockInv BS b) (hBS : BS < 2 ^ 62) (hb1 : 1 ≤ bytes)
    (hbf : b.best_fit bytes = some (na, nv)) :
    BlockInv BS (b.allocate bytes na).2 := by
  have h48e : MEMORY_NODE_SIZE = 48 := rfl
  have hp62 : (2 : Nat) ^ 62 = 4611686018427387904 := by norm_num
  obtain ⟨hmemR, hk, _⟩ :=
    block_best_fit_some b bytes na nv hinv.tree_regions hinv.ordered hbf
  obtain ⟨pre, post, hreg⟩ := List.append_of_mem hmemR
  have hnd := tilesFrom_nodup _ _ _ hinv.tiles
  have hbound := tilesFrom_mem_bound _ _ _ hinv.tiles _ hmemR
  have hs0lt : rbGetValue nv < 2 ^ 62 := by
    simp only [h48e] at hbound
    omega
  have hres := allocate_result b pre post na (rbGetValue nv) bytes hreg hnd
  have hperm3 := (allocate_spec b pre post na (rbGetValue nv) bytes hreg hnd
    hinv.tree_regions hs0lt).2.2
  obtain ⟨m, htpre, htrest⟩ := (tilesFrom_append pre _ _ _).mp (hreg ▸ hinv.tiles)
  obtain ⟨hm, htpost⟩ := htrest
  have hm' : na = m := hm
  obtain ⟨hcpre, hcrest, hbd⟩ :=
    List.chain'_append.mp (hreg ▸ hinv.noAdjFree)
  obtain ⟨hrhd, hcpost⟩ := List.chain'_cons'.mp hcrest
  obtain ⟨nb0, hbal0⟩ := hinv.balanced
  obtain ⟨nb1, hbal1⟩ := remove_balanced hbal0 na
  by_cases hif : bytes + MEMORY_NODE_SIZE + 1 ≤ rbGetValue nv
  · have hB2 : (b.allocate bytes na).2 = { b with
        rb_tree := insert (remove b.rb_tree na)
          (na + MEMORY_NODE_SIZE + bytes)
          (markAsFree (rbGetValue nv - bytes - MEMORY_NODE_SIZE))
        regions := pre ++ ⟨na, bytes, true⟩ ::
          ⟨na + MEMORY_NODE_SIZE + bytes,
            rbGetValue nv - bytes - MEMORY_NODE_SIZE, false⟩ :: post } := by
      rw [hres, if_pos hif]
    obtain ⟨nb2, hbal2⟩ := insert_balanced hbal1
      (na + MEMORY_NODE_SIZE + bytes)
      (markAsFree (rbGetValue nv - bytes - MEMORY_NODE_SIZE))
    refine ⟨?_, ?_, ?_, ?_, ?_, hperm3, ?_, ?_⟩
    · rw [hB2]
      exact hinv.head_some
    · rw [hB2]
      exact hinv.head_pos
    · rw [hB2]
      show tilesFrom b.get_head (b.get_head + BS) (pre ++ _ :: _ :: post)
      refine (tilesFrom_append pre _ _ _).mpr ⟨m, htpre, ?_⟩
      refine ⟨hm, ?_, ?_⟩
      · show na + MEMORY_NODE_SIZE + bytes = m + MEMORY_NODE_SIZE + bytes
        omega
      · have hc : m + MEMORY_NODE_SIZE + bytes + MEMORY_NODE_SIZE +
            (rbGetValue nv - bytes - MEMORY_NODE_SIZE) =
            m + MEMORY_NODE_SIZE + rbGetValue nv := by
          omega
        rw [hc]
        exact htpost
    · rw [hB2]
      show List.Chain' _ (pre ++ _ :: _ :: post)
      refine List.chain'_append.mpr ⟨hcpre, ?_, ?_⟩
      · refine List.chain'_cons'.mpr ⟨?_, ?_⟩
        · intro y hy
          exact Or.inl rfl
        · refine List.chain'_cons'.mpr ⟨?_, hcpost⟩
          intro y hy
          rcases hrhd y hy with hl | hr
          · cases hl
          · exact Or.inr hr
      · intro x hx y hy
        simp only [List.head?_cons, Option.mem_some_iff] at hy
        subst hy
        exact Or.inr rfl
    · rw [hB2]
      intro r hr hu
      simp only [List.mem_append, List.mem_cons] at hr
      rcases hr with hr | hr | hr | hr
      · exact hinv.used_pos r (hreg ▸ List.mem_append.mpr (Or.inl hr)) hu
      · rw [hr]
        exact hb1
      · rw [hr] at hu
        cases hu
      · exact hinv.used_pos r
          (hreg ▸ List.mem_append.mpr (Or.inr (List.mem_cons_of_mem _ hr))) hu
    · rw [hB2]
      exact insert_ordered (remove_ordered hinv.ordered na) _ _
    · rw [hB2]
      exact ⟨nb2, hbal2⟩
  · have hB2 : (b.allocate bytes na).2 = { b with
        rb_tree := remove b.rb_tree na
        regions := pre ++ ⟨na, rbGetValue nv, true⟩ :: post } := by
      rw [hres, if_neg hif]
    refine ⟨?_, ?_, ?_, ?_, ?_, hperm3, ?_, ?_⟩
    · rw [hB2]
      exact hinv.head_some
    · rw [hB2]
      exact hinv.head_pos
    · rw [hB2]
      show tilesFrom b.get_head (b.get_head + BS) (pre ++ _ :: post)
      refine (tilesFrom_append pre _ _ _).mpr ⟨m, htpre, ?_⟩
      exact ⟨hm, htpost⟩
    · rw [hB2]
      show List.Chain' _ (pre ++ _ :: post)
      refine List.chain'_append.mpr ⟨hcpre, ?_, ?_⟩
      · refine List.chain'_cons'.mpr ⟨?_, hcpost⟩
        intro y hy
        rcases hrhd y hy with hl | hr
        · cases hl
        · exact Or.inr hr
      · intro x hx y hy
        simp only [List.head?_cons, Option.mem_some_iff] at hy
        subst hy
        exact Or.inr rfl
    · rw [hB2]
      intro r hr hu
      simp only [List.mem_append, List.mem_cons] at hr
      rcases hr with hr | hr | hr
      · exact hinv.used_pos r (hreg ▸ List.mem_append.mpr (Or.inl hr)) hu
      · rw [hr]
        show 1 ≤ rbGetValue nv
        omega
      · exact hinv.used_pos r
          (hreg ▸ List.mem_append.mpr (Or.inr (List.mem_cons_of_mem _ hr))) hu
    · rw [hB2]
      exact remove_ordered hinv.ordered na
    · rw [hB2]
      exact ⟨nb1, hbal1⟩

theorem nodup_entries_of_perm (t : Tree) (rs : List Region)
    (hperm : t.entries.Perm (freeEntries rs))
    (hnd : (rs.map Region.addr).Nodup) :
    (t.entries.map Prod.fst).Nodup := by
  refine (hperm.map Prod.fst).nodup_iff.mpr ?_
  have hfe : (freeEntries rs).map Prod.fst =
      (rs.filter (fun r => r.used = false)).map Region.addr := by
    simp [freeEntries, List.map_map]
  rw [hfe]
  exact hnd.sublist ((List.filter_sublist _).map Region.addr)

/-- An arena whose spatial list is `P`, a free region, then `Q`, with the
free region's size entering the tree, satisfies the arena invariant. -/
theorem blockInv_free_mid (BS : Nat) (b : Block) (t : Tree) (P Q : List Region)
    (X S m1 : Nat)
    (hhead : b.head = some b.get_head) (hhpos : 1 ≤ b.get_head)
    (htP : tilesFrom b.get_head m1 P)
    (hX : X = m1)
    (htQ : tilesFrom (m1 + MEMORY_NODE_SIZE + S) (b.get_head + BS) Q)
    (hcP : P.Chain' (fun a c => a.used = true ∨ c.used = true))
    (hcQ : Q.Chain' (fun a c => a.used = true ∨ c.used = true))
    (hPlast : ∀ x ∈ P.getLast?, x.used = true)
    (hQhead : ∀ y ∈ Q.head?, y.used = true)
    (huP : ∀ r ∈ P, r.used = true → 1 ≤ r.size)
    (huQ : ∀ r ∈ Q, r.used = true → 1 ≤ r.size)
    (hperm : t.entries.Perm (freeEntries P ++ freeEntries Q))
    (hord : Ordered t) (hbal : ∃ n, Balanced t .black n)
    (hBS : BS < 2 ^ 62) :
    BlockInv BS { b with
      regions := P ++ ⟨X, S, false⟩ :: Q
      rb_tree := insert t X (markAsFree S) } := by
  have h48e : MEMORY_NODE_SIZE = 48 := rfl
  have hp62 : (2 : Nat) ^ 62 = 4611686018427387904 := by norm_num
  have hle1 := tilesFrom_le _ _ _ htP
  have hle2 := tilesFrom_le _ _ _ htQ
  have hS : S < 2 ^ 62 := by omega
  refine ⟨hhead, hhpos, ?_, ?_, ?_, ?_, ?_, ?_⟩
  · show tilesFrom b.get_head (b.get_head + BS) (P ++ _ :: Q)
    exact (tilesFrom_append P _ _ _).mpr ⟨m1, htP, hX, htQ⟩
  · show List.Chain' _ (P ++ _ :: Q)
    refine List.chain'_append.mpr ⟨hcP, ?_, ?_⟩
    · refine List.chain'_cons'.mpr ⟨?_, hcQ⟩
      intro y hy
      exact Or.inr (hQhead y hy)
    · intro x hx y hy
      simp only [List.head?_cons, Option.mem_some_iff] at hy
      subst hy
      exact Or.inl (hPlast x hx)
  · intro r hr hu
    simp only [List.mem_append, List.mem_cons] at hr
    rcases hr with hr | hr | hr
    · exact huP r hr hu
    · rw [hr] at hu
      cases hu
    · exact huQ r hr hu
  · show (insert t X (markAsFree S)).entries.Perm (freeEntries (P ++ _ :: Q))
    rw [freeEntries_append, freeEntries_cons_free _ _ rfl]
    exact perm_insert_free t X S _ _ hperm hS
  · exact insert_ordered hord _ _
  · obtain ⟨n, hb0⟩ := hbal
    obtain ⟨n1, h1⟩ := insert_balanced hb0 X (markAsFree S)
    exact ⟨n1, h1⟩

/-- The backward-merge step of `coalesce_nodes` preserves the arena
invariant when the freed span `[A, A + MEMORY_NODE_SIZE + SZ)` sits between
tiled halves whose right neighbour (if any) is used. -/
theorem coalesceBack_inv (BS : Nat) (b : Block) (t : Tree) (pre Q : List Region)
    (A SZ m : Nat)
    (hhead : b.head = some b.get_head) (hhpos : 1 ≤ b.get_head)
    (htpre : tilesFrom b.get_head m pre)
    (hmA : A = m)
    (htQ : tilesFrom (m + MEMORY_NODE_SIZE + SZ) (b.get_head + BS) Q)
    (hcpre : pre.Chain' (fun a c => a.used = true ∨ c.used = true))
    (hcQ : Q.Chain' (fun a c => a.used = true ∨ c.used = true))
    (hQhead : ∀ y ∈ Q.head?, y.used = true)
    (hupre : ∀ r ∈ pre, r.used = true → 1 ≤ r.size)
    (huQ : ∀ r ∈ Q, r.used = true → 1 ≤ r.size)
    (hperm : t.entries.Perm (freeEntries pre ++ freeEntries Q))
    (hndE : (t.entries.map Prod.fst).Nodup)
    (hord : Ordered t) (hbal : ∃ n, Balanced t .black n)
    (hBS : BS < 2 ^ 62) :
    BlockInv BS (coalesceBack b t pre.reverse A SZ Q) := by
  cases hrev : pre.reverse with
  | nil =>
    have hpre0 : pre = [] := by simpa using congrArg List.reverse hrev
    subst hpre0
    show BlockInv BS { b with
      regions := ⟨A, SZ, false⟩ :: Q
      rb_tree := insert t A (markAsFree SZ) }
    exact blockInv_free_mid BS b t [] Q A SZ m hhead hhpos htpre hmA htQ
      List.chain'_nil hcQ (by simp) hQhead (by simp) huQ hperm hord hbal hBS
  | cons p rp2 =>
    have hpre_eq : pre = rp2.reverse ++ [p] := by
      have h := congrArg List.reverse hrev
      simpa using h
    obtain ⟨m1, htP, htp⟩ := (tilesFrom_append rp2.reverse [p] _ _).mp
      (hpre_eq ▸ htpre)
    have hpa : p.addr = m1 := htp.1
    have hpcur : m1 + MEMORY_NODE_SIZE + p.size = m := htp.2
    obtain ⟨hcP, _, hbd2⟩ := List.chain'_append.mp (hpre_eq ▸ hcpre)
    have hmemP : ∀ r ∈ rp2.reverse, r ∈ pre := by
      intro r hr
      rw [hpre_eq]
      exact List.mem_append.mpr (Or.inl hr)
    by_cases hpu : p.used = false
    · have hcb : coalesceBack b t (p :: rp2) A SZ Q = { b with
          regions := rp2.reverse ++
            ⟨p.addr, p.size + SZ + MEMORY_NODE_SIZE, false⟩ :: Q
          rb_tree := insert (remove t p.addr) p.addr
            (markAsFree (p.size + SZ + MEMORY_NODE_SIZE)) } := by
        simp only [coalesceBack]
        rw [if_pos hpu]
      rw [hcb]
      have hperm1 : t.entries.Perm
          (freeEntries rp2.reverse ++ (p.addr, p.size) :: freeEntries Q) := by
        rw [hpre_eq, freeEntries_append, freeEntries_cons_free _ _ hpu] at hperm
        simpa using hperm
      have hperm2 := perm_remove_entry t p.addr p.size _ _ hperm1 hndE
      have htQ2 : tilesFrom (m1 + MEMORY_NODE_SIZE +
          (p.size + SZ + MEMORY_NODE_SIZE)) (b.get_head + BS) Q := by
        have hc : m1 + MEMORY_NODE_SIZE + (p.size + SZ + MEMORY_NODE_SIZE) =
            m + MEMORY_NODE_SIZE + SZ := by
          omega
        rw [hc]
        exact htQ
      obtain ⟨n0, hb0⟩ := hbal
      obtain ⟨n1, hb1⟩ := remove_balanced hb0 p.addr
      refine blockInv_free_mid BS b (remove t p.addr) rp2.reverse Q p.addr
        (p.size + SZ + MEMORY_NODE_SIZE) m1 hhead hhpos htP hpa htQ2 hcP hcQ
        ?_ hQhead (fun r hr hu => hupre r (hmemP r hr) hu) huQ hperm2
        (remove_ordered hord _) ⟨n1, hb1⟩ hBS
      intro x hx
      rcases hbd2 x hx p (by simp) with hl | hr
      · exact hl
      · rw [hpu] at hr
        cases hr
    · have hcb : coalesceBack b t (p :: rp2) A SZ Q = { b with
          regions := pre ++ ⟨A, SZ, false⟩ :: Q
          rb_tree := insert t A (markAsFree SZ) } := by
        simp only [coalesceBack]
        rw [if_neg hpu, ← hrev, List.reverse_reverse]
      rw [hcb]
      refine blockInv_free_mid BS b t pre Q A SZ m hhead hhpos htpre hmA htQ
        hcpre hcQ ?_ hQhead hupre huQ hperm hord hbal hBS
      intro x hx
      rw [hpre_eq, List.getLast?_concat] at hx
      have hxp : x = p := (by simpa using hx : p = x).symm
      subst hxp
      cases hpv : x.used with
      | false => exact absurd hpv hpu
      | true => rfl

theorem blockInv_deallocate (BS : Nat) (b : Block) (pre post : List Region)
    (A sz bytes : Nat)
    (hinv : BlockInv BS b) (hBS : BS < 2 ^ 62)
    (hreg : b.regions = pre ++ ⟨A, sz, true⟩ :: post) :
    BlockInv BS (b.deallocate (A + MEMORY_NODE_SIZE) bytes) := by
  have h48e : MEMORY_NODE_SIZE = 48 := rfl
  have hnd := tilesFrom_nodup _ _ _ hinv.tiles
  have hndE := nodup_entries_of_perm _ _ hinv.tree_regions hnd
  have hsp : splitRegions b.regions A = some (pre.reverse, ⟨A, sz, true⟩, post) :=
    splitRegions_spec b.regions pre _ post hreg hnd
  have hAeq : A + MEMORY_NODE_SIZE - MEMORY_NODE_SIZE = A := by omega
  obtain ⟨m, htpre, htrest⟩ := (tilesFrom_append pre _ _ _).mp (hreg ▸ hinv.tiles)
  have hm : A = m := htrest.1
  have htpost : tilesFrom (m + MEMORY_NODE_SIZE + sz) (b.get_head + BS) post :=
    htrest.2
  obtain ⟨hcpre, hcrest, hbd⟩ := List.chain'_append.mp (hreg ▸ hinv.noAdjFree)
  obtain ⟨hrhd, hcpost⟩ := List.chain'_cons'.mp hcrest
  have hperm0 : b.rb_tree.entries.Perm (freeEntries pre ++ freeEntries post) := by
    have h := hinv.tree_regions
    rw [hreg, freeEntries_append, freeEntries_cons_used _ _ rfl] at h
    exact h
  have hupre : ∀ r ∈ pre, r.used = true → 1 ≤ r.size := by
    intro r hr hu
    exact hinv.used_pos r (hreg ▸ List.mem_append.mpr (Or.inl hr)) hu
  have hupost : ∀ r ∈ post, r.used = true → 1 ≤ r.size := by
    intro r hr hu
    exact hinv.used_pos r
      (hreg ▸ List.mem_append.mpr (Or.inr (List.mem_cons_of_mem _ hr))) hu
  show BlockInv BS (b.deallocate (A + MEMORY_NODE_SIZE) bytes)
  simp only [Block.deallocate, hAeq, hsp]
  cases post with
  | nil =>
    exact coalesceBack_inv BS b b.rb_tree pre [] A sz m hinv.head_some
      hinv.head_pos htpre hm htpost hcpre List.chain'_nil (by simp) hupre
      (by simp) hperm0 hndE hinv.ordered hinv.balanced hBS
  | cons n post' =>
    obtain ⟨hnhd, hcpost'⟩ := List.chain'_cons'.mp hcpost
    show BlockInv BS (if n.used = false then
      coalesceBack b (remove b.rb_tree n.addr) pre.reverse A
        (sz + n.size + MEMORY_NODE_SIZE) post'
      else coalesceBack b b.rb_tree pre.reverse A sz (n :: post'))
    by_cases hnu : n.used = false
    · rw [if_pos hnu]
      have hperm1 : b.rb_tree.entries.Perm
          (freeEntries pre ++ (n.addr, n.size) :: freeEntries post') := by
        rw [freeEntries_cons_free _ _ hnu] at hperm0
        exact hperm0
      have hperm2 := perm_remove_entry b.rb_tree n.addr n.size _ _ hperm1 hndE
      obtain ⟨hna, htpost''⟩ := htpost
      have hna' : n.addr = m + MEMORY_NODE_SIZE + sz := hna
      have htQ2 : tilesFrom (m + MEMORY_NODE_SIZE +
          (sz + n.size + MEMORY_NODE_SIZE)) (b.get_head + BS) post' := by
        have hc : m + MEMORY_NODE_SIZE + (sz + n.size + MEMORY_NODE_SIZE) =
            m + MEMORY_NODE_SIZE + sz + MEMORY_NODE_SIZE + n.size := by
          omega
        rw [hc]
        exact htpost''
      refine coalesceBack_inv BS b (remove b.rb_tree n.addr) pre post' A
        (sz + n.size + MEMORY_NODE_SIZE) m hinv.head_some hinv.head_pos htpre hm
        htQ2 hcpre hcpost' ?_ hupre
        (fun r hr hu => hupost r (List.mem_cons_of_mem _ hr) hu) hperm2
        (nodup_entries_remove _ _ hndE) (remove_ordered hinv.ordered _)
        ?_ hBS
      · intro y hy
        rcases hnhd y hy with hl | hr
        · rw [hnu] at hl
          cases hl
        · exact hr
      · obtain ⟨n0, hb0⟩ := hinv.balanced
        obtain ⟨n1, hb1⟩ := remove_balanced hb0 n.addr
        exact ⟨n1, hb1⟩
    · rw [if_neg hnu]
      refine coalesceBack_inv BS b b.rb_tree pre (n :: post') A sz m
        hinv.head_some hinv.head_pos htpre hm htpost hcpre hcpost ?_ hupre
        hupost hperm0 hndE hinv.ordered hinv.balanced hBS
      intro y hy
      simp only [List.head?_cons, Option.mem_some_iff] at hy
      subst hy
      cases hyv : n.used with
      | false => exact absurd hyv hnu
      | true => rfl

/-! ## Pool invariants -/

/-- One step of the pool's best-fit scan (the loop body of
`BlocksContainer::best_fit`). -/
def bfStep (s : BlocksContainer) (bytes : Nat)
    (best : Option (Nat × Nat × Nat)) (i : Nat) : Option (Nat × Nat × Nat) :=
  match (s.blocks.getD i Block.default).best_fit bytes with
  | some (na, nv) =>
    match best with
    | none => some (i, na, nv)
    | some (bi, ba, bv) =>
      if getActualValue nv < getActualValue bv then some (i, na, nv)
      else some (bi, ba, bv)
  | none => best

theorem best_fit_eq_fold (s : BlocksContainer) (bytes : Nat) :
    s.best_fit bytes =
      (List.range (s.current_block_index + 1)).foldl (bfStep s bytes) none := rfl

theorem bfFold_spec (s : BlocksContainer) (bytes : Nat) : ∀ (n : Nat),
    ((List.range n).foldl (bfStep s bytes) none = none →
        ∀ j, j < n → (s.blocks.getD j Block.default).best_fit bytes = none) ∧
      (∀ i na nv,
        (List.range n).foldl (bfStep s bytes) none = some (i, na, nv) →
        i < n ∧ (s.blocks.getD i Block.default).best_fit bytes = some (na, nv) ∧
          (∀ j, j < n → ∀ na2 nv2,
            (s.blocks.getD j Block.default).best_fit bytes = some (na2, nv2) →
            getActualValue nv ≤ getActualValue nv2) ∧
          (∀ j, j < i → ∀ na2 nv2,
            (s.blocks.getD j Block.default).best_fit bytes = some (na2, nv2) →
            getActualValue nv < getActualValue nv2))
  | 0 => by
    constructor
    · intro _ j hj
      omega
    · intro i na nv h
      simp at h
  | n + 1 => by
    have ih := bfFold_spec s bytes n
    rw [List.range_succ, List.foldl_append, List.foldl_cons, List.foldl_nil]
    cases hacc : (List.range n).foldl (bfStep s bytes) none with
    | none =>
      cases hbf : (s.blocks.getD n Block.default).best_fit bytes with
      | none =>
        have hstep : bfStep s bytes none n = none := by
          unfold bfStep
          rw [hbf]
        rw [hstep]
        constructor
        · intro _ j hj
          rcases Nat.lt_succ_iff_lt_or_eq.mp hj with hj | rfl
          · exact ih.1 hacc j hj
          · exact hbf
        · intro i na nv h
          cases h
      | some res =>
        obtain ⟨na0, nv0⟩ := res
        have hstep : bfStep s bytes none n = some (n, na0, nv0) := by
          unfold bfStep
          rw [hbf]
        rw [hstep]
        constructor
        · intro h
          cases h
        · intro i na nv h
          cases h
          refine ⟨Nat.lt_succ_self n, hbf, ?_, ?_⟩
          · intro j hj na2 nv2 hbf2
            rcases Nat.lt_succ_iff_lt_or_eq.mp hj with hj | rfl
            · rw [ih.1 hacc j hj] at hbf2
              cases hbf2
            · rw [hbf] at hbf2
              cases hbf2
              exact Nat.le_refl _
          · intro j hj na2 nv2 hbf2
            rw [ih.1 hacc j hj] at hbf2
            cases hbf2
    | some res =>
      obtain ⟨bi, ba, bv⟩ := res
      obtain ⟨hbi, hbfi, hmin, hstrict⟩ := ih.2 bi ba bv hacc
      cases hbf : (s.blocks.getD n Block.default).best_fit bytes with
      | none =>
        have hstep : bfStep s bytes (some (bi, ba, bv)) n = some (bi, ba, bv) := by
          unfold bfStep
          rw [hbf]
        rw [hstep]
        constructor
        · intro h
          cases h
        · intro i na nv h
          cases h
          refine ⟨by omega, hbfi, ?_, hstrict⟩
          intro j hj na2 nv2 hbf2
          rcases Nat.lt_succ_iff_lt_or_eq.mp hj with hj | rfl
          · exact hmin j hj na2 nv2 hbf2
          · rw [hbf] at hbf2
            cases hbf2
      | some res2 =>
        obtain ⟨na0, nv0⟩ := res2
        by_cases hlt : getActualValue nv0 < getActualValue bv
        · have hstep : bfStep s bytes (some (bi, ba, bv)) n = some (n, na0, nv0) := by
            unfold bfStep
            rw [hbf]
            exact if_pos hlt
          rw [hstep]
          constructor
          · intro h
            cases h
          · intro i na nv h
            cases h
            refine ⟨Nat.lt_succ_self n, hbf, ?_, ?_⟩
            · intro j hj na2 nv2 hbf2
              rcases Nat.lt_succ_iff_lt_or_eq.mp hj with hj | rfl
              · exact Nat.le_of_lt
                  (Nat.lt_of_lt_of_le hlt (hmin j hj na2 nv2 hbf2))
              · rw [hbf] at hbf2
                cases hbf2
                exact Nat.le_refl _
            · intro j hj na2 nv2 hbf2
              exact Nat.lt_of_lt_of_le hlt (hmin j hj na2 nv2 hbf2)
        · have hstep : bfStep s bytes (some (bi, ba, bv)) n = some (bi, ba, bv) := by
            unfold bfStep
            rw [hbf]
            exact if_neg hlt
          rw [hstep]
          constructor
          · intro h
            cases h
          · intro i na nv h
            cases h
            refine ⟨by omega, hbfi, ?_, hstrict⟩
            intro j hj na2 nv2 hbf2
            rcases Nat.lt_succ_iff_lt_or_eq.mp hj with hj | rfl
            · exact hmin j hj na2 nv2 hbf2
            · rw [hbf] at hbf2
              cases hbf2
              exact Nat.le_of_not_lt hlt

theorem find?_eq_some_of_unique {p : Nat → Bool} : ∀ (l : List Nat) (i : Nat),
    i ∈ l → p i = true → (∀ j ∈ l, p j = true → j = i) → l.find? p = some i
  | [], _, h, _, _ => absurd h (by simp)
  | x :: xs, i, hm, hp, hu => by
    by_cases hx : p x = true
    · rw [List.find?_cons_of_pos _ hx]
      rw [hu x (List.mem_cons_self _ _) hx]
    · rw [List.find?_cons_of_neg _ hx]
      have hm2 : i ∈ xs := by
        rcases List.mem_cons.mp hm with rfl | h
        · exact absurd hp hx
        · exact h
      exact find?_eq_some_of_unique xs i hm2 hp
        (fun j hj => hu j (List.mem_cons_of_mem _ hj))

/-- The pool invariant: the block array has its declared length, the
watermark is in range, the arena size is sane, every provisioned arena
satisfies the arena invariant, and provisioned mappings are pairwise
disjoint. -/
structure PoolInv (s : BlocksContainer) : Prop where
  len : s.blocks.length = s.MaxNumBlocks
  cbi_lt : s.current_block_index < s.MaxNumBlocks
  bs_min : MEMORY_NODE_SIZE ≤ s.BlockSize
  bs_max : s.BlockSize < 2 ^ 62
  inv : ∀ i, i ≤ s.current_block_index →
    BlockInv s.BlockSize (s.blocks.getD i Block.default)
  disj : ∀ i j, i ≤ s.current_block_index → j ≤ s.current_block_index → i ≠ j →
    (s.blocks.getD i Block.default).get_head + s.BlockSize ≤
        (s.blocks.getD j Block.default).get_head ∨
      (s.blocks.getD j Block.default).get_head + s.BlockSize ≤
        (s.blocks.getD i Block.default).get_head

/-- The OS handed out a fresh mapping: a positive base whose
`[base, base + BlockSize)` range is disjoint from every provisioned arena. -/
def FreshBase (s : BlocksContainer) (base : Nat) : Prop :=
  1 ≤ base ∧ ∀ i, i ≤ s.current_block_index →
    ((s.blocks.getD i Block.default).get_head + s.BlockSize ≤ base ∨
      base + s.BlockSize ≤ (s.blocks.getD i Block.default).get_head)

/-- A release of a pointer previously handed out and still live: `ptr` is
the payload address of a used region of some provisioned arena. -/
def ValidRelease (s : BlocksContainer) (ptr : Nat) : Prop :=
  ∃ i, i ≤ s.current_block_index ∧
    ∃ r ∈ (s.blocks.getD i Block.default).regions,
      r.used = true ∧ ptr = r.addr + MEMORY_NODE_SIZE

/-- The pool states a program can observe between public calls: the freshly
constructed pool, and closure under `allocate` (with the OS oracle
delivering a fresh disjoint mapping whenever provisioning is attempted — the
mapping-failure path throws, and `C2` records that it corrupts the
watermark) and under `deallocate` of live pointers (releasing a foreign
pointer throws without a state change, and releasing a stale pointer is
undefined behaviour in the source). -/
inductive Reachable : BlocksContainer → Prop where
  | init (BS MNB base : Nat) : MEMORY_NODE_SIZE ≤ BS → BS < 2 ^ 62 →
      1 ≤ base → 1 ≤ MNB → Reachable (BlocksContainer.mkNew BS MNB base)
  | alloc (s : BlocksContainer) (bytes base : Nat) :
      Reachable s → FreshBase s base →
      Reachable (s.allocate bytes (some base)).2
  | dealloc (s : BlocksContainer) (ptr bytes : Nat) :
      Reachable s → ValidRelease s ptr →
      Reachable (s.deallocate ptr bytes).2

theorem coalesceBack_head (b : Block) (t : Tree) (rp : List Region)
    (A SZ : Nat) (Q : List Region) :
    (coalesceBack b t rp A SZ Q).head = b.head := by
  cases rp with
  | nil => rfl
  | cons p rp2 =>
    show (if p.used = false then _ else _ : Block).head = b.head
    by_cases h : p.used = false
    · rw [if_pos h]
    · rw [if_neg h]

theorem deallocate_head (b : Block) (ptr bytes : Nat) :
    (b.deallocate ptr bytes).head = b.head := by
  simp only [Block.deallocate]
  cases hsp : splitRegions b.regions (ptr - MEMORY_NODE_SIZE) with
  | none => rfl
  | some res =>
    obtain ⟨rp, r0, p0⟩ := res
    cases p0 with
    | nil => exact coalesceBack_head b b.rb_tree rp _ _ _
    | cons n p0' =>
      show (if n.used = false then _ else _ : Block).head = b.head
      by_cases h : n.used = false
      · rw [if_pos h]
        exact coalesceBack_head b _ rp _ _ _
      · rw [if_neg h]
        exact coalesceBack_head b _ rp _ _ _

theorem get_head_congr (b b2 : Block) (h : b2.head = b.head) :
    b2.get_head = b.get_head := by
  unfold Block.get_head
  rw [h]

theorem poolInv_mkNew (BS MNB base : Nat) (h48 : MEMORY_NODE_SIZE ≤ BS)
    (hBS : BS < 2 ^ 62) (hbase : 1 ≤ base) (hM : 1 ≤ MNB) :
    PoolInv (BlocksContainer.mkNew BS MNB base) := by
  refine ⟨?_, ?_, h48, hBS, ?_, ?_⟩
  · simp [BlocksContainer.mkNew]
  · exact hM
  · intro i hi
    have hi0 : i = 0 := by
      simpa [BlocksContainer.mkNew] using hi
    subst hi0
    have hget : ((List.replicate MNB Block.default).set 0
        (Block.mkNew BS base)).getD 0 Block.default = Block.mkNew BS base :=
      getD_set_self _ _ _ _ (by simpa using hM)
    show BlockInv BS (((List.replicate MNB Block.default).set 0
      (Block.mkNew BS base)).getD 0 Block.default)
    rw [hget]
    exact blockInv_mkNew BS base h48 hBS hbase
  · intro i j hi hj hne
    have hi0 : i = 0 := by
      simpa [BlocksContainer.mkNew] using hi
    have hj0 : j = 0 := by
      simpa [BlocksContainer.mkNew] using hj
    exact absurd (hi0.trans hj0.symm) hne

theorem poolInv_allocate (s : BlocksContainer) (bytes base : Nat)
    (hinv : PoolInv s) (hfresh : FreshBase s base) :
    PoolInv (s.allocate bytes (some base)).2 := by
  by_cases hb : bytes < 1
  · have hres : (s.allocate bytes (some base)).2 = s := by
      simp [BlocksContainer.allocate, hb]
    rw [hres]
    exact hinv
  cases hbf : s.best_fit bytes with
  | some res =>
    obtain ⟨i, na, nv⟩ := res
    have hres : (s.allocate bytes (some base)).2 = { s with
        blocks := s.blocks.set i
          ((s.blocks.getD i Block.default).allocate bytes na).2 } := by
      simp [BlocksContainer.allocate, hb, hbf]
    obtain ⟨hilt, hbfi, _, _⟩ := (bfFold_spec s bytes (s.current_block_index + 1)).2
      i na nv (best_fit_eq_fold s bytes ▸ hbf)
    have hile : i ≤ s.current_block_index := by omega
    have hBI := blockInv_allocate s.BlockSize _ bytes na nv (hinv.inv i hile)
      hinv.bs_max (by omega) hbfi
    have hlen : i < s.blocks.length := by
      have := hinv.cbi_lt
      rw [hinv.len]
      omega
    have hgh : ∀ j, ((s.blocks.set i
        ((s.blocks.getD i Block.default).allocate bytes na).2).getD j
          Block.default).get_head =
        (s.blocks.getD j Block.default).get_head := by
      intro j
      by_cases hji : j = i
      · subst hji
        rw [getD_set_self _ _ _ _ hlen]
        exact get_head_congr _ _ (allocate_head _ bytes na).1
      · rw [getD_set_ne _ _ _ _ _ hji]
    rw [hres]
    refine ⟨by simpa using hinv.len, hinv.cbi_lt, hinv.bs_min, hinv.bs_max, ?_, ?_⟩
    · intro j hj
      by_cases hji : j = i
      · subst hji
        show BlockInv s.BlockSize _
        rw [getD_set_self _ _ _ _ hlen]
        exact hBI
      · show BlockInv s.BlockSize _
        rw [getD_set_ne _ _ _ _ _ hji]
        exact hinv.inv j hj
    · intro a c ha hc hne
      have h1 := hgh a
      have h2 := hgh c
      show _ + s.BlockSize ≤ _ ∨ _ + s.BlockSize ≤ _
      rw [h1, h2]
      exact hinv.disj a c ha hc hne
  | none =>
    by_cases hslot : s.current_block_index + 1 < s.MaxNumBlocks
    · have hlen2 : s.current_block_index + 1 < s.blocks.length := by
        rw [hinv.len]
        omega
      cases hnb : (Block.mkNew s.BlockSize base).best_fit bytes with
      | none =>
        have hres : (s.allocate bytes (some base)).2 = { s with
            current_block_index := s.current_block_index + 1
            blocks := s.blocks.set (s.current_block_index + 1)
              (Block.mkNew s.BlockSize base) } := by
          simp [BlocksContainer.allocate, hb, hbf, hslot, hnb]
        rw [hres]
        have hgh : ∀ j, j ≤ s.current_block_index →
            ((s.blocks.set (s.current_block_index + 1)
              (Block.mkNew s.BlockSize base)).getD j Block.default).get_head =
            (s.blocks.getD j Block.default).get_head := by
          intro j hj
          rw [getD_set_ne _ _ _ _ _ (by omega)]
        refine ⟨by simpa using hinv.len, hslot, hinv.bs_min, hinv.bs_max, ?_, ?_⟩
        · intro j hj
          have hj2 : j ≤ s.current_block_index + 1 := hj
          show BlockInv s.BlockSize _
          by_cases hji : j = s.current_block_index + 1
          · subst hji
            rw [getD_set_self _ _ _ _ hlen2]
            exact blockInv_mkNew s.BlockSize base hinv.bs_min hinv.bs_max hfresh.1
          · rw [getD_set_ne _ _ _ _ _ hji]
            exact hinv.inv j (by omega)
        · intro a c ha hc hne
          have ha2 : a ≤ s.current_block_index + 1 := ha
          have hc2 : c ≤ s.current_block_index + 1 := hc
          show _ + s.BlockSize ≤ _ ∨ _ + s.BlockSize ≤ _
          by_cases hai : a = s.current_block_index + 1
          · subst hai
            have hci : c ≤ s.current_block_index := by omega
            rw [getD_set_self _ _ _ _ hlen2, hgh c hci]
            show Block.get_head (Block.mkNew s.BlockSize base) + _ ≤ _ ∨ _
            show base + _ ≤ _ ∨ _ + _ ≤ base
            rcases hfresh.2 c hci with h | h
            · exact Or.inr h
            · exact Or.inl h
          · by_cases hcj : c = s.current_block_index + 1
            · subst hcj
              have hai2 : a ≤ s.current_block_index := by omega
              rw [getD_set_self _ _ _ _ hlen2, hgh a hai2]
              show _ + _ ≤ base ∨ base + _ ≤ _
              rcases hfresh.2 a hai2 with h | h
              · exact Or.inl h
              · exact Or.inr h
            · rw [hgh a (by omega), hgh c (by omega)]
              exact hinv.disj a c (by omega) (by omega) hne
      | some res =>
        obtain ⟨na, nv⟩ := res
        have hres : (s.allocate bytes (some base)).2 = { s with
            current_block_index := s.current_block_index + 1
            blocks := s.blocks.set (s.current_block_index + 1)
              ((Block.mkNew s.BlockSize base).allocate bytes na).2 } := by
          simp [BlocksContainer.allocate, hb, hbf, hslot, hnb]
        rw [hres]
        have hBInb := blockInv_allocate s.BlockSize (Block.mkNew s.BlockSize base)
          bytes na nv
          (blockInv_mkNew s.BlockSize base hinv.bs_min hinv.bs_max hfresh.1)
          hinv.bs_max (by omega) hnb
        have hheadnb : ((Block.mkNew s.BlockSize base).allocate bytes na).2.get_head =
            base :=
          get_head_congr _ _ (allocate_head _ bytes na).1
        have hgh : ∀ j, j ≤ s.current_block_index →
            ((s.blocks.set (s.current_block_index + 1)
              ((Block.mkNew s.BlockSize base).allocate bytes na).2).getD j
                Block.default).get_head =
            (s.blocks.getD j Block.default).get_head := by
          intro j hj
          rw [getD_set_ne _ _ _ _ _ (by omega)]
        refine ⟨by simpa using hinv.len, hslot, hinv.bs_min, hinv.bs_max, ?_, ?_⟩
        · intro j hj
          have hj2 : j ≤ s.current_block_index + 1 := hj
          show BlockInv s.BlockSize _
          by_cases hji : j = s.current_block_index + 1
          · subst hji
            rw [getD_set_self _ _ _ _ hlen2]
            exact hBInb
          · rw [getD_set_ne _ _ _ _ _ hji]
            exact hinv.inv j (by omega)
        · intro a c ha hc hne
          have ha2 : a ≤ s.current_block_index + 1 := ha
          have hc2 : c ≤ s.current_block_index + 1 := hc
          show _ + s.BlockSize ≤ _ ∨ _ + s.BlockSize ≤ _
          by_cases hai : a = s.current_block_index + 1
          · subst hai
            have hci : c ≤ s.current_block_index := by omega
            rw [getD_set_self _ _ _ _ hlen2, hgh c hci, hheadnb]
            rcases hfresh.2 c hci with h | h
            · exact Or.inr h
            · exact Or.inl h
          · by_cases hcj : c = s.current_block_index + 1
            · subst hcj
              have hai2 : a ≤ s.current_block_index := by omega
              rw [getD_set_self _ _ _ _ hlen2, hgh a hai2, hheadnb]
              rcases hfresh.2 a hai2 with h | h
              · exact Or.inl h
              · exact Or.inr h
            · rw [hgh a (by omega), hgh c (by omega)]
              exact hinv.disj a c (by omega) (by omega) hne
    · have hres : (s.allocate bytes (some base)).2 = s := by
        simp [BlocksContainer.allocate, hb, hbf, hslot]
      rw [hres]
      exact hinv

theorem poolInv_deallocate (s : BlocksContainer) (ptr bytes : Nat)
    (hinv : PoolInv s) (hval : ValidRelease s ptr) :
    PoolInv (s.deallocate ptr bytes).2 := by
  have h48e : MEMORY_NODE_SIZE = 48 := rfl
  obtain ⟨i0, hi0, r, hr, hru, hptr⟩ := hval
  have hBIi := hinv.inv i0 hi0
  have hbound := tilesFrom_mem_bound _ _ _ hBIi.tiles _ hr
  have hszpos : 1 ≤ r.size := hBIi.used_pos r hr hru
  have hinrange : (s.blocks.getD i0 Block.default).get_head ≤ ptr ∧
      ptr < (s.blocks.getD i0 Block.default).get_head + s.BlockSize := by
    constructor
    · omega
    · omega
  have hfb : s.findBlock ptr = some i0 := by
    unfold BlocksContainer.findBlock
    apply find?_eq_some_of_unique
    · exact List.mem_range.mpr (by omega)
    · simp only [Bool.and_eq_true, decide_eq_true_eq]
      exact hinrange
    · intro j hj hpj
      simp only [Bool.and_eq_true, decide_eq_true_eq] at hpj
      by_contra hne
      have hjle : j ≤ s.current_block_index := by
        have := List.mem_range.mp hj
        omega
      rcases hinv.disj j i0 hjle hi0 hne with h | h
      · omega
      · omega
  have hres : (s.deallocate ptr bytes).2 = { s with
      blocks := s.blocks.set i0
        ((s.blocks.getD i0 Block.default).deallocate ptr bytes) } := by
    simp [BlocksContainer.deallocate, hfb]
  obtain ⟨pre, post, hreg⟩ := List.append_of_mem hr
  have hrlit : r = ⟨r.addr, r.size, true⟩ := by
    cases r
    simp_all
  rw [hrlit] at hreg
  have hBI2 : BlockInv s.BlockSize
      ((s.blocks.getD i0 Block.default).deallocate ptr bytes) := by
    rw [hptr]
    exact blockInv_deallocate s.BlockSize _ pre post r.addr r.size bytes hBIi
      hinv.bs_max hreg
  have hlen : i0 < s.blocks.length := by
    have := hinv.cbi_lt
    rw [hinv.len]
    omega
  have hgh : ∀ j, ((s.blocks.set i0
      ((s.blocks.getD i0 Block.default).deallocate ptr bytes)).getD j
        Block.default).get_head =
      (s.blocks.getD j Block.default).get_head := by
    intro j
    by_cases hji : j = i0
    · subst hji
      rw [getD_set_self _ _ _ _ hlen]
      exact get_head_congr _ _ (deallocate_head _ ptr bytes)
    · rw [getD_set_ne _ _ _ _ _ hji]
  rw [hres]
  refine ⟨by simpa using hinv.len, hinv.cbi_lt, hinv.bs_min, hinv.bs_max, ?_, ?_⟩
  · intro j hj
    show BlockInv s.BlockSize _
    by_cases hji : j = i0
    · subst hji
      rw [getD_set_self _ _ _ _ hlen]
      exact hBI2
    · rw [getD_set_ne _ _ _ _ _ hji]
      exact hinv.inv j hj
  · intro a c ha hc hne
    show _ + s.BlockSize ≤ _ ∨ _ + s.BlockSize ≤ _
    rw [hgh a, hgh c]
    exact hinv.disj a c ha hc hne

/-- Every reachable pool state satisfies the pool invariant. -/
theorem reachable_poolInv {s : BlocksContainer} (h : Reachable s) : PoolInv s := by
  induction h with
  | init BS MNB base h48 hBS hbase hM => exact poolInv_mkNew BS MNB base h48 hBS hbase hM
  | alloc s bytes base _ hfresh ih => exact poolInv_allocate s bytes base ih hfresh
  | dealloc s ptr bytes _ hval ih => exact poolInv_deallocate s ptr bytes ih hval

/-- C6: in every reachable pool state — i.e. after arena construction and any
sequence of allocations and releases of live pointers — every provisioned
arena's tree holds exactly the arena's free regions, its in-order traversal
is sorted by payload size (a valid size-keyed BST), and it is red-black
balanced: `Balanced _ .black n` says the root is black, no red node has a
red child, and every root-to-null path has the same number `n` of black
nodes. -/
theorem C6_tree_validity (s : BlocksContainer) (hr : Reachable s) :
    ∀ i ≤ s.current_block_index,
      (s.blocks.getD i Block.default).rb_tree.entries.Perm
        (freeEntries (s.blocks.getD i Block.default).regions) ∧
      Ordered (s.blocks.getD i Block.default).rb_tree ∧
      ∃ n, Balanced (s.blocks.getD i Block.default).rb_tree .black n := by
  intro i hi
  have hBI := (reachable_poolInv hr).inv i hi
  exact ⟨hBI.tree_regions, hBI.ordered, hBI.balanced⟩

theorem C6_tree_validity_witness :
    ((BlocksContainer.mkNew 1024 1 1000).blocks.getD 0
        Block.default).rb_tree.entries.Perm
      (freeEntries ((BlocksContainer.mkNew 1024 1 1000).blocks.getD 0
        Block.default).regions) ∧
    Ordered ((BlocksContainer.mkNew 1024 1 1000).blocks.getD 0
      Block.default).rb_tree ∧
    ∃ n, Balanced ((BlocksContainer.mkNew 1024 1 1000).blocks.getD 0
      Block.default).rb_tree .black n :=
  C6_tree_validity (BlocksContainer.mkNew 1024 1 1000)
    (Reachable.init 1024 1 1000 (by decide) (by decide) (by decide)
      (by decide)) 0 (by decide)

/-- C5: in a reachable pool state in which every region of every provisioned
arena is free (every pointer handed out by a successful allocation has been
released — a release frees exactly the regions it coalesces), each
provisioned arena's spatial list has collapsed back to exactly one free
region of payload `BlockSize - MEMORY_NODE_SIZE` at the arena base; with the
invariant that the list tiles `[base, base + BlockSize)` contiguously this is
the full-coalescing property P1. -/
theorem C5_full_coalescing (s : BlocksContainer) (hr : Reachable s)
    (hall : ∀ i ≤ s.current_block_index,
      ∀ r ∈ (s.blocks.getD i Block.default).regions, r.used = false) :
    ∀ i ≤ s.current_block_index,
      (s.blocks.getD i Block.default).regions =
        [⟨(s.blocks.getD i Block.default).get_head,
          s.BlockSize - MEMORY_NODE_SIZE, false⟩] := by
  intro i hi
  have h48e : MEMORY_NODE_SIZE = 48 := rfl
  have hpool := reachable_poolInv hr
  have hBI := hpool.inv i hi
  have hbs := hpool.bs_min
  have ht := hBI.tiles
  have hch := hBI.noAdjFree
  cases hregs : (s.blocks.getD i Block.default).regions with
  | nil =>
    rw [hregs] at ht
    have hcontra : (s.blocks.getD i Block.default).get_head =
        (s.blocks.getD i Block.default).get_head + s.BlockSize := ht
    omega
  | cons r rest =>
    cases rest with
    | nil =>
      rw [hregs] at ht
      obtain ⟨haddr, hcur⟩ := ht
      have hcur2 : (s.blocks.getD i Block.default).get_head + MEMORY_NODE_SIZE +
          r.size = (s.blocks.getD i Block.default).get_head + s.BlockSize := hcur
      have hfree : r.used = false :=
        hall i hi r (hregs ▸ List.mem_cons_self _ _)
      have hrlit : r = ⟨(s.blocks.getD i Block.default).get_head,
          s.BlockSize - MEMORY_NODE_SIZE, false⟩ := by
        rcases r with ⟨ra, rs, ru⟩
        simp only [Region.mk.injEq]
        refine ⟨haddr, ?_, hfree⟩
        have hc3 : (s.blocks.getD i Block.default).get_head + MEMORY_NODE_SIZE +
            rs = (s.blocks.getD i Block.default).get_head + s.BlockSize := hcur2
        omega
      rw [hrlit]
    | cons r2 rest2 =>
      exfalso
      rw [hregs] at hch
      have hpair := (List.chain'_cons.mp hch).1
      have hf1 : r.used = false :=
        hall i hi r (hregs ▸ List.mem_cons_self _ _)
      have hf2 : r2.used = false :=
        hall i hi r2 (hregs ▸ List.mem_cons_of_mem _ (List.mem_cons_self _ _))
      rcases hpair with h | h
      · rw [hf1] at h
        cases h
      · rw [hf2] at h
        cases h

theorem C5_full_coalescing_witness :
    (∀ i ≤ (BlocksContainer.mkNew 1024 1 1000).current_block_index,
      ∀ r ∈ ((BlocksContainer.mkNew 1024 1 1000).blocks.getD i
        Block.default).regions, r.used = false) ∧
    ∀ i ≤ (BlocksContainer.mkNew 1024 1 1000).current_block_index,
      ((BlocksContainer.mkNew 1024 1 1000).blocks.getD i Block.default).regions =
        [⟨((BlocksContainer.mkNew 1024 1 1000).blocks.getD i
            Block.default).get_head,
          (BlocksContainer.mkNew 1024 1 1000).BlockSize - MEMORY_NODE_SIZE,
          false⟩] :=
  ⟨by decide,
    C5_full_coalescing (BlocksContainer.mkNew 1024 1 1000)
      (Reachable.init 1024 1 1000 (by decide) (by decide) (by decide)
        (by decide))
      (by decide)⟩

/-- C7: a successful pool allocation is served best-fit globally: either the
scan found a fitting region — then the chosen region is free, fits, its size
is minimal among the free fitting regions of ALL provisioned arenas, and any
arena of smaller index offers no free fitting region that small (ties keep
the first arena) — or no provisioned arena had any free fitting region and
the request was served from the freshly provisioned arena, which then
trivially offers the globally smallest fit. -/
theorem C7_global_best_fit (s : BlocksContainer) (bytes : Nat) (osMap : Option Nat)
    (ptr : Nat) (hr : Reachable s)
    (hok : (s.allocate bytes osMap).1 = .ok ptr) :
    (∃ i na nv, s.best_fit bytes = some (i, na, nv) ∧
      i ≤ s.current_block_index ∧
      ptr = na + MEMORY_NODE_SIZE ∧
      (⟨na, rbGetValue nv, false⟩ : Region) ∈
        (s.blocks.getD i Block.default).regions ∧
      bytes ≤ rbGetValue nv ∧
      (∀ j, j ≤ s.current_block_index →
        ∀ r ∈ (s.blocks.getD j Block.default).regions,
          r.used = false → bytes ≤ r.size → rbGetValue nv ≤ r.size) ∧
      (∀ j, j < i → ∀ r ∈ (s.blocks.getD j Block.default).regions,
        r.used = false → bytes ≤ r.size → rbGetValue nv < r.size)) ∨
    (s.best_fit bytes = none ∧
      ∀ j, j ≤ s.current_block_index →
        ∀ r ∈ (s.blocks.getD j Block.default).regions,
          r.used = false → r.size < bytes) := by
  have h48e : MEMORY_NODE_SIZE = 48 := rfl
  have hp62 : (2 : Nat) ^ 62 = 4611686018427387904 := by norm_num
  have hpool := reachable_poolInv hr
  have hbnd : ∀ j, j ≤ s.current_block_index →
      ∀ x ∈ (s.blocks.getD j Block.default).regions, x.size < 2 ^ 62 := by
    intro j hj x hx
    have hb2 := tilesFrom_mem_bound _ _ _ (hpool.inv j hj).tiles _ hx
    have := hpool.bs_max
    omega
  by_cases hb : bytes < 1
  · have hres : (s.allocate bytes osMap).1 = .thrownInvalidArg := by
      simp [BlocksContainer.allocate, hb]
    rw [hres] at hok
    cases hok
  cases hbf : s.best_fit bytes with
  | some res =>
    obtain ⟨i, na, nv⟩ := res
    left
    obtain ⟨hilt, hbfi, hmin, hstrict⟩ :=
      (bfFold_spec s bytes (s.current_block_index + 1)).2 i na nv
        (best_fit_eq_fold s bytes ▸ hbf)
    have hile : i ≤ s.current_block_index := by omega
    have hBIi := hpool.inv i hile
    obtain ⟨hmemR, hk, _⟩ := block_best_fit_some _ bytes na nv
      hBIi.tree_regions hBIi.ordered hbfi
    have hnv62 : rbGetValue nv < 2 ^ 62 := hbnd i hile _ hmemR
    have hres1 : (s.allocate bytes osMap).1 = .ok (na + MEMORY_NODE_SIZE) := by
      simp [BlocksContainer.allocate, hb, hbf, Block.allocate]
    rw [hres1] at hok
    cases hok
    have hglobal : ∀ j, j ≤ s.current_block_index →
        ∀ r ∈ (s.blocks.getD j Block.default).regions,
          r.used = false → bytes ≤ r.size →
          (getActualValue nv ≤ r.size ∧
            (j < i → getActualValue nv < r.size)) := by
      intro j hj r hrm hfree hq
      have hBIj := hpool.inv j hj
      cases hbfj : (s.blocks.getD j Block.default).best_fit bytes with
      | none =>
        have := block_best_fit_none _ bytes hBIj.tree_regions hBIj.ordered
          hbfj r hrm hfree
        omega
      | some resj =>
        obtain ⟨naj, nvj⟩ := resj
        obtain ⟨hmemRj, _, hminj⟩ := block_best_fit_some _ bytes naj nvj
          hBIj.tree_regions hBIj.ordered hbfj
        have hnvj62 : rbGetValue nvj < 2 ^ 62 := hbnd j hj _ hmemRj
        have h1 := hmin j (by omega) naj nvj hbfj
        have h2 := hminj r hrm hfree hq
        rw [getActualValue_eq_rbGetValue nvj hnvj62] at h1
        constructor
        · omega
        · intro hji
          have h3 := hstrict j hji naj nvj hbfj
          rw [getActualValue_eq_rbGetValue nvj hnvj62] at h3
          omega
    refine ⟨i, na, nv, rfl, hile, rfl, hmemR, hk, ?_, ?_⟩
    · intro j hj r hrm hfree hq
      have := (hglobal j hj r hrm hfree hq).1
      rw [getActualValue_eq_rbGetValue nv hnv62] at this
      exact this
    · intro j hji r hrm hfree hq
      have := (hglobal j (by omega) r hrm hfree hq).2 hji
      rw [getActualValue_eq_rbGetValue nv hnv62] at this
      exact this
  | none =>
    right
    refine ⟨rfl, ?_⟩
    have hnone := (bfFold_spec s bytes (s.current_block_index + 1)).1
      (best_fit_eq_fold s bytes ▸ hbf)
    intro j hj r hrm hfree
    exact block_best_fit_none _ bytes (hpool.inv j hj).tree_regions
      (hpool.inv j hj).ordered (hnone j (by omega)) r hrm hfree

theorem C7_global_best_fit_witness :
    (((BlocksContainer.mkNew 1024 2 1000).allocate 100 none).1 = .ok 1048) ∧
    ((∃ i na nv,
      (BlocksContainer.mkNew 1024 2 1000).best_fit 100 = some (i, na, nv) ∧
      i ≤ (BlocksContainer.mkNew 1024 2 1000).current_block_index ∧
      (1048 : Nat) = na + MEMORY_NODE_SIZE ∧
      (⟨na, rbGetValue nv, false⟩ : Region) ∈
        ((BlocksContainer.mkNew 1024 2 1000).blocks.getD i Block.default).regions ∧
      100 ≤ rbGetValue nv ∧
      (∀ j, j ≤ (BlocksContainer.mkNew 1024 2 1000).current_block_index →
        ∀ r ∈ ((BlocksContainer.mkNew 1024 2 1000).blocks.getD j
          Block.default).regions,
          r.used = false → 100 ≤ r.size → rbGetValue nv ≤ r.size) ∧
      (∀ j, j < i →
        ∀ r ∈ ((BlocksContainer.mkNew 1024 2 1000).blocks.getD j
          Block.default).regions,
          r.used = false → 100 ≤ r.size → rbGetValue nv < r.size)) ∨
    ((BlocksContainer.mkNew 1024 2 1000).best_fit 100 = none ∧
      ∀ j, j ≤ (BlocksContainer.mkNew 1024 2 1000).current_block_index →
        ∀ r ∈ ((BlocksContainer.mkNew 1024 2 1000).blocks.getD j
          Block.default).regions,
          r.used = false → r.size < 100)) :=
  ⟨by decide,
    C7_global_best_fit (BlocksContainer.mkNew 1024 2 1000) 100 none 1048
      (Reachable.init 1024 2 1000 (by decide) (by decide) (by decide)
        (by decide))
      (by decide)⟩

end HA
